import Mathlib

/-!
Verification of the schemagic structural schema-validation engine.

This file gives a shallow embedding of the Python sources
(schemagic/core.py, schemagic/validators.py, schemagic/utils.py,
schemagic/func.py) and proves properties of the embedded code.

Modelling conventions:
  * Python runtime values are the inductive type Py: None, bools, ints,
    floats (modelled exactly as a numerator and a positive denominator; no
    float arithmetic occurs in the validated code paths, only construction,
    truncation by int(), equality and truthiness), strings, lists (Python
    tuples are also sequences
    and are modelled as lists, which matches their classification and
    iteration behaviour in this code base), dicts (association lists; real
    Python dicts always have pairwise-distinct keys, which appears as a
    well-formedness hypothesis where proofs need it), and function objects.
  * Function objects are a closed syntax Fn of exactly the callables the
    library constructs or accepts as leaf schemas: the builtins int, str
    and float, the identity lambda from func.py, a predicate validator
    closure (validators.predicate_validator with all arguments but data
    applied), and a curried core.validator closure.  Python compares
    function objects by identity; the embedding compares them structurally,
    which only matters for the unused corner of function-valued dict keys.
  * Exceptions are modelled by Except with a structured error type Err
    whose constructors carry exactly the data the Python error messages
    format in (Python interpolates these into message strings whose exact
    text also contains memory addresses of function objects, which have no
    faithful pure model).
  * Recursion depth is modelled by fuel; running out of fuel is the
    RecursionError of the interpreter (Err.recursionLimit).  Python frames
    grow with nesting depth; here fuel decreases once per nested call,
    including iteration steps, which only rescales the depth bound.
  * The regular expressions of validators.py are consumed through
    re.match; the embedding models the single pattern family needed by the
    claims (the pattern of one-or-more digits) with exact match-at-start
    semantics.
  * The interpreter flag consulted by the WHEN_DEBUGGING predicate is the
    default one of a plain python run (no -O), i.e. true.
-/

namespace Schemagic

/-- Coercers passed to predicate_validator: the library only ever supplies
the builtin str (formatted_string) or no coercer at all. -/
inductive Coercer where
  | toStr

/-- Zero-argument validation predicates passed to core.validator /
func.validated: the library supplies ALWAYS, a lambda returning the debug
flag (_WHEN_DEBUGGING / WHEN_DEBUGGING), or nothing. -/
inductive BPred where
  | always
  | whenDebugging
  | never

/-- Regex patterns appearing in the claims: the digits pattern of one or
more digit characters. -/
inductive Rgx where
  | digitsPlus

/-- The five schema shapes of the dispatch in core.py. -/
inductive SchemaForm where
  | seqTemplate
  | strictSeq
  | mapTemplate
  | keyedMapping
  | leaf

mutual
/-- A Python runtime value as handled by schemagic. -/
inductive Py where
  | none
  | bool (b : Bool)
  | int (n : Int)
  | float (num : Int) (den : Nat)
  | str (s : String)
  | list (xs : List Py)
  | dict (entries : List (Py × Py))
  | func (f : Fn)

/-- The callables of the library (leaf schemas and curried validators). -/
inductive Fn where
  | pyInt
  | pyStr
  | pyFloat
  | identity
  | predValidator (p : Pred) (name : String) (coercer : Option Coercer)
      (message : Option String)
  | curriedValidator (schema : Py) (subject : String) (vp : Option BPred)
      (coerceData : Bool)

/-- The one-argument predicates the library builds validators from. -/
inductive Pred where
  | isNone
  | reMatch (pattern : Rgx)
  | anySchema (schemata : List Py)
  | memberOf (vals : List Py)
end

/-- Structured model of the exceptions the embedded code can raise.  Each
constructor carries the data the corresponding Python message formats in. -/
inductive Err where
  | recursionLimit
  | missingKeys (missing : List Py) (value : Py)
  | lengthMismatch (value : Py) (schema : Py)
  | predicateFailed (p : Pred) (name : String) (message : Option String)
      (value : Py)
  | typeErrorNotCallable (schema : Py)
  | typeErrorNoLen (value : Py)
  | attributeErrorNoKeys (value : Py)
  | typeErrorUnhashable (key : Py)
  | typeErrorReMatch (value : Py)
  | typeErrorBadCoercion (value : Py)
  | valueErrorBadLiteral (s : String)
  | typeErrorUnpack (value : Py)
  | noDispatch
  | badValue (subject : String) (error : Err) (value : Py) (schema : Py)

/-- Numeric view of a value as an exact fraction: Python compares bools,
ints and floats as numbers (True == 1 == 1.0). -/
def toNumView : Py → Option (Int × Nat)
  | .bool b => some (if b then 1 else 0, 1)
  | .int n => some (n, 1)
  | .float num den => some (num, den)
  | _ => Option.none

/-- Equality of optional coercers. -/
def coercerEq : Option Coercer → Option Coercer → Bool
  | Option.none, Option.none => true
  | some .toStr, some .toStr => true
  | _, _ => false

/-- Equality of optional boolean predicates. -/
def bpredEq : Option BPred → Option BPred → Bool
  | Option.none, Option.none => true
  | some .always, some .always => true
  | some .whenDebugging, some .whenDebugging => true
  | some .never, some .never => true
  | _, _ => false

mutual
/-- Structural size of a value, used as a recursion-depth bound for the
equality test (the code itself has no size function; values are finite
trees and Python equality recurses over them). -/
def pySize : Py → Nat
  | .list xs => 1 + pySizeList xs
  | .dict es => 1 + pySizeEntries es
  | .func f => 1 + pySizeFn f
  | _ => 1

def pySizeFn : Fn → Nat
  | .predValidator p _ _ _ => 1 + pySizePred p
  | .curriedValidator s _ _ _ => 1 + pySize s
  | _ => 1

def pySizePred : Pred → Nat
  | .anySchema ss => 1 + pySizeList ss
  | .memberOf vs => 1 + pySizeList vs
  | _ => 1

def pySizeList : List Py → Nat
  | [] => 0
  | x :: xs => 1 + pySize x + pySizeList xs

def pySizeEntries : List (Py × Py) → Nat
  | [] => 0
  | (k, v) :: es => 1 + pySize k + pySize v + pySizeEntries es
end

/-- Pointwise equality of lists for a given element test. -/
def listEqWith (eq : Py → Py → Bool) : List Py → List Py → Bool
  | [], [] => true
  | x :: xs, y :: ys => eq x y && listEqWith eq xs ys
  | _, _ => false

/-- Membership of a key-value pair in an entry list up to a given test. -/
def memEntryWith (eq : Py → Py → Bool) (k v : Py) : List (Py × Py) → Bool
  | [] => false
  | (kf, vf) :: rest => (eq k kf && eq v vf) || memEntryWith eq k v rest

/-- Every entry of the first list appears in the second, up to the test. -/
def entriesSubWith (eq : Py → Py → Bool) :
    List (Py × Py) → List (Py × Py) → Bool
  | [], _ => true
  | (k, v) :: rest, fs => memEntryWith eq k v fs && entriesSubWith eq rest fs

/-- Equality of library predicates for a given value test. -/
def predEqWith (eq : Py → Py → Bool) : Pred → Pred → Bool
  | .isNone, .isNone => true
  | .reMatch .digitsPlus, .reMatch .digitsPlus => true
  | .anySchema xs, .anySchema ys => listEqWith eq xs ys
  | .memberOf xs, .memberOf ys => listEqWith eq xs ys
  | _, _ => false

/-- Equality of function objects for a given value test.  Python compares
function objects by identity; the embedding compares the closed function
syntax structurally, which no validated code path of the claims exercises. -/
def fnEqWith (eq : Py → Py → Bool) : Fn → Fn → Bool
  | .pyInt, .pyInt => true
  | .pyStr, .pyStr => true
  | .pyFloat, .pyFloat => true
  | .identity, .identity => true
  | .predValidator p n c m, .predValidator p' n' c' m' =>
      predEqWith eq p p' && (n == n') && coercerEq c c' && (m == m')
  | .curriedValidator s subj vp co, .curriedValidator s' subj' vp' co' =>
      eq s s' && (subj == subj') && bpredEq vp vp' && (co == co')
  | _, _ => false

/-- Python equality (the == operator) on the values of the model, bounded
by recursion fuel (pyEq below supplies enough fuel for any two arguments):
numeric cross-type equality as exact fractions, structural equality on
strings and lists, key-set based order-insensitive equality on dicts, None
equal only to None. -/
def pyEqB : Nat → Py → Py → Bool
  | 0, _, _ => false
  | fuel + 1, a, b =>
    match a, b with
    | .none, .none => true
    | .str s, .str t => s == t
    | .list xs, .list ys => listEqWith (fun x y => pyEqB fuel x y) xs ys
    | .dict es, .dict fs =>
        Nat.beq es.length fs.length
          && entriesSubWith (fun x y => pyEqB fuel x y) es fs
          && entriesSubWith (fun x y => pyEqB fuel x y) fs es
    | .func f, .func g => fnEqWith (fun x y => pyEqB fuel x y) f g
    | a, b =>
        match toNumView a, toNumView b with
        | some (n1, d1), some (n2, d2) => n1 * (d2 : Int) == n2 * (d1 : Int)
        | _, _ => false

/-- Python equality (the == operator) on the values of the model. -/
def pyEq (a b : Py) : Bool := pyEqB (pySize a + pySize b + 1) a b

/-- Python truthiness of a value. -/
def pyTruthy : Py → Bool
  | .none => false
  | .bool b => b
  | .int n => decide (n ≠ 0)
  | .float num _ => decide (num ≠ 0)
  | .str s => !s.isEmpty
  | .list xs => !xs.isEmpty
  | .dict es => !es.isEmpty
  | .func _ => true

mutual
/-- Model of the builtin str() on the values of the model.  List and dict
renderings interpolate element reprs; the repr of a function object is
address-dependent in Python and rendered with a fixed placeholder here;
floats with a denominator other than one render as a fraction (Python
prints a decimal expansion; no validated code path of the claims
stringifies such a float). -/
def pyToString : Py → String
  | .none => "None"
  | .bool b => if b then "True" else "False"
  | .int n => toString n
  | .float num den =>
      if den = 1 then toString num ++ ".0"
      else toString num ++ "/" ++ toString den
  | .str s => s
  | .list xs => "[" ++ pyReprJoin xs ++ "]"
  | .dict es => "\x7b" ++ pyReprJoinEntries es ++ "\x7d"
  | .func _ => "<function>"

/-- Model of the builtin repr(): as str() except that strings are quoted. -/
def pyRepr : Py → String
  | .none => "None"
  | .bool b => if b then "True" else "False"
  | .int n => toString n
  | .float num den =>
      if den = 1 then toString num ++ ".0"
      else toString num ++ "/" ++ toString den
  | .str s => "\x27" ++ s ++ "\x27"
  | .list xs => "[" ++ pyReprJoin xs ++ "]"
  | .dict es => "\x7b" ++ pyReprJoinEntries es ++ "\x7d"
  | .func _ => "<function>"

def pyReprJoin : List Py → String
  | [] => ""
  | [x] => pyRepr x
  | x :: xs => pyRepr x ++ ", " ++ pyReprJoin xs

def pyReprJoinEntries : List (Py × Py) → String
  | [] => ""
  | [(k, v)] => pyRepr k ++ ": " ++ pyRepr v
  | (k, v) :: es => pyRepr k ++ ": " ++ pyRepr v ++ ", " ++ pyReprJoinEntries es
end

/-- Truncation toward zero of a fraction, the behaviour of int() on a
float. -/
def truncFrac (num : Int) (den : Nat) : Int :=
  if 0 ≤ num then Int.ofNat (num.toNat / den)
  else -(Int.ofNat ((-num).toNat / den))

/-- Whitespace characters stripped by int() and float() from strings. -/
def isSpaceChar (c : Char) : Bool :=
  c == ' ' || c == '\t' || c == '\n' || c == '\r'

/-- Strip surrounding whitespace from the characters of a string. -/
def stripChars (s : String) : List Char :=
  ((s.toList.dropWhile isSpaceChar).reverse.dropWhile isSpaceChar).reverse

/-- Parse a nonempty all-digit character list as a natural number. -/
def parseDigits : List Char → Option Nat
  | [] => Option.none
  | cs =>
      if cs.all Char.isDigit then
        some (cs.foldl (fun a c => a * 10 + (c.toNat - 48)) 0)
      else Option.none

/-- Model of int() applied to a string: optional surrounding whitespace,
optional sign, one or more digits. -/
def parseIntPy (s : String) : Option Int :=
  match stripChars s with
  | '+' :: rest => (parseDigits rest).map Int.ofNat
  | '-' :: rest => (parseDigits rest).map (fun n => -(n : Int))
  | t => (parseDigits t).map Int.ofNat

/-- Model of float() applied to a string: optional surrounding whitespace,
optional sign, digits with an optional fractional part; the result is the
exact fraction. -/
def parseFloatCore (cs : List Char) : Option (Int × Nat) :=
  match cs.splitOn '.' with
  | [ipart] => (parseDigits ipart).map (fun n => (Int.ofNat n, 1))
  | [ipart, fpart] =>
      match parseDigits ipart, parseDigits fpart with
      | some i, some f =>
          some (Int.ofNat (i * 10 ^ fpart.length + f), 10 ^ fpart.length)
      | _, _ => Option.none
  | _ => Option.none

def parseFloatPy (s : String) : Option (Int × Nat) :=
  match stripChars s with
  | '+' :: rest => parseFloatCore rest
  | '-' :: rest => (parseFloatCore rest).map (fun p => (-p.1, p.2))
  | t => parseFloatCore t

/-- The builtin int used as a leaf schema: coerces bools, ints, floats
(truncating) and numeric strings; TypeError on None, sequences, mappings
and functions; ValueError on non-numeric strings. -/
def pyIntFn : Py → Except Err Py
  | .bool b => .ok (.int (if b then 1 else 0))
  | .int n => .ok (.int n)
  | .float num den => .ok (.int (truncFrac num den))
  | .str s =>
      match parseIntPy s with
      | some n => .ok (.int n)
      | Option.none => .error (.valueErrorBadLiteral s)
  | v => .error (.typeErrorBadCoercion v)

/-- The builtin float used as a leaf schema. -/
def pyFloatFn : Py → Except Err Py
  | .bool b => .ok (.float (if b then 1 else 0) 1)
  | .int n => .ok (.float n 1)
  | .float num den => .ok (.float num den)
  | .str s =>
      match parseFloatPy s with
      | some p => .ok (.float p.1 p.2)
      | Option.none => .error (.valueErrorBadLiteral s)
  | v => .error (.typeErrorBadCoercion v)

/-- Model of re.match for the supported patterns: match-at-start semantics,
so the digits pattern succeeds exactly when the string starts with a digit. -/
def regexMatchStart : Rgx → String → Bool
  | .digitsPlus, s =>
      match s.toList with
      | [] => false
      | c :: _ => c.isDigit

/-- The interpreter debug flag consulted by WHEN_DEBUGGING, true in a
default (non -O) run. -/
def debugFlag : Bool := true

/-- Evaluate a zero-argument validation predicate. -/
def evalBPred : BPred → Bool
  | .always => true
  | .whenDebugging => debugFlag
  | .never => false

/-- Apply an optional coercer (predicate_validator line 27). -/
def applyCoercer : Option Coercer → Py → Py
  | Option.none, v => v
  | some .toStr, v => .str (pyToString v)

/-- A value is a Python string (utils.is_string). -/
def is_string : Py → Bool
  | .str _ => true
  | _ => false

/-- A value is an instance of collections.Sequence: lists (and tuples,
modelled as lists) and strings. -/
def isSeqPy : Py → Bool
  | .list _ => true
  | .str _ => true
  | _ => false

/-- A value is an instance of collections.MutableMapping. -/
def isDictPy : Py → Bool
  | .dict _ => true
  | _ => false

/-- len() of a sequence (used on schemas, which are sequences when these
are consulted). -/
def seqLenPy : Py → Nat
  | .list xs => xs.length
  | .str s => s.length
  | _ => 0

/-- The elements produced by len() plus iteration: list elements, the
characters of a string as one-character strings, the keys of a dict.
Values without len() (numbers, None, functions) give Option.none. -/
def iterElemsPy : Py → Option (List Py)
  | .list xs => some xs
  | .str s => some (s.toList.map (fun c => .str (String.mk [c])))
  | .dict es => some (es.map (fun kv => kv.1))
  | _ => Option.none

/-- Indexing schema[0] on a sequence schema. -/
def seqFirst : Py → Py
  | .list (x :: _) => x
  | .str s =>
      match s.toList with
      | c :: _ => .str (String.mk [c])
      | [] => .str ""
  | _ => .none

/-- core.py line 70: a mapping with exactly one item whose key is not a
string. -/
def is_map_template : Py → Bool
  | .dict [(k, _)] => !is_string k
  | _ => false

/-- core.py line 71: any other mapping. -/
def is_keyed_mapping (schema : Py) : Bool :=
  isDictPy schema && !is_map_template schema

/-- core.py line 72: a sequence of exactly one element. -/
def is_sequence_template (schema : Py) : Bool :=
  isSeqPy schema && seqLenPy schema == 1

/-- core.py line 73: a sequence of two or more elements. -/
def is_strict_sequence (schema : Py) : Bool :=
  isSeqPy schema && decide (1 < seqLenPy schema)

/-- The multiple_dispatch_fn of core.py lines 75-80: predicates are tried
in insertion order of the dispatch map (sequence template, strict
sequence, map template, keyed mapping) and the default handler treats the
schema as a callable leaf. -/
def classify (schema : Py) : SchemaForm :=
  if is_sequence_template schema then .seqTemplate
  else if is_strict_sequence schema then .strictSeq
  else if is_map_template schema then .mapTemplate
  else if is_keyed_mapping schema then .keyedMapping
  else .leaf

/-- First value bound to a key equal (==) to k, comparing stored keys
against the probe as dict lookup does. -/
def lookupEntry : List (Py × Py) → Py → Option Py
  | [], _ => Option.none
  | (k0, v0) :: rest, k => if pyEq k0 k then some v0 else lookupEntry rest k

/-- Dict item assignment d[k] = v: replace the value at the first key
equal to k (the stored key object is kept), else append a new entry. -/
def dictInsert : List (Py × Py) → Py → Py → List (Py × Py)
  | [], k, v => [(k, v)]
  | (k0, v0) :: rest, k, v =>
      if pyEq k0 k then (k0, v) :: rest else (k0, v0) :: dictInsert rest k v

/-- Dict item assignment with the hashability check dict insertion
performs: lists and dicts are unhashable. -/
def dictInsertChecked (es : List (Py × Py)) (k v : Py) :
    Except Err (List (Py × Py)) :=
  match k with
  | .list _ => .error (.typeErrorUnhashable k)
  | .dict _ => .error (.typeErrorUnhashable k)
  | _ => .ok (dictInsert es k v)

/-- utils.merge_with for an effectful combining function: start from a
copy of a and for each entry of b in order, combine with the existing
value at an equal key or append. -/
def merge_with (fn : Py → Py → Except Err Py) :
    List (Py × Py) → List (Py × Py) → Except Err (List (Py × Py))
  | fresh, [] => .ok fresh
  | fresh, (k, v) :: rest =>
      match lookupEntry fresh k with
      | some old => do
          let r ← fn old v
          merge_with fn (dictInsert fresh k r) rest
      | Option.none => merge_with fn (dictInsert fresh k v) rest

/-- The any() generator of validators.or_: validate the value against each
schema in order through the supplied dispatcher, stopping at the first
truthy result; an exception raised by a validation propagates. -/
def anyTruthy (recur : Py → Py → Except Err Py) :
    List Py → Py → Except Err Bool
  | [], _ => .ok false
  | s :: rest, d => do
      let r ← recur s d
      if pyTruthy r then .ok true else anyTruthy recur rest d

/-- Evaluate a library predicate on (already coerced) data.  The
membership test of enum and the identity test of null are pure; the regex
predicate requires string data; the any-schema predicate of or_ runs
validations through the dispatcher. -/
def evalPred (recur : Py → Py → Except Err Py) (p : Pred) (d : Py) :
    Except Err Bool :=
  match p with
  | .isNone =>
      .ok (match d with
           | .none => true
           | _ => false)
  | .reMatch pat =>
      match d with
      | .str s => .ok (regexMatchStart pat s)
      | v => .error (.typeErrorReMatch v)
  | .anySchema ss => anyTruthy recur ss d
  | .memberOf vals => .ok (vals.any (fun x => pyEq x d))

/-- validators.predicate_validator applied to data (lines 24-31): when
data is None the call returns the validator itself, curried; otherwise the
coercer is applied first, then the predicate is evaluated on the coerced
data; a false predicate raises an error carrying the predicate, its name,
the optional custom message and the coerced data (Python appends the
printout of the coerced data to the message); a true predicate returns the
coerced data. -/
def predicate_validator (recur : Py → Py → Except Err Py) (p : Pred)
    (name : String) (coercer : Option Coercer) (message : Option String)
    (data : Py) : Except Err Py :=
  match data with
  | .none => .ok (.func (.predValidator p name coercer message))
  | _ => do
      let d := applyCoercer coercer data
      let b ← evalPred recur p d
      if b then .ok d else .error (.predicateFailed p name message d)

/-- core.validator applied to data (lines 144-160), with the recursive
dispatcher supplied: data None returns the curried validator; a false
validation predicate skips validation and returns the data; otherwise the
data is validated, the result or original returned according to
coerce_data, and any validation error is wrapped with the subject name,
the data and the schema. -/
def validatorCall (recur : Py → Py → Except Err Py) (schema : Py)
    (subject : String) (vp : Option BPred) (coerceData : Bool) (data : Py) :
    Except Err Py :=
  match data with
  | .none => .ok (.func (.curriedValidator schema subject vp coerceData))
  | _ =>
      let p := vp.getD .whenDebugging
      if evalBPred p then
        match recur schema data with
        | .ok coerced => .ok (if coerceData then coerced else data)
        | .error e => .error (.badValue subject e data schema)
      else .ok data

/-- Call a function object on one argument. -/
def callFn (recur : Py → Py → Except Err Py) (f : Fn) (data : Py) :
    Except Err Py :=
  match f with
  | .pyInt => pyIntFn data
  | .pyStr => .ok (.str (pyToString data))
  | .pyFloat => pyFloatFn data
  | .identity => .ok data
  | .predValidator p name coercer message =>
      predicate_validator recur p name coercer message data
  | .curriedValidator schema subject vp coerceData =>
      validatorCall recur schema subject vp coerceData data

/-- Validate each element of the value against one schema, in order,
collecting the coerced elements (the list(map(...)) of
validate_sequence_template). -/
def validateEach (recur : Py → Py → Except Err Py) (schema : Py) :
    List Py → Except Err (List Py)
  | [] => .ok []
  | v :: vs => do
      let r ← recur schema v
      let rs ← validateEach recur schema vs
      .ok (r :: rs)

/-- Validate positionally, element i of the value against schema element i
(the list(map(...)) over two sequences of validate_strict_sequence; map
stops at the shorter sequence, but the caller has checked equal lengths). -/
def validateZip (recur : Py → Py → Except Err Py) :
    List Py → List Py → Except Err (List Py)
  | s :: ss, v :: vs => do
      let r ← recur s v
      let rs ← validateZip recur ss vs
      .ok (r :: rs)
  | _, _ => .ok []

/-- core.validate_sequence_template: len(value) must exist; every element
of the value is validated against schema[0]; the result is a list. -/
def validate_sequence_template (recur : Py → Py → Except Err Py)
    (schema value : Py) : Except Err Py :=
  match iterElemsPy value with
  | some elems => (validateEach recur (seqFirst schema) elems).map Py.list
  | Option.none => .error (.typeErrorNoLen value)

/-- core.validate_strict_sequence: fail when the value sequence has a
different length from the schema sequence (the raised ValueError formats
in the value and the schema); otherwise validate positionally. -/
def validate_strict_sequence (recur : Py → Py → Except Err Py)
    (schema value : Py) : Except Err Py :=
  match iterElemsPy value with
  | some elems =>
      if seqLenPy schema = elems.length then
        match iterElemsPy schema with
        | some ss => (validateZip recur ss elems).map Py.list
        | Option.none => .error (.typeErrorNoLen schema)
      else .error (.lengthMismatch value schema)
  | Option.none => .error (.typeErrorNoLen value)

/-- The dict(map(validate_key_val_pair, keys, values)) loop of
validate_map_template: validate key then value of each entry and insert
the coerced pair into the dict being built. -/
def mapTemplateLoop (recur : Py → Py → Except Err Py) (kS vS : Py)
    (acc : List (Py × Py)) : List (Py × Py) → Except Err (List (Py × Py))
  | [] => .ok acc
  | (k, v) :: rest => do
      let k' ← recur kS k
      let v' ← recur vS v
      let acc' ← dictInsertChecked acc k' v'
      mapTemplateLoop recur kS vS acc' rest

/-- core.validate_map_template: the single schema entry gives the key
schema and the value schema; every key and value of the value mapping is
validated against them and a new dict is built from the coerced pairs.
A non-mapping value has no keys()/values() and raises. -/
def validate_map_template (recur : Py → Py → Except Err Py)
    (schema value : Py) : Except Err Py :=
  match value with
  | .dict es =>
      match schema with
      | .dict ((kS, vS) :: _) =>
          (mapTemplateLoop recur kS vS [] es).map Py.dict
      | _ => .error (.noDispatch)
  | v => .error (.attributeErrorNoKeys v)

/-- The keys of the schema absent from the value
(set(schema.keys()) - set(value.keys())); the set membership test compares
stored value keys against each schema key.  Python iterates the result set
in unspecified order; the model lists missing keys in schema order (real
schemas are dicts, so their keys are distinct). -/
def missingKeysOf (schemaEntries valueEntries : List (Py × Py)) : List Py :=
  (schemaEntries.map (fun kv => kv.1)).filter
    (fun ks => !(valueEntries.any (fun kv => pyEq kv.1 ks)))

/-- core.validate_keyed_mapping: fail when any schema key is absent from
the value, listing all missing keys and the value; otherwise merge the
schema with the value, validating the value entry at every schema key and
passing other entries through. -/
def validate_keyed_mapping (recur : Py → Py → Except Err Py)
    (schema value : Py) : Except Err Py :=
  match value with
  | .dict vs =>
      match schema with
      | .dict ss =>
          let missing := missingKeysOf ss vs
          if missing.isEmpty then (merge_with recur ss vs).map Py.dict
          else .error (.missingKeys missing value)
      | _ => .error (.noDispatch)
  | v => .error (.attributeErrorNoKeys v)

/-- core.validate_against_schema: dispatch on the shape of the schema in
the fixed predicate order, defaulting to calling the schema as a function;
fuel models the recursion depth limit of the interpreter. -/
def validate_against_schema : Nat → Py → Py → Except Err Py
  | 0, _, _ => .error .recursionLimit
  | fuel + 1, schema, value =>
    match classify schema with
    | .seqTemplate =>
        validate_sequence_template
          (fun s v => validate_against_schema fuel s v) schema value
    | .strictSeq =>
        validate_strict_sequence
          (fun s v => validate_against_schema fuel s v) schema value
    | .mapTemplate =>
        validate_map_template
          (fun s v => validate_against_schema fuel s v) schema value
    | .keyedMapping =>
        validate_keyed_mapping
          (fun s v => validate_against_schema fuel s v) schema value
    | .leaf =>
        match schema with
        | .func f => callFn (fun s v => validate_against_schema fuel s v) f value
        | s => .error (.typeErrorNotCallable s)

/-- core.validator with a concrete fuel supply for the dispatcher. -/
def validator (fuel : Nat) (schema : Py) (subject : String)
    (vp : Option BPred) (coerceData : Bool) (data : Py) : Except Err Py :=
  validatorCall (fun s v => validate_against_schema fuel s v) schema subject
    vp coerceData data

/-- The builtin int as a schema value. -/
def intPy : Py := .func .pyInt

/-- The builtin float as a schema value. -/
def floatPy : Py := .func .pyFloat

/-- The builtin str as a schema value. -/
def strPy : Py := .func .pyStr

/-- The default message of formatted_string.  The source formats the
builtin format function into the message (validators.py line 37), whose
printout is the fixed text below up to the address suffix. -/
def formatted_string_message : String :=
  "string not of expected format: expected: <built-in function format>"

/-- validators.formatted_string with its default keyword arguments: the
data is stringified first, then matched at the start against the pattern. -/
def formatted_string (pattern : Rgx) : Py :=
  .func (.predValidator (.reMatch pattern) "formatted_string" (some .toStr)
    (some formatted_string_message))

/-- validators.null: a predicate validator accepting exactly None, with no
coercer and no custom message. -/
def null : Py :=
  .func (.predValidator .isNone "null" Option.none Option.none)

/-- validators.or_: a predicate validator whose predicate is
any(validate_against_schema(schema, val) for schema in schemata), with no
coercer and no custom message (the generated name formats the schema tuple
printout in and is fixed here). -/
def or_ (schemata : List Py) : Py :=
  .func (.predValidator (.anySchema schemata) "or_" Option.none Option.none)

/-- validators.enum: a predicate validator testing membership among the
allowed values. -/
def enum (vals : List Py) : Py :=
  .func (.predValidator (.memberOf vals) "enum" Option.none Option.none)

/-- func.IDENTITY, the identity lambda used as the no-op schema. -/
def IDENTITY : Py := .func .identity

/-- Split a sequence value into validated_input[:-1] and
validated_input[-1]; fails on values that cannot be sliced. -/
def splitLastSeq (v : Py) : Option (List Py × Py) :=
  match iterElemsPy v with
  | some elems =>
      match elems.reverse with
      | last :: revInit => some (revInit.reverse, last)
      | [] => Option.none
  | Option.none => Option.none

/-- The sequence elements of a validated input used as positional
arguments (fn applied to a star-unpacked value). -/
def asArgList (v : Py) : Option (List Py) :=
  match v with
  | .list xs => some xs
  | .str s => some (s.toList.map (fun c => .str (String.mk [c])))
  | _ => Option.none

/-- func.validate_function_input: the four-way packing rule.  Positional
and keyword arguments together validate as the sequence of the positionals
followed by the keyword mapping, then split back mirror-wise; keyword
arguments alone validate as the mapping; two or more positionals validate
as their sequence; exactly one positional validates unwrapped; no
arguments pass through untouched. -/
def validate_function_input (input_validator : Py → Except Err Py)
    (arg_list : List Py) (kwarg_dict : List (Py × Py)) :
    Except Err (List Py × List (Py × Py)) :=
  match arg_list, kwarg_dict with
  | a :: args, k :: kwargs => do
      let validated_input ←
        input_validator (.list ((a :: args) ++ [.dict (k :: kwargs)]))
      match splitLastSeq validated_input with
      | some (fore, lastV) =>
          match lastV with
          | .dict ks => .ok (fore, ks)
          | v => .error (.typeErrorUnpack v)
      | Option.none => .error (.typeErrorUnpack validated_input)
  | [], k :: kwargs => do
      let validated_input ← input_validator (.dict (k :: kwargs))
      match validated_input with
      | .dict ks => .ok ([], ks)
      | v => .error (.typeErrorUnpack v)
  | a :: b :: args, [] => do
      let validated_input ← input_validator (.list (a :: b :: args))
      match asArgList validated_input with
      | some xs => .ok (xs, [])
      | Option.none => .error (.typeErrorUnpack validated_input)
  | [a], [] => do
      let validated_input ← input_validator a
      .ok ([validated_input], [])
  | [], [] => .ok ([], [])

/-- func.validated applied to a call: build input and output validators
from the schemas (or the identity schema), validate and unpack the
arguments, invoke the wrapped function, validate its return value. -/
def validated (fuel : Nat) (validation_predicate : Option BPred)
    (coerce_data : Bool) (input_schema output_schema : Option Py)
    (fnName : String) (fn : List Py → List (Py × Py) → Except Err Py)
    (args : List Py) (kwargs : List (Py × Py)) : Except Err Py := do
  let vp := some (validation_predicate.getD .whenDebugging)
  let input_validator := validatorCall
    (fun s v => validate_against_schema fuel s v) (input_schema.getD IDENTITY)
    ("input to function " ++ fnName) vp coerce_data
  let output_validator := validatorCall
    (fun s v => validate_against_schema fuel s v) (output_schema.getD IDENTITY)
    ("output from function " ++ fnName) vp coerce_data
  let (validated_args, validated_kwargs) ←
    validate_function_input input_validator args kwargs
  let r ← fn validated_args validated_kwargs
  output_validator r

/-! Generic reduction lemmas for Except used throughout the proofs. -/

@[simp]
theorem exceptBind_ok (a : α) (f : α → Except ε β) :
    (bind (Except.ok a) f : Except ε β) = f a := rfl

@[simp]
theorem exceptBind_error (e : ε) (f : α → Except ε β) :
    (bind (Except.error e) f : Except ε β) = Except.error e := rfl

@[simp]
theorem exceptMap_ok (f : α → β) (a : α) :
    (Except.map f (Except.ok a) : Except ε β) = Except.ok (f a) := rfl

@[simp]
theorem exceptMap_error (f : α → β) (e : ε) :
    (Except.map f (Except.error e) : Except ε β) = Except.error e := rfl

/-! Classification lemmas. -/

theorem classify_func (f : Fn) : classify (.func f) = .leaf := rfl

theorem classify_str_one {s : String} (h : s.length = 1) :
    classify (.str s) = .seqTemplate := by
  simp [classify, is_sequence_template, is_strict_sequence, isSeqPy, seqLenPy, h]

theorem classify_str_many {s : String} (h : 2 ≤ s.length) :
    classify (.str s) = .strictSeq := by
  have h1 : (s.length == 1) = false := by
    simp only [beq_eq_false_iff_ne]
    omega
  have h2 : decide (1 < s.length) = true := by
    simp only [decide_eq_true_eq]
    omega
  simp [classify, is_sequence_template, is_strict_sequence, isSeqPy, seqLenPy,
    h1, h2]

theorem classify_list_one (x : Py) : classify (.list [x]) = .seqTemplate := by
  simp [classify, is_sequence_template, isSeqPy, seqLenPy]

theorem classify_list_strict {ss : List Py} (h : 2 ≤ ss.length) :
    classify (.list ss) = .strictSeq := by
  have h1 : (ss.length == 1) = false := by
    simp only [beq_eq_false_iff_ne]
    omega
  have h2 : decide (1 < ss.length) = true := by
    simp only [decide_eq_true_eq]
    omega
  simp [classify, is_sequence_template, is_strict_sequence, isSeqPy, seqLenPy,
    h1, h2]

theorem classify_list_empty : classify (.list []) = .leaf := rfl

/-- Unfolding of the dispatcher at positive fuel. -/
theorem validate_succ (fuel : Nat) (schema value : Py) :
    validate_against_schema (fuel + 1) schema value =
      match classify schema with
      | .seqTemplate =>
          validate_sequence_template
            (fun s v => validate_against_schema fuel s v) schema value
      | .strictSeq =>
          validate_strict_sequence
            (fun s v => validate_against_schema fuel s v) schema value
      | .mapTemplate =>
          validate_map_template
            (fun s v => validate_against_schema fuel s v) schema value
      | .keyedMapping =>
          validate_keyed_mapping
            (fun s v => validate_against_schema fuel s v) schema value
      | .leaf =>
          match schema with
          | .func f =>
              callFn (fun s v => validate_against_schema fuel s v) f value
          | s => .error (.typeErrorNotCallable s) := rfl

/-- Applying a function-object schema at positive fuel calls it. -/
theorem validate_func (fuel : Nat) (f : Fn) (value : Py) :
    validate_against_schema (fuel + 1) (.func f) value =
      callFn (fun s v => validate_against_schema fuel s v) f value := rfl

/-- Helper for C10: a one-character string schema indexes to itself. -/
theorem seqFirst_str_one {s : String} (h : s.length = 1) :
    seqFirst (.str s) = .str s := by
  obtain ⟨data⟩ := s
  match data, h with
  | [c], _ => rfl

/-- C10: strings satisfy the sequence classification predicates, so a
one-character string schema is classified as a sequence template and a
string schema of length two or more as a strict sequence, never as a leaf
function; moreover validating any non-empty string value against a
one-character string schema recurses forever: for every recursion depth
budget the call ends only by exhausting it (the RecursionError of the
interpreter). -/
theorem C10_string_schema_nontermination :
    (∀ s : String, s.length = 1 →
      classify (Py.str s) = SchemaForm.seqTemplate ∧
      classify (Py.str s) ≠ SchemaForm.leaf)
  ∧ (∀ s : String, 2 ≤ s.length →
      classify (Py.str s) = SchemaForm.strictSeq ∧
      classify (Py.str s) ≠ SchemaForm.leaf)
  ∧ (∀ fuel (s v : String), s.length = 1 → v ≠ "" →
      validate_against_schema fuel (Py.str s) (Py.str v) =
        Except.error Err.recursionLimit) := by
  refine ⟨fun s h => ⟨classify_str_one h, ?_⟩,
    fun s h => ⟨classify_str_many h, ?_⟩, ?_⟩
  · rw [classify_str_one h]
    intro hh
    exact SchemaForm.noConfusion hh
  · rw [classify_str_many h]
    intro hh
    exact SchemaForm.noConfusion hh
  · intro fuel
    induction fuel with
    | zero => intro s v hs hv; rfl
    | succ fuel ih =>
        intro s v hs hv
        rw [validate_succ, classify_str_one hs]
        rw [show validate_sequence_template
              (fun s v => validate_against_schema fuel s v) (Py.str s)
              (Py.str v) =
            (validateEach (fun s v => validate_against_schema fuel s v)
              (seqFirst (Py.str s))
              (v.toList.map (fun c => Py.str (String.mk [c])))).map Py.list
          from rfl]
        rw [seqFirst_str_one hs]
        obtain ⟨vdata⟩ := v
        match vdata, hv with
        | c :: cs, _ =>
            have hone : String.mk [c] ≠ "" := by
              intro hh
              have : ([c] : List Char) = [] := congrArg String.data hh
              exact List.noConfusion this
            simp only [List.map_cons, validateEach, ih s (String.mk [c]) hs hone,
              exceptBind_error, exceptMap_error]

/-- Witness for C10 at a concrete input: the schema "a" and the value
"xyz" exhaust any fuel, here 7. -/
theorem C10_witness :
    validate_against_schema 7 (Py.str "a") (Py.str "xyz") =
      Except.error Err.recursionLimit :=
  C10_string_schema_nontermination.2.2 7 "a" "xyz" rfl (by decide)

/-- C6 counterexample: applied to the null value, the null validator does
not return it; the data-is-None currying branch of predicate_validator
returns the curried validator function object instead. -/
theorem C6_counterexample :
    validate_against_schema 5 null Py.none =
      Except.ok (Py.func (Fn.predValidator Pred.isNone "null" Option.none
        Option.none))
  ∧ Py.func (Fn.predValidator Pred.isNone "null" Option.none Option.none) ≠
      Py.none :=
  ⟨rfl, fun h => Py.noConfusion h⟩

/-- C6 (amended): the null validator rejects every non-null value with a
predicate-rejected error carrying the value; applied to the null value it
does not validate but returns the curried validator function object (the
None data sentinel). -/
theorem C6_null_amended :
    (∀ fuel (v : Py), v ≠ Py.none →
      validate_against_schema (fuel + 1) null v =
        Except.error (Err.predicateFailed Pred.isNone "null" Option.none v))
  ∧ (∀ fuel, validate_against_schema (fuel + 1) null Py.none =
      Except.ok (Py.func (Fn.predValidator Pred.isNone "null" Option.none
        Option.none))) := by
  constructor
  · intro fuel v hv
    cases v with
    | none => exact absurd rfl hv
    | bool b => rfl
    | int n => rfl
    | float num den => rfl
    | str s => rfl
    | list xs => rfl
    | dict es => rfl
    | func f => rfl
  · intro fuel
    rfl

/-- Witness for C6: the amended theorem at the concrete value 1. -/
theorem C6_witness :
    validate_against_schema 5 null (Py.int 1) =
      Except.error (Err.predicateFailed Pred.isNone "null" Option.none
        (Py.int 1)) :=
  C6_null_amended.1 4 (Py.int 1) (fun h => Py.noConfusion h)

/-- C9: None is the data-not-supplied sentinel.  A curried validator from
core.validator applied to None returns a further curried validator
function instead of validating; a predicate validator applied to None
returns itself curried; and a guard-wrapped function whose wrapped
function returns None yields the curried output validator function object
rather than None.  Hence the null value can never flow through these
validators as data. -/
theorem C9_none_sentinel :
    (∀ fuel schema subject vp co,
      validator fuel schema subject vp co Py.none =
        Except.ok (Py.func (Fn.curriedValidator schema subject vp co)))
  ∧ (∀ fuel schema subject vp co,
      validate_against_schema (fuel + 1)
          (Py.func (Fn.curriedValidator schema subject vp co)) Py.none =
        Except.ok (Py.func (Fn.curriedValidator schema subject vp co)))
  ∧ (∀ fuel p n c m,
      validate_against_schema (fuel + 1)
          (Py.func (Fn.predValidator p n c m)) Py.none =
        Except.ok (Py.func (Fn.predValidator p n c m)))
  ∧ (∀ fuel vp co inS outS fnName fn (args : List Py)
        (kwargs : List (Py × Py)) a k,
      validate_function_input
          (validatorCall (fun s v => validate_against_schema fuel s v)
            (inS.getD IDENTITY) ("input to function " ++ fnName)
            (some (vp.getD .whenDebugging)) co) args kwargs =
        Except.ok (a, k) →
      fn a k = Except.ok Py.none →
      validated fuel vp co inS outS fnName fn args kwargs =
        Except.ok (Py.func (Fn.curriedValidator (outS.getD IDENTITY)
          ("output from function " ++ fnName) (some (vp.getD .whenDebugging))
          co))) := by
  refine ⟨fun _ _ _ _ _ => rfl, fun _ _ _ _ _ => rfl, fun _ _ _ _ _ => rfl,
    ?_⟩
  intro fuel vp co inS outS fnName fn args kwargs a k h1 h2
  simp only [validated, h1, exceptBind_ok, h2]
  rfl

/-- Witness for C9: a no-argument guard-wrapped call whose function
returns None yields a function object. -/
theorem C9_witness :
    validated 5 Option.none true Option.none Option.none "fn"
        (fun _ _ => Except.ok Py.none) [] [] =
      Except.ok (Py.func (Fn.curriedValidator IDENTITY
        "output from function fn" (some .whenDebugging) true)) :=
  C9_none_sentinel.2.2.2 5 Option.none true Option.none Option.none "fn"
    (fun _ _ => Except.ok Py.none) [] [] [] [] rfl rfl

/-- Applying a predicate validator to non-None data: coercion first, then
the predicate on the coerced data. -/
theorem predicate_validator_not_none (recur : Py → Py → Except Err Py)
    (p : Pred) (name : String) (coercer : Option Coercer)
    (message : Option String) (v : Py) (hv : v ≠ Py.none) :
    predicate_validator recur p name coercer message v =
      match evalPred recur p (applyCoercer coercer v) with
      | .ok true => .ok (applyCoercer coercer v)
      | .ok false =>
          .error (.predicateFailed p name message (applyCoercer coercer v))
      | .error e => .error e := by
  have step : ∀ w : Py,
      (do
        let d := applyCoercer coercer w
        let b ← evalPred recur p d
        if b then pure d
        else Except.error (.predicateFailed p name message d) :
        Except Err Py) =
      match evalPred recur p (applyCoercer coercer w) with
      | .ok true => .ok (applyCoercer coercer w)
      | .ok false =>
          .error (.predicateFailed p name message (applyCoercer coercer w))
      | .error e => .error e := by
    intro w
    cases h : evalPred recur p (applyCoercer coercer w) with
    | ok b =>
        cases b with
        | true => simp [h]; rfl
        | false => simp [h]
    | error e => simp [h]
  cases v with
  | none => exact absurd rfl hv
  | bool b => exact step (.bool b)
  | int n => exact step (.int n)
  | float num den => exact step (.float num den)
  | str s => exact step (.str s)
  | list xs => exact step (.list xs)
  | dict es => exact step (.dict es)
  | func f => exact step (.func f)

/-- C5: a predicate validator applies the coercer before the predicate
(the predicate always sees the coerced data), fails with an error carrying
the rejected coerced value (Python appends its printout to the message)
and returns the coerced value on success; formatted_string of the digits
pattern returns "112233" for "112233", coerces the number 112233 to
"112233" and accepts it, and rejects "abc" with a predicate-rejected
error. -/
theorem C5_predicate_validator :
    (∀ fuel (p : Pred) (name : String) (coercer : Option Coercer)
        (message : Option String) (v : Py), v ≠ Py.none →
      validate_against_schema (fuel + 1)
          (Py.func (Fn.predValidator p name coercer message)) v =
        match evalPred (fun s w => validate_against_schema fuel s w) p
            (applyCoercer coercer v) with
        | .ok true => .ok (applyCoercer coercer v)
        | .ok false =>
            .error (.predicateFailed p name message (applyCoercer coercer v))
        | .error e => .error e)
  ∧ validate_against_schema 5 (formatted_string .digitsPlus)
      (Py.str "112233") = Except.ok (Py.str "112233")
  ∧ validate_against_schema 5 (formatted_string .digitsPlus)
      (Py.int 112233) = Except.ok (Py.str "112233")
  ∧ validate_against_schema 5 (formatted_string .digitsPlus) (Py.str "abc") =
      Except.error (Err.predicateFailed (Pred.reMatch .digitsPlus)
        "formatted_string" (some formatted_string_message) (Py.str "abc")) := by
  refine ⟨?_, rfl, rfl, rfl⟩
  intro fuel p name coercer message v hv
  rw [validate_func]
  exact predicate_validator_not_none _ p name coercer message v hv

/-- Witness for C5: the general clause at the coercing formatted_string
validator and the numeric value 112233. -/
theorem C5_witness :
    validate_against_schema 6
        (Py.func (Fn.predValidator (Pred.reMatch .digitsPlus)
          "formatted_string" (some .toStr) (some formatted_string_message)))
        (Py.int 112233) =
      match evalPred (fun s w => validate_against_schema 5 s w)
          (Pred.reMatch .digitsPlus)
          (applyCoercer (some .toStr) (Py.int 112233)) with
      | .ok true => .ok (applyCoercer (some .toStr) (Py.int 112233))
      | .ok false =>
          .error (.predicateFailed (Pred.reMatch .digitsPlus)
            "formatted_string" (some formatted_string_message)
            (applyCoercer (some .toStr) (Py.int 112233)))
      | .error e => .error e :=
  C5_predicate_validator.1 5 (Pred.reMatch .digitsPlus) "formatted_string"
    (some .toStr) (some formatted_string_message) (Py.int 112233)
    (fun h => Py.noConfusion h)

/-- Positional validation characterized: validateZip succeeds with results
rs exactly when every schema element validates its positional value
element to the corresponding result. -/
theorem validateZip_ok_iff (recur : Py → Py → Except Err Py) :
    ∀ (ss vs rs : List Py), ss.length = vs.length →
      (validateZip recur ss vs = .ok rs ↔
        List.Forall₂ (fun (sv : Py × Py) r => recur sv.1 sv.2 = .ok r)
          (ss.zip vs) rs) := by
  intro ss
  induction ss with
  | nil =>
      intro vs rs h
      cases vs with
      | nil =>
          simp only [validateZip, List.zip_nil_left, List.forall₂_nil_left_iff]
          constructor
          · intro hh
            cases hh
            rfl
          · intro hh
            rw [hh]
      | cons v vs => exact absurd h (by simp)
  | cons s ss ih =>
      intro vs rs h
      cases vs with
      | nil => exact absurd h (by simp)
      | cons v vs =>
          have h' : ss.length = vs.length := by simpa using h
          simp only [validateZip, List.zip_cons_cons]
          cases hr : recur s v with
          | error e =>
              simp only [exceptBind_error]
              constructor
              · intro hh
                exact Except.noConfusion hh
              · intro hh
                cases hh with
                | cons hhead _ => rw [hr] at hhead; exact Except.noConfusion hhead
          | ok r =>
              simp only [exceptBind_ok]
              cases hz : validateZip recur ss vs with
              | error e =>
                  simp only [exceptBind_error]
                  constructor
                  · intro hh
                    exact Except.noConfusion hh
                  · intro hh
                    cases hh with
                    | cons hhead htail =>
                        have := (ih vs _ h').2 htail
                        rw [hz] at this
                        exact Except.noConfusion this
              | ok rs2 =>
                  simp only [exceptBind_ok]
                  constructor
                  · intro hh
                    cases hh
                    exact List.Forall₂.cons hr ((ih vs rs2 h').1 hz)
                  · intro hh
                    cases hh with
                    | cons hhead htail =>
                        rw [hr] at hhead
                        cases hhead
                        have := (ih vs _ h').2 htail
                        rw [hz] at this
                        cases this
                        rfl

/-- C7: for a strict-sequence schema (two or more sub-schemas) and a
sequence value, validation fails exactly on a length mismatch with an
error carrying the value and the schema (hence both lengths), and
otherwise validates positionally, element i against schema element i,
preserving order; validate([int,int], [1]) fails with the mismatch error
whose payload has schema length 2 and value length 1. -/
theorem C7_strict_sequence :
    (∀ fuel (ss : List Py) (value : Py), 2 ≤ ss.length →
      isSeqPy value = true → seqLenPy value ≠ ss.length →
      validate_against_schema (fuel + 1) (Py.list ss) value =
        Except.error (Err.lengthMismatch value (Py.list ss)))
  ∧ (∀ fuel (ss vs rs : List Py), 2 ≤ ss.length → ss.length = vs.length →
      (validate_against_schema (fuel + 1) (Py.list ss) (Py.list vs) =
          Except.ok (Py.list rs) ↔
        List.Forall₂ (fun (sv : Py × Py) r =>
          validate_against_schema fuel sv.1 sv.2 = Except.ok r)
          (ss.zip vs) rs))
  ∧ validate_against_schema 5 (Py.list [intPy, intPy]) (Py.list [Py.int 1]) =
      Except.error (Err.lengthMismatch (Py.list [Py.int 1])
        (Py.list [intPy, intPy]))
  ∧ seqLenPy (Py.list [intPy, intPy]) = 2
  ∧ seqLenPy (Py.list [Py.int 1]) = 1 := by
  refine ⟨?_, ?_, rfl, rfl, rfl⟩
  · intro fuel ss value h2 hseq hlen
    rw [validate_succ, classify_list_strict h2]
    cases value with
    | str s =>
        have hl : ¬(ss.length =
            (s.toList.map (fun c => Py.str (String.mk [c]))).length) := by
          simp only [List.length_map]
          intro hh
          apply hlen
          rw [show seqLenPy (Py.str s) = s.toList.length from rfl]
          omega
        simp only [validate_strict_sequence, iterElemsPy, seqLenPy]
        rw [if_neg hl]
    | list xs =>
        have hl : ¬(ss.length = xs.length) := by
          intro hh
          exact hlen (by rw [show seqLenPy (Py.list xs) = xs.length from rfl]; omega)
        simp only [validate_strict_sequence, iterElemsPy, seqLenPy]
        rw [if_neg hl]
    | none => exact absurd hseq (by simp [isSeqPy])
    | bool b => exact absurd hseq (by simp [isSeqPy])
    | int n => exact absurd hseq (by simp [isSeqPy])
    | float num den => exact absurd hseq (by simp [isSeqPy])
    | dict es => exact absurd hseq (by simp [isSeqPy])
    | func f => exact absurd hseq (by simp [isSeqPy])
  · intro fuel ss vs rs h2 hlen
    rw [validate_succ, classify_list_strict h2]
    simp only [validate_strict_sequence, iterElemsPy, seqLenPy]
    rw [if_pos hlen]
    cases hz : validateZip (fun s v => validate_against_schema fuel s v) ss vs with
    | error e =>
        simp only [exceptMap_error]
        constructor
        · intro hh
          exact Except.noConfusion hh
        · intro hh
          have := (validateZip_ok_iff _ ss vs rs hlen).2 hh
          rw [hz] at this
          exact Except.noConfusion this
    | ok rs2 =>
        simp only [exceptMap_ok]
        constructor
        · intro hh
          have hrs : rs2 = rs := by
            have := congrArg (fun x => match x with
              | Except.ok (Py.list l) => l
              | _ => []) hh
            simpa using this
          subst hrs
          exact (validateZip_ok_iff _ ss vs rs2 hlen).1 hz
        · intro hh
          have := (validateZip_ok_iff _ ss vs rs hlen).2 hh
          rw [hz] at this
          cases this
          rfl

/-- Witness for C7: the mismatch clause at the concrete schema [int, int]
and value [1]. -/
theorem C7_witness :
    validate_against_schema 5 (Py.list [intPy, intPy]) (Py.list [Py.int 1]) =
      Except.error (Err.lengthMismatch (Py.list [Py.int 1])
        (Py.list [intPy, intPy])) :=
  C7_strict_sequence.1 4 [intPy, intPy] (Py.list [Py.int 1]) (by decide) rfl
    (by decide)

/-! Disjointness of the classification predicates. -/

theorem isSeqPy_not_dict {s : Py} (h : isSeqPy s = true) :
    isDictPy s = false := by
  cases s <;> simp_all [isSeqPy, isDictPy]

theorem is_map_template_isDict {s : Py} (h : is_map_template s = true) :
    isDictPy s = true := by
  cases s <;> simp_all [is_map_template, isDictPy]

theorem isDictPy_not_seq {s : Py} (h : isDictPy s = true) :
    isSeqPy s = false := by
  cases s <;> simp_all [isSeqPy, isDictPy]

theorem seqTemplate_not_strict {s : Py} (h : is_sequence_template s = true) :
    is_strict_sequence s = false := by
  unfold is_sequence_template at h
  unfold is_strict_sequence
  obtain ⟨h1, h2⟩ := Bool.and_eq_true_iff.1 h
  rw [h1]
  simp only [beq_iff_eq] at h2
  simp only [Bool.true_and, decide_eq_false_iff_not]
  omega

theorem strict_not_seqTemplate {s : Py} (h : is_strict_sequence s = true) :
    is_sequence_template s = false := by
  unfold is_strict_sequence at h
  unfold is_sequence_template
  obtain ⟨h1, h2⟩ := Bool.and_eq_true_iff.1 h
  rw [h1]
  simp only [decide_eq_true_eq] at h2
  simp only [Bool.true_and, beq_eq_false_iff_ne]
  omega

theorem seq_not_map_template {s : Py} (h : isSeqPy s = true) :
    is_map_template s = false := by
  cases s <;> simp_all [isSeqPy, is_map_template]

theorem seq_not_keyed_mapping {s : Py} (h : isSeqPy s = true) :
    is_keyed_mapping s = false := by
  unfold is_keyed_mapping
  rw [isSeqPy_not_dict h]
  rfl

/-- C8 (amended): classification is total and unambiguous, checked in the
fixed precedence order sequence-template, strict-sequence, map-template,
keyed-mapping, leaf; at most one of the four shape predicates holds of any
schema and classify selects it, defaulting to the leaf form.  However an
empty sequence schema is not rejected with a classification/configuration
error: it falls through to the default leaf branch and every validation
against it fails with the not-callable type error raised by calling a
sequence. -/
theorem C8_classification_amended :
    (∀ schema : Py,
      (is_sequence_template schema = true →
        is_strict_sequence schema = false ∧ is_map_template schema = false ∧
        is_keyed_mapping schema = false ∧
        classify schema = SchemaForm.seqTemplate)
      ∧ (is_strict_sequence schema = true →
        is_sequence_template schema = false ∧ is_map_template schema = false ∧
        is_keyed_mapping schema = false ∧
        classify schema = SchemaForm.strictSeq)
      ∧ (is_map_template schema = true →
        is_sequence_template schema = false ∧
        is_strict_sequence schema = false ∧
        is_keyed_mapping schema = false ∧
        classify schema = SchemaForm.mapTemplate)
      ∧ (is_keyed_mapping schema = true →
        is_sequence_template schema = false ∧
        is_strict_sequence schema = false ∧ is_map_template schema = false ∧
        classify schema = SchemaForm.keyedMapping)
      ∧ (is_sequence_template schema = false →
        is_strict_sequence schema = false → is_map_template schema = false →
        is_keyed_mapping schema = false → classify schema = SchemaForm.leaf))
  ∧ classify (Py.list []) = SchemaForm.leaf
  ∧ (∀ fuel (v : Py), validate_against_schema (fuel + 1) (Py.list []) v =
      Except.error (Err.typeErrorNotCallable (Py.list []))) := by
  refine ⟨?_, rfl, fun fuel v => rfl⟩
  intro schema
  refine ⟨?_, ?_, ?_, ?_, ?_⟩
  · intro h
    have hseq : isSeqPy schema = true := (Bool.and_eq_true_iff.1 h).1
    refine ⟨seqTemplate_not_strict h, seq_not_map_template hseq,
      seq_not_keyed_mapping hseq, ?_⟩
    simp [classify, h]
  · intro h
    have hseq : isSeqPy schema = true := (Bool.and_eq_true_iff.1 h).1
    refine ⟨strict_not_seqTemplate h, seq_not_map_template hseq,
      seq_not_keyed_mapping hseq, ?_⟩
    simp [classify, h, strict_not_seqTemplate h]
  · intro h
    have hdict : isDictPy schema = true := is_map_template_isDict h
    have hseq : isSeqPy schema = false := isDictPy_not_seq hdict
    have h1 : is_sequence_template schema = false := by
      unfold is_sequence_template
      rw [hseq]
      rfl
    have h2 : is_strict_sequence schema = false := by
      unfold is_strict_sequence
      rw [hseq]
      rfl
    have h3 : is_keyed_mapping schema = false := by
      unfold is_keyed_mapping
      rw [h]
      simp
    exact ⟨h1, h2, h3, by simp [classify, h, h1, h2]⟩
  · intro h
    have hdict : isDictPy schema = true := (Bool.and_eq_true_iff.1 h).1
    have hnm : is_map_template schema = false := by
      have := (Bool.and_eq_true_iff.1 h).2
      cases hm : is_map_template schema with
      | false => rfl
      | true => rw [hm] at this; exact absurd this (by simp)
    have hseq : isSeqPy schema = false := isDictPy_not_seq hdict
    have h1 : is_sequence_template schema = false := by
      unfold is_sequence_template
      rw [hseq]
      rfl
    have h2 : is_strict_sequence schema = false := by
      unfold is_strict_sequence
      rw [hseq]
      rfl
    exact ⟨h1, h2, hnm, by simp [classify, h, h1, h2, hnm]⟩
  · intro h1 h2 h3 h4
    simp [classify, h1, h2, h3, h4]

/-- Witness for C8: the classification clauses at a concrete sequence
template schema. -/
theorem C8_witness :
    classify (Py.list [intPy]) = SchemaForm.seqTemplate :=
  ((C8_classification_amended.1 (Py.list [intPy])).1 rfl).2.2.2

/-- C8 counterexample: the claim as stated requires an empty-sequence
schema to be rejected with a configuration/classification error; the code
classifies it as the default leaf form and validation raises the
not-callable TypeError from calling a list, which is a different error
kind from the no-matching-dispatch (classification) error. -/
theorem C8_counterexample :
    classify (Py.list []) = SchemaForm.leaf
  ∧ validate_against_schema 5 (Py.list []) (Py.int 1) =
      Except.error (Err.typeErrorNotCallable (Py.list []))
  ∧ Err.typeErrorNotCallable (Py.list []) ≠ Err.noDispatch :=
  ⟨rfl, rfl, fun h => Err.noConfusion h⟩

/-! The or_ validator: characterization of the any() scan. -/

/-- A validation outcome that counts as a truthy success for or_. -/
def okTruthy (r : Except Err Py) : Bool :=
  match r with
  | .ok x => pyTruthy x
  | .error _ => false

/-- A validation outcome that lets the or_ scan move on: a success whose
result is falsy. -/
def okFalsy (r : Except Err Py) : Bool :=
  match r with
  | .ok x => !pyTruthy x
  | .error _ => false

/-- The any() scan returns true exactly when the schema list splits into a
falsy-validating prefix followed by a truthy-validating schema. -/
theorem anyTruthy_true_iff (recur : Py → Py → Except Err Py) (d : Py) :
    ∀ ss : List Py, anyTruthy recur ss d = .ok true ↔
      ∃ pre s post, ss = pre ++ s :: post ∧
        okTruthy (recur s d) = true ∧
        ∀ x ∈ pre, okFalsy (recur x d) = true := by
  intro ss
  induction ss with
  | nil =>
      simp only [anyTruthy]
      constructor
      · intro h
        exact absurd h (by simp)
      · rintro ⟨pre, s, post, habs, -, -⟩
        exact absurd habs (by simp)
  | cons a rest ih =>
      simp only [anyTruthy]
      cases hr : recur a d with
      | error e =>
          simp only [exceptBind_error]
          constructor
          · intro h
            exact Except.noConfusion h
          · rintro ⟨pre, s, post, hsplit, ht, hf⟩
            cases pre with
            | nil =>
                simp only [List.nil_append, List.cons.injEq] at hsplit
                rw [hsplit.1] at hr
                rw [hr] at ht
                exact Bool.noConfusion ht
            | cons p pre2 =>
                simp only [List.cons_append, List.cons.injEq] at hsplit
                have := hf p (by simp)
                rw [hsplit.1] at hr
                rw [hr] at this
                exact Bool.noConfusion this
      | ok r =>
          simp only [exceptBind_ok]
          cases htr : pyTruthy r with
          | true =>
              rw [if_pos rfl]
              constructor
              · intro _
                exact ⟨[], a, rest, rfl, by simp [okTruthy, hr, htr],
                  by simp⟩
              · intro _
                rfl
          | false =>
              rw [if_neg (by simp)]
              rw [ih]
              constructor
              · rintro ⟨pre, s, post, hsplit, ht, hf⟩
                refine ⟨a :: pre, s, post, by rw [hsplit]; rfl, ht, ?_⟩
                intro x hx
                cases List.mem_cons.1 hx with
                | inl hxa => rw [hxa, hr]; simp [okFalsy, htr]
                | inr hxp => exact hf x hxp
              · rintro ⟨pre, s, post, hsplit, ht, hf⟩
                cases pre with
                | nil =>
                    simp only [List.nil_append, List.cons.injEq] at hsplit
                    rw [hsplit.1] at hr
                    rw [hr] at ht
                    simp only [okTruthy] at ht
                    rw [htr] at ht
                    exact Bool.noConfusion ht
                | cons p pre2 =>
                    simp only [List.cons_append, List.cons.injEq] at hsplit
                    exact ⟨pre2, s, post, hsplit.2, ht,
                      fun x hx => hf x (by simp [hsplit.1, hx])⟩

/-- C1 (amended): the validator built by or_ succeeds on non-None data
exactly when, scanning the schemas in argument order, every earlier schema
validates to a falsy result and some schema validates to a truthy result
(an exception raised by an earlier schema propagates as failure, and a
schema validating to a falsy value such as 0 does not count as a success);
on success it returns the original value unchanged, not the succeeding
schema's coerced result.  or_(int, float) accepts 10 and 10.5, returning
them unchanged, and rejects "hello". -/
theorem C1_or_amended :
    (∀ fuel (ss : List Py) (v : Py), v ≠ Py.none →
      ((validate_against_schema (fuel + 1) (or_ ss) v = .ok v ↔
        ∃ pre s post, ss = pre ++ s :: post ∧
          okTruthy (validate_against_schema fuel s v) = true ∧
          ∀ x ∈ pre, okFalsy (validate_against_schema fuel x v) = true)
      ∧ ∀ r, validate_against_schema (fuel + 1) (or_ ss) v = .ok r → r = v))
  ∧ validate_against_schema 5 (or_ [intPy, floatPy]) (Py.int 10) =
      .ok (Py.int 10)
  ∧ validate_against_schema 5 (or_ [intPy, floatPy]) (Py.float 21 2) =
      .ok (Py.float 21 2)
  ∧ validate_against_schema 5 (or_ [intPy, floatPy]) (Py.str "hello") =
      .error (.valueErrorBadLiteral "hello") := by
  refine ⟨?_, rfl, rfl, rfl⟩
  intro fuel ss v hv
  rw [show or_ ss = Py.func (.predValidator (.anySchema ss) "or_" Option.none
    Option.none) from rfl]
  rw [validate_func]
  rw [show callFn (fun s w => validate_against_schema fuel s w)
    (.predValidator (.anySchema ss) "or_" Option.none Option.none) v =
    predicate_validator (fun s w => validate_against_schema fuel s w)
      (.anySchema ss) "or_" Option.none Option.none v from rfl]
  rw [predicate_validator_not_none _ _ _ _ _ v hv]
  rw [show applyCoercer Option.none v = v from rfl]
  rw [show evalPred (fun s w => validate_against_schema fuel s w)
    (.anySchema ss) v =
    anyTruthy (fun s w => validate_against_schema fuel s w) ss v from rfl]
  cases ha : anyTruthy (fun s w => validate_against_schema fuel s w) ss v with
  | ok b =>
      cases b with
      | true =>
          constructor
          · constructor
            · intro _
              exact (anyTruthy_true_iff _ v ss).1 ha
            · intro _
              rfl
          · intro r h
            cases h
            rfl
      | false =>
          constructor
          · constructor
            · intro h
              exact Except.noConfusion h
            · intro h
              have := (anyTruthy_true_iff _ v ss).2 h
              rw [ha] at this
              simp at this
          · intro r h
            exact Except.noConfusion h
  | error e =>
      constructor
      · constructor
        · intro h
          exact Except.noConfusion h
        · intro h
          have := (anyTruthy_true_iff _ v ss).2 h
          rw [ha] at this
          exact Except.noConfusion this
      · intro r h
        exact Except.noConfusion h

/-- Witness for C1: the amended characterization applied at or_(int,
float) and the value 10, whose first schema validates truthily. -/
theorem C1_witness :
    validate_against_schema 5 (or_ [intPy, floatPy]) (Py.int 10) =
      .ok (Py.int 10) :=
  ((C1_or_amended.1 4 [intPy, floatPy] (Py.int 10)
      (fun h => Py.noConfusion h)).1).2
    ⟨[], intPy, [floatPy], rfl, rfl, by simp⟩

/-- C1 counterexample: the builtin int validates 0 successfully (to 0),
yet or_(int, float) rejects 0, because the any() scan tests truthiness of
the validated results and 0 and 0.0 are falsy; so the claim that the or_
validator succeeds exactly when the value validates against at least one
schema is false, as is the claim that it returns the succeeding schema's
result. -/
theorem C1_counterexample :
    validate_against_schema 2 intPy (Py.int 0) = .ok (Py.int 0)
  ∧ validate_against_schema 5 (or_ [intPy, floatPy]) (Py.int 0) =
      .error (.predicateFailed (.anySchema [intPy, floatPy]) "or_"
        Option.none (Py.int 0)) :=
  ⟨rfl, rfl⟩

/-- Slicing off the last element of a list value. -/
theorem splitLastSeq_list_concat (xs : List Py) (y : Py) :
    splitLastSeq (.list (xs ++ [y])) = some (xs, y) := by
  simp [splitLastSeq, iterElemsPy, List.reverse_append]

/-- Model of the wrapped function fn(*nums) -> sum(nums) of the guard
round-trip example: sums integer positional arguments. -/
def sumOfInts : List Py → List (Py × Py) → Except Err Py := fun args _ =>
  match args.mapM (fun v =>
      match v with
      | Py.int n => some n
      | _ => Option.none) with
  | some ns => .ok (.int (ns.foldl (fun a b => a + b) 0))
  | Option.none => .error (.typeErrorBadCoercion (.list args))

/-- C4: the boundary validator packs arguments by the four-way precedence
rule, validates the packed value against the input schema, unpacks by the
mirror rule and invokes the wrapped function.  Clause one: with a no-op
validator the pack/unpack round-trip is the identity on the arguments.
Clauses two to six: whenever the input validator returns a value of the
packed shape, the unpacking mirrors the packing in each of the five
argument-shape cases.  Last clause: wrapping fn(*nums) -> sum(nums) with
input schema [int] and calling it with positionals (1,2,3) packs to
[1,2,3], validates, unpacks to (1,2,3) and yields 6. -/
theorem C4_boundary_packing :
    (∀ (args : List Py) (kwargs : List (Py × Py)),
      validate_function_input (fun v => Except.ok v) args kwargs =
        Except.ok (args, kwargs))
  ∧ (∀ (iv : Py → Except Err Py) (a : Py) (args : List Py)
        (k : Py × Py) (kwargs : List (Py × Py)) (args2 : List Py)
        (kwargs2 : List (Py × Py)),
      iv (.list ((a :: args) ++ [.dict (k :: kwargs)])) =
          Except.ok (.list (args2 ++ [.dict kwargs2])) →
      validate_function_input iv (a :: args) (k :: kwargs) =
        Except.ok (args2, kwargs2))
  ∧ (∀ (iv : Py → Except Err Py) (k : Py × Py) (kwargs : List (Py × Py))
        (kwargs2 : List (Py × Py)),
      iv (.dict (k :: kwargs)) = Except.ok (.dict kwargs2) →
      validate_function_input iv [] (k :: kwargs) = Except.ok ([], kwargs2))
  ∧ (∀ (iv : Py → Except Err Py) (a b : Py) (args args2 : List Py),
      iv (.list (a :: b :: args)) = Except.ok (.list args2) →
      validate_function_input iv (a :: b :: args) [] =
        Except.ok (args2, []))
  ∧ (∀ (iv : Py → Except Err Py) (a r : Py),
      iv a = Except.ok r →
      validate_function_input iv [a] [] = Except.ok ([r], []))
  ∧ (∀ iv : Py → Except Err Py,
      validate_function_input iv [] [] = Except.ok ([], []))
  ∧ validated 10 Option.none true (some (.list [intPy])) Option.none "fn"
      sumOfInts [Py.int 1, Py.int 2, Py.int 3] [] = Except.ok (Py.int 6) := by
  refine ⟨?_, ?_, ?_, ?_, ?_, fun iv => rfl, rfl⟩
  · intro args kwargs
    match args, kwargs with
    | a :: args, k :: kwargs =>
        simp only [validate_function_input, exceptBind_ok,
          splitLastSeq_list_concat (a :: args) (.dict (k :: kwargs))]
    | [], k :: kwargs => rfl
    | a :: b :: args, [] => rfl
    | [a], [] => rfl
    | [], [] => rfl
  · intro iv a args k kwargs args2 kwargs2 h
    simp only [validate_function_input, h, exceptBind_ok,
      splitLastSeq_list_concat args2 (.dict kwargs2)]
  · intro iv k kwargs kwargs2 h
    simp only [validate_function_input, h, exceptBind_ok]
  · intro iv a b args args2 h
    simp only [validate_function_input, h, exceptBind_ok, asArgList]
  · intro iv a r h
    simp only [validate_function_input, h, exceptBind_ok]

/-- Witness for C4: the multi-positional clause at a concrete identity
validator and arguments. -/
theorem C4_witness :
    validate_function_input (fun v => Except.ok v)
        [Py.int 1, Py.int 2, Py.int 3] [] =
      Except.ok ([Py.int 1, Py.int 2, Py.int 3], []) :=
  C4_boundary_packing.2.2.2.1 (fun v => Except.ok v) (Py.int 1) (Py.int 2)
    [Py.int 3] [Py.int 1, Py.int 2, Py.int 3] rfl

/-! Equality facts for string keys, and dictionary update lemmas. -/

/-- Python equality of two strings is string equality. -/
theorem pyEq_str_str (s t : String) :
    pyEq (Py.str s) (Py.str t) = (s == t) := rfl

/-- A string only equals the same string under Python equality. -/
theorem pyEq_str_right (k : Py) (s : String) :
    pyEq k (Py.str s) = true ↔ k = Py.str s := by
  cases k with
  | str t => rw [pyEq_str_str]; simp only [beq_iff_eq, Py.str.injEq]
  | none => simp [show pyEq Py.none (Py.str s) = false from rfl]
  | bool b => simp [show pyEq (Py.bool b) (Py.str s) = false from rfl]
  | int n => simp [show pyEq (Py.int n) (Py.str s) = false from rfl]
  | float num den =>
      simp [show pyEq (Py.float num den) (Py.str s) = false from rfl]
  | list xs => simp [show pyEq (Py.list xs) (Py.str s) = false from rfl]
  | dict es => simp [show pyEq (Py.dict es) (Py.str s) = false from rfl]
  | func f => simp [show pyEq (Py.func f) (Py.str s) = false from rfl]

/-- A string only equals the same string under Python equality (string on
the left). -/
theorem pyEq_str_left (s : String) (k : Py) :
    pyEq (Py.str s) k = true ↔ k = Py.str s := by
  cases k with
  | str t =>
      rw [pyEq_str_str]
      simp only [beq_iff_eq, Py.str.injEq]
      exact eq_comm
  | none => simp [show pyEq (Py.str s) Py.none = false from rfl]
  | bool b => simp [show pyEq (Py.str s) (Py.bool b) = false from rfl]
  | int n => simp [show pyEq (Py.str s) (Py.int n) = false from rfl]
  | float num den =>
      simp [show pyEq (Py.str s) (Py.float num den) = false from rfl]
  | list xs => simp [show pyEq (Py.str s) (Py.list xs) = false from rfl]
  | dict es => simp [show pyEq (Py.str s) (Py.dict es) = false from rfl]
  | func f => simp [show pyEq (Py.str s) (Py.func f) = false from rfl]

/-- Unfolding of lookupEntry on a cons cell. -/
theorem lookupEntry_cons (k0 v0 : Py) (rest : List (Py × Py)) (k : Py) :
    lookupEntry ((k0, v0) :: rest) k =
      if pyEq k0 k then some v0 else lookupEntry rest k := rfl

/-- Keys of two entries are unequal under Python equality. -/
def keyNe (a b : Py × Py) : Prop := pyEq a.1 b.1 = false

/-- Looking up a string key in an entry list with pairwise-unequal keys
finds exactly the entry bearing it. -/
theorem lookup_of_mem_pairwise {es : List (Py × Py)} {s : String} {x : Py}
    (hp : List.Pairwise keyNe es) (hmem : (Py.str s, x) ∈ es) :
    lookupEntry es (Py.str s) = some x := by
  induction es with
  | nil => exact absurd hmem (by simp)
  | cons e rest ih =>
      obtain ⟨k0, v0⟩ := e
      rw [lookupEntry_cons]
      cases List.mem_cons.1 hmem with
      | inl hh =>
          cases hh
          rw [if_pos (by rw [(pyEq_str_right (Py.str s) s).2 rfl])]
      | inr hh =>
          have hk0 : pyEq k0 (Py.str s) = false :=
            (List.pairwise_cons.1 hp).1 (Py.str s, x) hh
          rw [if_neg (by rw [hk0]; simp)]
          exact ih (List.pairwise_cons.1 hp).2 hh

/-- Unfolding of dictInsert on a cons cell. -/
theorem dictInsert_cons (k0 v0 : Py) (rest : List (Py × Py)) (k v : Py) :
    dictInsert ((k0, v0) :: rest) k v =
      if pyEq k0 k then (k0, v) :: rest
      else (k0, v0) :: dictInsert rest k v := rfl

/-- An entry whose key does not match the probe survives a dict update. -/
theorem dictInsert_mem_other {es : List (Py × Py)} {k0 x k v : Py}
    (hmem : (k0, x) ∈ es) (hne : pyEq k0 k = false) :
    (k0, x) ∈ dictInsert es k v := by
  induction es with
  | nil => exact absurd hmem (by simp)
  | cons e rest ih =>
      obtain ⟨k1, v1⟩ := e
      rw [dictInsert_cons]
      cases List.mem_cons.1 hmem with
      | inl hh =>
          cases hh
          rw [if_neg (by rw [hne]; simp)]
          simp
      | inr hh =>
          cases hmatch : pyEq k1 k with
          | true =>
              rw [if_pos rfl]
              exact List.mem_cons_of_mem _ hh
          | false =>
              rw [if_neg (by simp)]
              exact List.mem_cons_of_mem _ (ih hh)

/-- Updating at a string key present in a pairwise-unequal entry list
rebinds exactly that entry. -/
theorem dictInsert_mem_updated {es : List (Py × Py)} {s : String} {x : Py}
    (hp : List.Pairwise keyNe es) (hmem : (Py.str s, x) ∈ es) (v : Py) :
    (Py.str s, v) ∈ dictInsert es (Py.str s) v := by
  induction es with
  | nil => exact absurd hmem (by simp)
  | cons e rest ih =>
      obtain ⟨k1, v1⟩ := e
      rw [dictInsert_cons]
      cases List.mem_cons.1 hmem with
      | inl hh =>
          cases hh
          rw [if_pos (by rw [(pyEq_str_right (Py.str s) s).2 rfl])]
          simp
      | inr hh =>
          have hk1 : pyEq k1 (Py.str s) = false :=
            (List.pairwise_cons.1 hp).1 (Py.str s, x) hh
          rw [if_neg (by rw [hk1]; simp)]
          exact List.mem_cons_of_mem _
            (ih (List.pairwise_cons.1 hp).2 hh)

/-- Keys of a dict update: every entry of the update has the key of an
existing entry or the inserted key. -/
theorem dictInsert_keys_subset {es : List (Py × Py)} {k v : Py}
    {e : Py × Py} (hmem : e ∈ dictInsert es k v) :
    (∃ x, (e.1, x) ∈ es) ∨ e.1 = k := by
  induction es with
  | nil =>
      simp only [dictInsert, List.mem_singleton] at hmem
      right
      rw [hmem]
  | cons e0 rest ih =>
      obtain ⟨k1, v1⟩ := e0
      rw [dictInsert_cons] at hmem
      cases hmatch : pyEq k1 k with
      | true =>
          rw [hmatch, if_pos rfl] at hmem
          cases List.mem_cons.1 hmem with
          | inl hh => left; exact ⟨v1, by rw [hh]; simp⟩
          | inr hh => left; exact ⟨e.2, List.mem_cons_of_mem _ (by
              obtain ⟨a, b⟩ := e
              exact hh)⟩
      | false =>
          rw [hmatch, if_neg (by simp)] at hmem
          cases List.mem_cons.1 hmem with
          | inl hh => left; exact ⟨v1, by rw [hh]; simp⟩
          | inr hh =>
              cases ih hh with
              | inl h2 =>
                  obtain ⟨x, hx⟩ := h2
                  left
                  exact ⟨x, List.mem_cons_of_mem _ hx⟩
              | inr h2 => right; exact h2

/-- A dict update preserves pairwise-unequal keys: either it rebinds an
existing key, or no stored key matched and the probe is appended, unequal
to all of them. -/
theorem dictInsert_pairwise {es : List (Py × Py)} (k v : Py)
    (hp : List.Pairwise keyNe es) :
    List.Pairwise keyNe (dictInsert es k v) := by
  induction es with
  | nil => simp [dictInsert, keyNe]
  | cons e0 rest ih =>
      obtain ⟨k1, v1⟩ := e0
      rw [dictInsert_cons]
      cases hmatch : pyEq k1 k with
      | true =>
          rw [if_pos rfl]
          exact List.pairwise_cons.2 ⟨fun e he =>
            (List.pairwise_cons.1 hp).1 e he, (List.pairwise_cons.1 hp).2⟩
      | false =>
          rw [if_neg (by simp)]
          refine List.pairwise_cons.2 ⟨?_, ih (List.pairwise_cons.1 hp).2⟩
          intro e he
          cases dictInsert_keys_subset he with
          | inl h2 =>
              obtain ⟨x, hx⟩ := h2
              exact (List.pairwise_cons.1 hp).1 (e.1, x) hx
          | inr h2 =>
              show pyEq k1 e.1 = false
              rw [h2, hmatch]

/-- A lookup fails exactly when no stored key equals the probe. -/
theorem lookupEntry_none_iff {es : List (Py × Py)} {k : Py} :
    lookupEntry es k = Option.none ↔ ∀ e ∈ es, pyEq e.1 k = false := by
  induction es with
  | nil => simp [lookupEntry]
  | cons e0 rest ih =>
      obtain ⟨k1, v1⟩ := e0
      rw [lookupEntry_cons]
      cases hmatch : pyEq k1 k with
      | true =>
          rw [if_pos rfl]
          constructor
          · intro hh
            exact absurd hh (by simp)
          · intro hh
            have := hh (k1, v1) (by simp)
            rw [hmatch] at this
            exact absurd this (by simp)
      | false =>
          rw [if_neg (by simp)]
          rw [ih]
          constructor
          · intro hh e he
            cases List.mem_cons.1 he with
            | inl h2 => rw [h2]; exact hmatch
            | inr h2 => exact hh e h2
          · intro hh e he
            exact hh e (List.mem_cons_of_mem _ he)

/-- If a stored key is unequal to a string, the string is unequal to it. -/
theorem pyEq_str_false_flip {kv : Py} {s : String}
    (h : pyEq kv (Py.str s) = false) : pyEq (Py.str s) kv = false := by
  cases hh : pyEq (Py.str s) kv with
  | false => rfl
  | true =>
      have := (pyEq_str_left s kv).1 hh
      rw [this] at h
      rw [(pyEq_str_right (Py.str s) s).2 rfl] at h
      exact Bool.noConfusion h

/-- Inserting an absent key appends it. -/
theorem dictInsert_append_of_none {es : List (Py × Py)} {k : Py}
    (h : lookupEntry es k = Option.none) (v : Py) :
    dictInsert es k v = es ++ [(k, v)] := by
  induction es with
  | nil => rfl
  | cons e rest ih =>
      obtain ⟨k1, v1⟩ := e
      rw [lookupEntry_cons] at h
      cases hmatch : pyEq k1 k with
      | true =>
          rw [hmatch, if_pos rfl] at h
          exact absurd h (by simp)
      | false =>
          rw [hmatch, if_neg (by simp)] at h
          rw [dictInsert_cons, if_neg (by rw [hmatch]; simp), ih h]
          rfl

/-- A lookup that fails keeps failing after an update at an unequal key. -/
theorem lookupEntry_dictInsert_none {es : List (Py × Py)} {k k0 w : Py}
    (h : lookupEntry es k = Option.none) (hne : pyEq k0 k = false) :
    lookupEntry (dictInsert es k0 w) k = Option.none := by
  rw [lookupEntry_none_iff]
  intro e he
  cases dictInsert_keys_subset he with
  | inl h2 =>
      obtain ⟨x, hx⟩ := h2
      exact lookupEntry_none_iff.1 h (e.1, x) hx
  | inr h2 => rw [h2]; exact hne

/-- Unfolding of merge_with on an empty update list. -/
theorem merge_with_nil (fn : Py → Py → Except Err Py)
    (fresh : List (Py × Py)) : merge_with fn fresh [] = .ok fresh := rfl

/-- Unfolding of merge_with on a cons update list. -/
theorem merge_with_cons (fn : Py → Py → Except Err Py)
    (fresh : List (Py × Py)) (k v : Py) (rest : List (Py × Py)) :
    merge_with fn fresh ((k, v) :: rest) =
      match lookupEntry fresh k with
      | some old => do
          let r ← fn old v
          merge_with fn (dictInsert fresh k r) rest
      | Option.none => merge_with fn (dictInsert fresh k v) rest := rfl

/-- Unfolding of merge_with when the update key is bound in the base. -/
theorem merge_with_cons_some {fresh : List (Py × Py)} {k old : Py}
    (fn : Py → Py → Except Err Py) (v : Py) (rest : List (Py × Py))
    (hl : lookupEntry fresh k = some old) :
    merge_with fn fresh ((k, v) :: rest) =
      (do
        let r ← fn old v
        merge_with fn (dictInsert fresh k r) rest) := by
  rw [merge_with_cons, hl]

/-- Unfolding of merge_with when the update key is absent from the base. -/
theorem merge_with_cons_none {fresh : List (Py × Py)} {k : Py}
    (fn : Py → Py → Except Err Py) (v : Py) (rest : List (Py × Py))
    (hl : lookupEntry fresh k = Option.none) :
    merge_with fn fresh ((k, v) :: rest) =
      merge_with fn (dictInsert fresh k v) rest := by
  rw [merge_with_cons, hl]

/-- Entries of the base dict whose key matches no update key survive the
merge unchanged. -/
theorem merge_with_unmatched (fn : Py → Py → Except Err Py) :
    ∀ (vs fresh es : List (Py × Py)), merge_with fn fresh vs = .ok es →
      ∀ k x, (k, x) ∈ fresh → (∀ e ∈ vs, pyEq k e.1 = false) →
        (k, x) ∈ es := by
  intro vs
  induction vs with
  | nil =>
      intro fresh es h k x hmem _
      rw [merge_with_nil] at h
      cases h
      exact hmem
  | cons e0 rest ih =>
      obtain ⟨kv, v0⟩ := e0
      intro fresh es h k x hmem hne
      have hkkv : pyEq k kv = false := hne (kv, v0) (by simp)
      cases hl : lookupEntry fresh kv with
      | some old =>
          rw [merge_with_cons_some fn v0 rest hl] at h
          cases hr : fn old v0 with
          | error e2 => rw [hr] at h; exact absurd h (by simp)
          | ok r =>
              rw [hr] at h
              simp only [exceptBind_ok] at h
              exact ih (dictInsert fresh kv r) es h k x
                (dictInsert_mem_other hmem hkkv)
                (fun e he => hne e (List.mem_cons_of_mem _ he))
      | none =>
          rw [merge_with_cons_none fn v0 rest hl] at h
          exact ih (dictInsert fresh kv v0) es h k x
            (dictInsert_mem_other hmem hkkv)
            (fun e he => hne e (List.mem_cons_of_mem _ he))

/-- Merging preserves pairwise-unequal keys. -/
theorem merge_with_pairwise (fn : Py → Py → Except Err Py) :
    ∀ (vs fresh es : List (Py × Py)), List.Pairwise keyNe fresh →
      merge_with fn fresh vs = .ok es → List.Pairwise keyNe es := by
  intro vs
  induction vs with
  | nil =>
      intro fresh es hp h
      rw [merge_with_nil] at h
      cases h
      exact hp
  | cons e0 rest ih =>
      obtain ⟨kv, v0⟩ := e0
      intro fresh es hp h
      cases hl : lookupEntry fresh kv with
      | some old =>
          rw [merge_with_cons_some fn v0 rest hl] at h
          cases hr : fn old v0 with
          | error e2 => rw [hr] at h; exact absurd h (by simp)
          | ok r =>
              rw [hr] at h
              simp only [exceptBind_ok] at h
              exact ih (dictInsert fresh kv r) es
                (dictInsert_pairwise kv r hp) h
      | none =>
          rw [merge_with_cons_none fn v0 rest hl] at h
          exact ih (dictInsert fresh kv v0) es
            (dictInsert_pairwise kv v0 hp) h

/-- A base entry at a string key that the update list binds is rebound to
the result of combining its value with the bound value. -/
theorem merge_with_matched (fn : Py → Py → Except Err Py) :
    ∀ (vs fresh es : List (Py × Py)), List.Pairwise keyNe fresh →
      List.Pairwise keyNe vs → merge_with fn fresh vs = .ok es →
      ∀ (s : String) (sub v : Py), (Py.str s, sub) ∈ fresh →
        lookupEntry vs (Py.str s) = some v →
        ∃ r, fn sub v = .ok r ∧ (Py.str s, r) ∈ es := by
  intro vs
  induction vs with
  | nil =>
      intro fresh es _ _ _ s sub v _ hlook
      exact absurd hlook (by simp [lookupEntry])
  | cons e0 rest ih =>
      obtain ⟨kv, v0⟩ := e0
      intro fresh es hpf hpv h s sub v hmem hlook
      rw [lookupEntry_cons] at hlook
      cases hmatch : pyEq kv (Py.str s) with
      | true =>
          have hkv : kv = Py.str s := (pyEq_str_right kv s).1 hmatch
          rw [hmatch, if_pos rfl] at hlook
          cases hlook
          subst hkv
          rw [merge_with_cons_some fn v0 rest
            (lookup_of_mem_pairwise hpf hmem)] at h
          cases hr : fn sub v0 with
          | error e2 => rw [hr] at h; exact absurd h (by simp)
          | ok r =>
              rw [hr] at h
              simp only [exceptBind_ok] at h
              refine ⟨r, rfl, ?_⟩
              refine merge_with_unmatched fn rest _ es h (Py.str s) r
                (dictInsert_mem_updated hpf hmem r) ?_
              intro e he
              exact (List.pairwise_cons.1 hpv).1 e he
      | false =>
          rw [hmatch, if_neg (by simp)] at hlook
          have hflip : pyEq (Py.str s) kv = false := pyEq_str_false_flip hmatch
          cases hl : lookupEntry fresh kv with
          | some old =>
              rw [merge_with_cons_some fn v0 rest hl] at h
              cases hr : fn old v0 with
              | error e2 => rw [hr] at h; exact absurd h (by simp)
              | ok r =>
                  rw [hr] at h
                  simp only [exceptBind_ok] at h
                  exact ih (dictInsert fresh kv r) es
                    (dictInsert_pairwise kv r hpf)
                    (List.pairwise_cons.1 hpv).2 h s sub v
                    (dictInsert_mem_other hmem hflip) hlook
          | none =>
              rw [merge_with_cons_none fn v0 rest hl] at h
              exact ih (dictInsert fresh kv v0) es
                (dictInsert_pairwise kv v0 hpf)
                (List.pairwise_cons.1 hpv).2 h s sub v
                (dictInsert_mem_other hmem hflip) hlook

/-- Update entries whose key is absent from the base dict pass through to
the merge result unchanged. -/
theorem merge_with_extra (fn : Py → Py → Except Err Py) :
    ∀ (vs fresh es : List (Py × Py)), List.Pairwise keyNe vs →
      merge_with fn fresh vs = .ok es →
      ∀ kv v, (kv, v) ∈ vs → lookupEntry fresh kv = Option.none →
        (kv, v) ∈ es := by
  intro vs
  induction vs with
  | nil =>
      intro fresh es _ _ kv v hmem _
      exact absurd hmem (by simp)
  | cons e0 rest ih =>
      obtain ⟨kv0, v0⟩ := e0
      intro fresh es hpv h kv v hmem hnone
      cases List.mem_cons.1 hmem with
      | inl hh =>
          injection hh with h1 h2
          subst h1
          subst h2
          rw [merge_with_cons_none fn v rest hnone,
            dictInsert_append_of_none hnone v] at h
          refine merge_with_unmatched fn rest _ es h kv v (by simp) ?_
          intro e he
          exact (List.pairwise_cons.1 hpv).1 e he
      | inr hh =>
          have hne0 : pyEq kv0 kv = false :=
            (List.pairwise_cons.1 hpv).1 (kv, v) hh
          cases hl : lookupEntry fresh kv0 with
          | some old =>
              rw [merge_with_cons_some fn v0 rest hl] at h
              cases hr : fn old v0 with
              | error e2 => rw [hr] at h; exact absurd h (by simp)
              | ok r =>
                  rw [hr] at h
                  simp only [exceptBind_ok] at h
                  exact ih (dictInsert fresh kv0 r) es
                    (List.pairwise_cons.1 hpv).2 h kv v hh
                    (lookupEntry_dictInsert_none hnone hne0)
          | none =>
              rw [merge_with_cons_none fn v0 rest hl] at h
              exact ih (dictInsert fresh kv0 v0) es
                (List.pairwise_cons.1 hpv).2 h kv v hh
                (lookupEntry_dictInsert_none hnone hne0)

/-- A dict whose keys are all strings is classified as a keyed mapping
(never as a map template, whose single key must not be a string). -/
theorem classify_dict_string_keys {ss : List (Py × Py)}
    (h : ∀ kv ∈ ss, is_string kv.1 = true) :
    classify (.dict ss) = .keyedMapping := by
  have hm : is_map_template (.dict ss) = false := by
    match ss, h with
    | [], _ => rfl
    | [(k, v)], h =>
        have hk := h (k, v) (by simp)
        simp only [is_map_template]
        rw [hk]
        rfl
    | (a :: b :: rest), _ => rfl
  simp [classify, is_sequence_template, is_strict_sequence, isSeqPy,
    seqLenPy, hm, is_keyed_mapping, isDictPy]

/-- Unfolding of validate_keyed_mapping on two dicts. -/
theorem validate_keyed_mapping_dict (recur : Py → Py → Except Err Py)
    (ss vs : List (Py × Py)) :
    validate_keyed_mapping recur (.dict ss) (.dict vs) =
      if (missingKeysOf ss vs).isEmpty then
        (merge_with recur ss vs).map Py.dict
      else .error (.missingKeys (missingKeysOf ss vs) (.dict vs)) := rfl

/-- A key some stored key equals can be looked up. -/
theorem lookup_isSome_of_any {vs : List (Py × Py)} {k : Py}
    (h : (vs.any (fun kv => pyEq kv.1 k)) = true) :
    ∃ v, lookupEntry vs k = some v := by
  induction vs with
  | nil => simp at h
  | cons e rest ih =>
      obtain ⟨k1, v1⟩ := e
      rw [lookupEntry_cons]
      cases hmatch : pyEq k1 k with
      | true => exact ⟨v1, by rw [if_pos rfl]⟩
      | false =>
          rw [if_neg (by simp)]
          refine ih ?_
          simp only [List.any_cons] at h
          rw [hmatch] at h
          simpa using h

/-- When no schema key is missing, every schema key can be looked up in
the value. -/
theorem lookup_of_no_missing {ss vs : List (Py × Py)} {s : String} {sub : Py}
    (hempty : missingKeysOf ss vs = []) (hmem : (Py.str s, sub) ∈ ss) :
    ∃ v, lookupEntry vs (Py.str s) = some v := by
  refine lookup_isSome_of_any ?_
  by_contra hany
  have hany2 : (vs.any (fun kv => pyEq kv.1 (Py.str s))) = false := by
    cases hx : vs.any (fun kv => pyEq kv.1 (Py.str s)) with
    | true => exact absurd hx hany
    | false => rfl
  have hin : (Py.str s) ∈ missingKeysOf ss vs := by
    simp only [missingKeysOf, List.mem_filter]
    constructor
    · exact List.mem_map.2 ⟨(Py.str s, sub), hmem, rfl⟩
    · rw [hany2]
      rfl
  rw [hempty] at hin
  exact absurd hin (by simp)

/-- C3: for a keyed-mapping schema with plain string keys and a mapping
value, validation fails exactly when some schema key is absent, with an
error listing all missing keys (not just the first) and the offending
value; otherwise it returns a mapping binding each schema key to the
result of validating the value entry at that key, with every unmentioned
value entry passed through unchanged.  The key lists carry the
pairwise-distinct-keys invariant every real Python dict has. -/
theorem C3_keyed_mapping :
    (∀ fuel (ss vs : List (Py × Py)),
      (∀ kv ∈ ss, is_string kv.1 = true) →
      missingKeysOf ss vs ≠ [] →
      validate_against_schema (fuel + 1) (.dict ss) (.dict vs) =
        .error (.missingKeys (missingKeysOf ss vs) (.dict vs)))
  ∧ (∀ (ss vs : List (Py × Py)) (k : Py), k ∈ ss.map Prod.fst →
      (vs.any (fun kv => pyEq kv.1 k)) = false → k ∈ missingKeysOf ss vs)
  ∧ (∀ fuel (ss vs : List (Py × Py)) (R : Py),
      (∀ kv ∈ ss, is_string kv.1 = true) →
      List.Pairwise keyNe ss → List.Pairwise keyNe vs →
      validate_against_schema (fuel + 1) (.dict ss) (.dict vs) =
        Except.ok R →
      ∃ es, R = .dict es ∧ List.Pairwise keyNe es ∧
        (∀ (s : String) (sub : Py), (Py.str s, sub) ∈ ss →
          ∃ v r, lookupEntry vs (Py.str s) = some v ∧
            validate_against_schema fuel sub v = Except.ok r ∧
            (Py.str s, r) ∈ es)
        ∧ (∀ kv v, (kv, v) ∈ vs → lookupEntry ss kv = Option.none →
            (kv, v) ∈ es))
  ∧ validate_against_schema 5 (.dict [(.str "name", strPy)])
      (.dict [(.str "name", .str "Bob"), (.str "age", .int 5)]) =
      Except.ok (.dict [(.str "name", .str "Bob"), (.str "age", .int 5)]) := by
  refine ⟨?_, ?_, ?_, rfl⟩
  · intro fuel ss vs hstr hmiss
    rw [validate_succ, classify_dict_string_keys hstr,
      validate_keyed_mapping_dict]
    rw [if_neg (by
      intro hh
      exact hmiss (List.isEmpty_iff.1 hh))]
  · intro ss vs k hk hany
    simp only [missingKeysOf, List.mem_filter]
    exact ⟨hk, by rw [hany]; rfl⟩
  · intro fuel ss vs R hstr hpss hpvs h
    rw [validate_succ, classify_dict_string_keys hstr,
      validate_keyed_mapping_dict] at h
    cases hempty : (missingKeysOf ss vs).isEmpty with
    | false =>
        rw [if_neg (by rw [hempty]; simp)] at h
        exact absurd h (by simp)
    | true =>
        rw [if_pos (by rw [hempty])] at h
        cases hm : merge_with
            (fun s v => validate_against_schema fuel s v) ss vs with
        | error e => rw [hm] at h; exact absurd h (by simp)
        | ok es =>
            rw [hm] at h
            simp only [exceptMap_ok] at h
            refine ⟨es, by injection h with hh; rw [← hh],
              merge_with_pairwise _ vs ss es hpss hm, ?_, ?_⟩
            · intro s sub hmem
              obtain ⟨v, hv⟩ := lookup_of_no_missing
                (List.isEmpty_iff.1 hempty) hmem
              obtain ⟨r, hr, hres⟩ := merge_with_matched _ vs ss es hpss
                hpvs hm s sub v hmem hv
              exact ⟨v, r, hv, hr, hres⟩
            · intro kv v hmem hnone
              exact merge_with_extra _ vs ss es hpvs hm kv v hmem hnone

/-- Witness for C3: the success clause at the schema requiring a "name"
string and the value binding "name" to "Bob" with an extra "age" key. -/
theorem C3_witness :
    ∃ es, (Py.dict [(.str "name", .str "Bob"), (.str "age", .int 5)] :
        Py) = .dict es ∧
      List.Pairwise keyNe es ∧
      (∀ (s : String) (sub : Py), (Py.str s, sub) ∈
          [((Py.str "name" : Py), strPy)] →
        ∃ v r, lookupEntry [(Py.str "name", Py.str "Bob"),
            (Py.str "age", Py.int 5)] (Py.str s) = some v ∧
          validate_against_schema 4 sub v = Except.ok r ∧
          (Py.str s, r) ∈ es)
      ∧ (∀ kv v, (kv, v) ∈ [(Py.str "name", Py.str "Bob"),
            (Py.str "age", Py.int 5)] →
          lookupEntry [((Py.str "name" : Py), strPy)] kv = Option.none →
          (kv, v) ∈ es) :=
  C3_keyed_mapping.2.2.1 4 [(Py.str "name", strPy)]
    [(Py.str "name", Py.str "Bob"), (Py.str "age", Py.int 5)]
    (Py.dict [(.str "name", .str "Bob"), (.str "age", .int 5)])
    (by intro kv h; simp only [List.mem_singleton] at h; rw [h]; rfl)
    (List.pairwise_singleton _ _)
    (by
      constructor
      · intro e he
        simp only [List.mem_singleton] at he
        rw [he]
        rfl
      · exact List.pairwise_singleton _ _)
    rfl

/-! Well-formedness of modelled values (invariants every runtime Python
value satisfies: dict keys pairwise distinct under ==, float denominators
positive), and freedom from the null value. -/

/-- Keys of an entry list are pairwise unequal under Python equality. -/
def noDupKeysB : List (Py × Py) → Bool
  | [] => true
  | (k, _) :: rest => rest.all (fun e => !pyEq k e.1) && noDupKeysB rest

mutual
/-- A value is well formed: every dict in it has pairwise-unequal keys
(true of every real Python dict) and every float in it has a positive
denominator (true of every real float), including inside the schemas
stored by function objects. -/
def wfPy : Py → Bool
  | .float _ den => decide (0 < den)
  | .list xs => wfList xs
  | .dict es => noDupKeysB es && wfEntries es
  | .func f => wfFn f
  | _ => true

def wfFn : Fn → Bool
  | .predValidator p _ _ _ => wfPred p
  | .curriedValidator s _ _ _ => wfPy s
  | _ => true

def wfPred : Pred → Bool
  | .anySchema ss => wfList ss
  | .memberOf vs => wfList vs
  | _ => true

def wfList : List Py → Bool
  | [] => true
  | x :: xs => wfPy x && wfList xs

def wfEntries : List (Py × Py) → Bool
  | [] => true
  | (k, v) :: es => wfPy k && wfPy v && wfEntries es
end

mutual
/-- A value contains no occurrence of the null value in data position
(inside lists and dict keys and values; the schemas stored by function
objects are never treated as data). -/
def noneFree : Py → Bool
  | .none => false
  | .list xs => noneFreeList xs
  | .dict es => noneFreeEntries es
  | _ => true

def noneFreeList : List Py → Bool
  | [] => true
  | x :: xs => noneFree x && noneFreeList xs

def noneFreeEntries : List (Py × Py) → Bool
  | [] => true
  | (k, v) :: es => noneFree k && noneFree v && noneFreeEntries es
end

/-- Pairwise-unequal keys as a Bool agree with List.Pairwise keyNe. -/
theorem noDupKeysB_iff_pairwise (es : List (Py × Py)) :
    noDupKeysB es = true ↔ List.Pairwise keyNe es := by
  induction es with
  | nil => simp [noDupKeysB]
  | cons e rest ih =>
      obtain ⟨k, v⟩ := e
      simp only [noDupKeysB, Bool.and_eq_true, List.all_eq_true,
        List.pairwise_cons, ih]
      constructor
      · rintro ⟨h1, h2⟩
        refine ⟨fun e2 he2 => ?_, h2⟩
        have := h1 e2 he2
        simp only [Bool.not_eq_eq_eq_not, Bool.not_true] at this
        exact this
      · rintro ⟨h1, h2⟩
        refine ⟨fun e2 he2 => ?_, h2⟩
        have := h1 e2 he2
        simp only [Bool.not_eq_eq_eq_not, Bool.not_true]
        exact this

/-! Size bounds and fuel stability for the bounded equality test. -/

theorem pySize_pos (a : Py) : 1 ≤ pySize a := by
  cases a <;> simp [pySize]

theorem mem_size_le_list {x : Py} : ∀ {xs : List Py}, x ∈ xs →
    pySize x ≤ pySizeList xs := by
  intro xs h
  induction xs with
  | nil => exact absurd h (by simp)
  | cons y ys ih =>
      cases List.mem_cons.1 h with
      | inl hh => rw [hh]; simp [pySizeList]; omega
      | inr hh =>
          have := ih hh
          simp [pySizeList]
          omega

theorem mem_size_le_entries {k v : Py} : ∀ {es : List (Py × Py)},
    (k, v) ∈ es → pySize k ≤ pySizeEntries es ∧
      pySize v ≤ pySizeEntries es := by
  intro es h
  induction es with
  | nil => exact absurd h (by simp)
  | cons e rest ih =>
      obtain ⟨k1, v1⟩ := e
      cases List.mem_cons.1 h with
      | inl hh =>
          injection hh with h1 h2
          subst h1
          subst h2
          simp [pySizeEntries]
          omega
      | inr hh =>
          obtain ⟨ha, hb⟩ := ih hh
          simp [pySizeEntries]
          omega

/-- Membership-conditional congruence for the pointwise list test. -/
theorem listEqWith_congr {eq eq2 : Py → Py → Bool} :
    ∀ {xs ys : List Py},
      (∀ x ∈ xs, ∀ y ∈ ys, eq x y = eq2 x y) →
      listEqWith eq xs ys = listEqWith eq2 xs ys := by
  intro xs
  induction xs with
  | nil => intro ys h; cases ys <;> rfl
  | cons x xs ih =>
      intro ys h
      cases ys with
      | nil => rfl
      | cons y ys =>
          simp only [listEqWith]
          rw [h x (by simp) y (by simp),
            ih (fun a ha b hb =>
              h a (List.mem_cons_of_mem _ ha) b (List.mem_cons_of_mem _ hb))]

/-- Membership-conditional congruence for entry membership. -/
theorem memEntryWith_congr {eq eq2 : Py → Py → Bool} {k v : Py} :
    ∀ {fs : List (Py × Py)},
      (∀ e ∈ fs, eq k e.1 = eq2 k e.1 ∧ eq v e.2 = eq2 v e.2) →
      memEntryWith eq k v fs = memEntryWith eq2 k v fs := by
  intro fs
  induction fs with
  | nil => intro _; rfl
  | cons f rest ih =>
      obtain ⟨kf, vf⟩ := f
      intro h
      simp only [memEntryWith]
      obtain ⟨h1, h2⟩ := h (kf, vf) (by simp)
      rw [h1, h2, ih (fun e he => h e (List.mem_cons_of_mem _ he))]

/-- Membership-conditional congruence for the entry-inclusion test. -/
theorem entriesSubWith_congr {eq eq2 : Py → Py → Bool} :
    ∀ {es fs : List (Py × Py)},
      (∀ e ∈ es, ∀ f ∈ fs, (eq e.1 f.1 = eq2 e.1 f.1) ∧
        (eq e.2 f.2 = eq2 e.2 f.2)) →
      entriesSubWith eq es fs = entriesSubWith eq2 es fs := by
  intro es
  induction es with
  | nil => intro fs h; rfl
  | cons e rest ih =>
      obtain ⟨k, v⟩ := e
      intro fs h
      simp only [entriesSubWith]
      rw [memEntryWith_congr (fun f hf =>
          ⟨(h (k, v) (by simp) f hf).1, (h (k, v) (by simp) f hf).2⟩),
        ih (fun a ha f hf => h a (List.mem_cons_of_mem _ ha) f hf)]

/-! Unfolding lemmas for the bounded equality at positive fuel. -/

theorem pyEqB_succ_list (g : Nat) (xs ys : List Py) :
    pyEqB (g + 1) (.list xs) (.list ys) =
      listEqWith (fun x y => pyEqB g x y) xs ys := rfl

theorem pyEqB_succ_dict (g : Nat) (es fs : List (Py × Py)) :
    pyEqB (g + 1) (.dict es) (.dict fs) =
      (Nat.beq es.length fs.length
        && entriesSubWith (fun x y => pyEqB g x y) es fs
        && entriesSubWith (fun x y => pyEqB g x y) fs es) := rfl

theorem pyEqB_succ_func (g : Nat) (f f2 : Fn) :
    pyEqB (g + 1) (.func f) (.func f2) =
      fnEqWith (fun x y => pyEqB g x y) f f2 := rfl

/-- Size-conditional congruence for the predicate-equality test. -/
theorem predEqWith_congrP {eq eq2 : Py → Py → Bool} {p q : Pred}
    (h : ∀ x y, pySize x ≤ pySizePred p → pySize y ≤ pySizePred q →
      eq x y = eq2 x y) :
    predEqWith eq p q = predEqWith eq2 p q := by
  cases p with
  | isNone => cases q <;> rfl
  | reMatch pat => cases q <;> rfl
  | anySchema xs =>
      cases q with
      | anySchema ys =>
          simp only [predEqWith]
          refine listEqWith_congr (fun x hx y hy => h x y ?_ ?_)
          · have := mem_size_le_list hx
            simp only [pySizePred]
            omega
          · have := mem_size_le_list hy
            simp only [pySizePred]
            omega
      | isNone => rfl
      | reMatch pat => rfl
      | memberOf ys => rfl
  | memberOf xs =>
      cases q with
      | memberOf ys =>
          simp only [predEqWith]
          refine listEqWith_congr (fun x hx y hy => h x y ?_ ?_)
          · have := mem_size_le_list hx
            simp only [pySizePred]
            omega
          · have := mem_size_le_list hy
            simp only [pySizePred]
            omega
      | isNone => rfl
      | reMatch pat => rfl
      | anySchema ys => rfl

/-- Size-conditional congruence for the function-equality test. -/
theorem fnEqWith_congrF {eq eq2 : Py → Py → Bool} {f g : Fn}
    (h : ∀ x y, pySize x ≤ pySizeFn f → pySize y ≤ pySizeFn g →
      eq x y = eq2 x y) :
    fnEqWith eq f g = fnEqWith eq2 f g := by
  cases f with
  | pyInt => cases g <;> rfl
  | pyStr => cases g <;> rfl
  | pyFloat => cases g <;> rfl
  | identity => cases g <;> rfl
  | predValidator p n c m =>
      cases g with
      | predValidator p2 n2 c2 m2 =>
          simp only [fnEqWith]
          rw [predEqWith_congrP (fun x y hx hy => h x y
            (by simp only [pySizeFn]; omega)
            (by simp only [pySizeFn]; omega))]
      | pyInt => rfl
      | pyStr => rfl
      | pyFloat => rfl
      | identity => rfl
      | curriedValidator s subj vp co => rfl
  | curriedValidator s subj vp co =>
      cases g with
      | curriedValidator s2 subj2 vp2 co2 =>
          simp only [fnEqWith]
          rw [h s s2 (by simp only [pySizeFn]; omega)
            (by simp only [pySizeFn]; omega)]
      | pyInt => rfl
      | pyStr => rfl
      | pyFloat => rfl
      | identity => rfl
      | predValidator p2 n2 c2 m2 => rfl

/-- The bounded equality is stable once the fuel covers the sizes. -/
theorem pyEqB_stable : ∀ (f1 : Nat), ∀ {f2 : Nat} {a b : Py},
    pySize a + pySize b ≤ f1 → pySize a + pySize b ≤ f2 →
    pyEqB f1 a b = pyEqB f2 a b := by
  intro f1
  induction f1 with
  | zero =>
      intro f2 a b h1 _
      have ha := pySize_pos a
      have hb := pySize_pos b
      omega
  | succ g1 ih =>
      intro f2 a b h1 h2
      cases f2 with
      | zero =>
          have ha := pySize_pos a
          have hb := pySize_pos b
          omega
      | succ g2 =>
          cases a with
          | list xs =>
              cases b with
              | list ys =>
                  rw [pyEqB_succ_list, pyEqB_succ_list]
                  refine listEqWith_congr (fun x hx y hy => ?_)
                  have hxs := mem_size_le_list hx
                  have hys := mem_size_le_list hy
                  refine ih ?_ ?_ <;>
                    simp only [pySize] at h1 h2 <;> omega
              | none => rfl
              | bool b2 => rfl
              | int n => rfl
              | float num den => rfl
              | str s => rfl
              | dict fs => rfl
              | func f => rfl
          | dict es =>
              cases b with
              | dict fs =>
                  rw [pyEqB_succ_dict, pyEqB_succ_dict]
                  have hsub : ∀ (as bs : List (Py × Py)),
                      pySizeEntries as + pySizeEntries bs + 2 ≤ g1 + 1 →
                      pySizeEntries as + pySizeEntries bs + 2 ≤ g2 + 1 →
                      entriesSubWith (fun x y => pyEqB g1 x y) as bs =
                        entriesSubWith (fun x y => pyEqB g2 x y) as bs := by
                    intro as bs ha hb
                    refine entriesSubWith_congr (fun e he f hf => ?_)
                    obtain ⟨he1, he2⟩ := mem_size_le_entries
                      (show (e.1, e.2) ∈ as by simpa using he)
                    obtain ⟨hf1, hf2⟩ := mem_size_le_entries
                      (show (f.1, f.2) ∈ bs by simpa using hf)
                    exact ⟨ih (by omega) (by omega), ih (by omega) (by omega)⟩
                  simp only [pySize] at h1 h2
                  rw [hsub es fs (by omega) (by omega),
                    hsub fs es (by omega) (by omega)]
              | none => rfl
              | bool b2 => rfl
              | int n => rfl
              | float num den => rfl
              | str s => rfl
              | list ys => rfl
              | func f => rfl
          | func f =>
              cases b with
              | func f2 =>
                  rw [pyEqB_succ_func, pyEqB_succ_func]
                  refine fnEqWith_congrF (fun x y hx hy => ?_)
                  refine ih ?_ ?_ <;>
                    simp only [pySize] at h1 h2 <;> omega
              | none => rfl
              | bool b2 => rfl
              | int n => rfl
              | float num den => rfl
              | str s => rfl
              | list ys => rfl
              | dict fs => rfl
          | none => cases b <;> rfl
          | bool b2 => cases b <;> rfl
          | int n => cases b <;> rfl
          | float num den => cases b <;> rfl
          | str s => cases b <;> rfl

/-- Python equality agrees with the bounded test at any sufficient fuel. -/
theorem pyEq_eq_pyEqB {fuel : Nat} {a b : Py}
    (h : pySize a + pySize b ≤ fuel) : pyEq a b = pyEqB fuel a b := by
  rw [show pyEq a b = pyEqB (pySize a + pySize b + 1) a b from rfl]
  exact pyEqB_stable _ (by omega) h

/-! Reflexivity of the equality test. -/

theorem natBeq_refl (x : Nat) : Nat.beq x x = true := by
  cases hb : Nat.beq x x
  · exact absurd rfl (Nat.ne_of_beq_eq_false hb)
  · rfl

theorem listEqWith_self {eq : Py → Py → Bool} :
    ∀ {xs : List Py}, (∀ x ∈ xs, eq x x = true) →
      listEqWith eq xs xs = true := by
  intro xs
  induction xs with
  | nil => intro _; rfl
  | cons x rest ih =>
      intro h
      simp only [listEqWith, Bool.and_eq_true]
      exact ⟨h x (by simp), ih (fun a ha => h a (List.mem_cons_of_mem _ ha))⟩

theorem memEntryWith_self {eq : Py → Py → Bool} {k v : Py} :
    ∀ {es : List (Py × Py)}, (k, v) ∈ es → eq k k = true → eq v v = true →
      memEntryWith eq k v es = true := by
  intro es
  induction es with
  | nil => intro h _ _; exact absurd h (by simp)
  | cons e rest ih =>
      obtain ⟨k1, v1⟩ := e
      intro h hk hv
      simp only [memEntryWith, Bool.or_eq_true, Bool.and_eq_true]
      cases List.mem_cons.1 h with
      | inl hh =>
          injection hh with h1 h2
          subst h1
          subst h2
          exact Or.inl ⟨hk, hv⟩
      | inr hh => exact Or.inr (ih hh hk hv)

theorem entriesSubWith_self {eq : Py → Py → Bool} :
    ∀ {es : List (Py × Py)},
      (∀ e ∈ es, eq e.1 e.1 = true ∧ eq e.2 e.2 = true) →
      entriesSubWith eq es es = true := by
  intro es h
  have step : ∀ (as : List (Py × Py)), (∀ e ∈ as, e ∈ es) →
      entriesSubWith eq as es = true := by
    intro as
    induction as with
    | nil => intro _; rfl
    | cons e rest ih =>
        obtain ⟨k, v⟩ := e
        intro hsub
        simp only [entriesSubWith, Bool.and_eq_true]
        have hin := hsub (k, v) (by simp)
        obtain ⟨hk, hv⟩ := h (k, v) hin
        exact ⟨memEntryWith_self hin hk hv,
          ih (fun e he => hsub e (List.mem_cons_of_mem _ he))⟩
  exact step es (fun e he => he)

/-- The bounded equality test is reflexive at sufficient fuel. -/
theorem pyEqB_refl : ∀ (fuel : Nat), ∀ {a : Py}, pySize a ≤ fuel →
    pyEqB fuel a a = true := by
  intro fuel
  induction fuel with
  | zero =>
      intro a h
      have := pySize_pos a
      omega
  | succ g ih =>
      intro a h
      cases a with
      | none => rfl
      | bool b => exact beq_self_eq_true _
      | int n => exact beq_self_eq_true _
      | float num den => exact beq_self_eq_true _
      | str s => exact beq_self_eq_true _
      | list xs =>
          rw [pyEqB_succ_list]
          refine listEqWith_self (fun x hx => ih ?_)
          have := mem_size_le_list hx
          simp only [pySize] at h
          omega
      | dict es =>
          rw [pyEqB_succ_dict]
          simp only [Bool.and_eq_true]
          have hsub : entriesSubWith (fun x y => pyEqB g x y) es es = true := by
            refine entriesSubWith_self (fun e he => ?_)
            obtain ⟨h1, h2⟩ := mem_size_le_entries
              (show (e.1, e.2) ∈ es by simpa using he)
            simp only [pySize] at h
            exact ⟨ih (by omega), ih (by omega)⟩
          exact ⟨⟨natBeq_refl _, hsub⟩, hsub⟩
      | func f =>
          rw [pyEqB_succ_func]
          simp only [pySize] at h
          cases f with
          | pyInt => rfl
          | pyStr => rfl
          | pyFloat => rfl
          | identity => rfl
          | predValidator p n c m =>
              simp only [fnEqWith, Bool.and_eq_true]
              refine ⟨⟨⟨?_, by simp⟩, ?_⟩, by simp⟩
              · cases p with
                | isNone => rfl
                | reMatch pat => cases pat; rfl
                | anySchema xs =>
                    simp only [predEqWith]
                    refine listEqWith_self (fun x hx => ih ?_)
                    have := mem_size_le_list hx
                    simp only [pySizeFn, pySizePred] at h
                    omega
                | memberOf xs =>
                    simp only [predEqWith]
                    refine listEqWith_self (fun x hx => ih ?_)
                    have := mem_size_le_list hx
                    simp only [pySizeFn, pySizePred] at h
                    omega
              · cases c with
                | none => rfl
                | some c0 => cases c0; rfl
          | curriedValidator s subj vp co =>
              simp only [fnEqWith, Bool.and_eq_true]
              refine ⟨⟨⟨?_, by simp⟩, ?_⟩, by simp⟩
              · refine ih ?_
                simp only [pySizeFn] at h
                omega
              · cases vp with
                | none => rfl
                | some v0 => cases v0 <;> rfl

/-- Python equality is reflexive. -/
theorem pyEq_refl (a : Py) : pyEq a a = true :=
  pyEqB_refl _ (by omega)

/-! Symmetry of the equality test. -/

theorem intBeq_comm (x y : Int) : (x == y) = (y == x) := by
  by_cases h : x = y
  · subst h; rfl
  · rw [beq_eq_false_iff_ne.2 h, beq_eq_false_iff_ne.2 (Ne.symm h)]

theorem natBeq_comm (x y : Nat) : Nat.beq x y = Nat.beq y x := by
  by_cases h : x = y
  · subst h; rfl
  · have h1 : Nat.beq x y = false := by
      cases hb : Nat.beq x y
      · rfl
      · exact absurd (Nat.eq_of_beq_eq_true hb) h
    have h2 : Nat.beq y x = false := by
      cases hb : Nat.beq y x
      · rfl
      · exact absurd (Nat.eq_of_beq_eq_true hb).symm h
    rw [h1, h2]

theorem boolBeq_comm (x y : Bool) : (x == y) = (y == x) := by
  by_cases h : x = y
  · subst h; rfl
  · rw [beq_eq_false_iff_ne.2 h, beq_eq_false_iff_ne.2 (Ne.symm h)]

theorem strBeq_comm (x y : String) : (x == y) = (y == x) := by
  by_cases h : x = y
  · subst h; rfl
  · rw [beq_eq_false_iff_ne.2 h, beq_eq_false_iff_ne.2 (Ne.symm h)]

theorem optStrBeq_comm (x y : Option String) : (x == y) = (y == x) := by
  by_cases h : x = y
  · subst h; rfl
  · rw [beq_eq_false_iff_ne.2 h, beq_eq_false_iff_ne.2 (Ne.symm h)]

theorem coercerEq_comm (x y : Option Coercer) : coercerEq x y = coercerEq y x := by
  cases x <;> cases y <;> rfl

theorem bpredEq_comm (x y : Option BPred) : bpredEq x y = bpredEq y x := by
  cases x <;> cases y <;> first
    | rfl
    | (rename_i c; cases c <;> rfl)
    | (rename_i c d; cases c <;> cases d <;> rfl)

theorem listEqWith_symmH {eq : Py → Py → Bool} :
    ∀ {xs ys : List Py}, (∀ x ∈ xs, ∀ y ∈ ys, eq x y = eq y x) →
      listEqWith eq xs ys = listEqWith eq ys xs := by
  intro xs
  induction xs with
  | nil => intro ys _; cases ys <;> rfl
  | cons x rest ih =>
      intro ys h
      cases ys with
      | nil => rfl
      | cons y ys2 =>
          simp only [listEqWith]
          rw [h x (by simp) y (by simp),
            ih (fun a ha b hb =>
              h a (List.mem_cons_of_mem _ ha) b (List.mem_cons_of_mem _ hb))]

/-- The bounded equality test is symmetric. -/
theorem pyEqB_symm : ∀ (fuel : Nat) (a b : Py),
    pyEqB fuel a b = pyEqB fuel b a := by
  intro fuel
  induction fuel with
  | zero => intro a b; rfl
  | succ g ih =>
      intro a b
      cases a with
      | none => cases b <;> rfl
      | bool x => cases b <;> first | rfl | exact intBeq_comm _ _
      | int n => cases b <;> first | rfl | exact intBeq_comm _ _
      | float num den => cases b <;> first | rfl | exact intBeq_comm _ _
      | str s =>
          cases b with
          | str t => exact strBeq_comm s t
          | none => rfl
          | bool x => rfl
          | int n => rfl
          | float num den => rfl
          | list xs => rfl
          | dict es => rfl
          | func f => rfl
      | list xs =>
          cases b with
          | list ys =>
              rw [pyEqB_succ_list, pyEqB_succ_list]
              exact listEqWith_symmH (fun x _ y _ => ih x y)
          | none => rfl
          | bool x => rfl
          | int n => rfl
          | float num den => rfl
          | str s => rfl
          | dict es => rfl
          | func f => rfl
      | dict es =>
          cases b with
          | dict fs =>
              rw [pyEqB_succ_dict, pyEqB_succ_dict, natBeq_comm]
              rw [Bool.and_assoc, Bool.and_assoc]
              rw [Bool.and_comm (entriesSubWith (fun x y => pyEqB g x y) es fs)]
          | none => rfl
          | bool x => rfl
          | int n => rfl
          | float num den => rfl
          | str s => rfl
          | list xs => rfl
          | func f => rfl
      | func f =>
          cases b with
          | func f2 =>
              rw [pyEqB_succ_func, pyEqB_succ_func]
              cases f with
              | pyInt => cases f2 <;> rfl
              | pyStr => cases f2 <;> rfl
              | pyFloat => cases f2 <;> rfl
              | identity => cases f2 <;> rfl
              | predValidator p n c m =>
                  cases f2 with
                  | predValidator p2 n2 c2 m2 =>
                      simp only [fnEqWith]
                      rw [strBeq_comm, optStrBeq_comm, coercerEq_comm]
                      have hpred : predEqWith (fun x y => pyEqB g x y) p p2 =
                          predEqWith (fun x y => pyEqB g x y) p2 p := by
                        cases p with
                        | isNone => cases p2 <;> rfl
                        | reMatch pat =>
                            cases p2 with
                            | reMatch pat2 => cases pat; cases pat2; rfl
                            | isNone => rfl
                            | anySchema ys => rfl
                            | memberOf ys => rfl
                        | anySchema xs =>
                            cases p2 with
                            | anySchema ys =>
                                simp only [predEqWith]
                                exact listEqWith_symmH (fun x _ y _ => ih x y)
                            | isNone => rfl
                            | reMatch pat2 => rfl
                            | memberOf ys => rfl
                        | memberOf xs =>
                            cases p2 with
                            | memberOf ys =>
                                simp only [predEqWith]
                                exact listEqWith_symmH (fun x _ y _ => ih x y)
                            | isNone => rfl
                            | reMatch pat2 => rfl
                            | anySchema ys => rfl
                      rw [hpred]
                  | pyInt => rfl
                  | pyStr => rfl
                  | pyFloat => rfl
                  | identity => rfl
                  | curriedValidator s2 subj2 vp2 co2 => rfl
              | curriedValidator s subj vp co =>
                  cases f2 with
                  | curriedValidator s2 subj2 vp2 co2 =>
                      simp only [fnEqWith]
                      rw [strBeq_comm, bpredEq_comm, ih s s2, boolBeq_comm]
                  | pyInt => rfl
                  | pyStr => rfl
                  | pyFloat => rfl
                  | identity => rfl
                  | predValidator p2 n2 c2 m2 => rfl
          | none => rfl
          | bool x => rfl
          | int n => rfl
          | float num den => rfl
          | str s => rfl
          | list xs => rfl
          | dict es => rfl

/-- Python equality is symmetric. -/
theorem pyEq_symm (a b : Py) : pyEq a b = pyEq b a := by
  rw [show pyEq a b = pyEqB (pySize a + pySize b + 1) a b from rfl,
    pyEqB_symm, ← pyEq_eq_pyEqB (by omega)]

/-! Transitivity of the equality test (on well-formed middle values). -/

theorem wfList_mem {x : Py} : ∀ {xs : List Py}, wfList xs = true → x ∈ xs →
    wfPy x = true := by
  intro xs
  induction xs with
  | nil => intro _ h; exact absurd h (by simp)
  | cons y ys ih =>
      intro hw h
      simp only [wfList, Bool.and_eq_true] at hw
      cases List.mem_cons.1 h with
      | inl hh => exact hh ▸ hw.1
      | inr hh => exact ih hw.2 hh

theorem wfEntries_mem {k v : Py} : ∀ {es : List (Py × Py)},
    wfEntries es = true → (k, v) ∈ es → wfPy k = true ∧ wfPy v = true := by
  intro es
  induction es with
  | nil => intro _ h; exact absurd h (by simp)
  | cons e rest ih =>
      obtain ⟨k1, v1⟩ := e
      intro hw h
      simp only [wfEntries, Bool.and_eq_true] at hw
      cases List.mem_cons.1 h with
      | inl hh =>
          injection hh with h1 h2
          subst h1
          subst h2
          exact ⟨hw.1.1, hw.1.2⟩
      | inr hh => exact ih hw.2 hh

theorem entriesSubWith_forall {eq : Py → Py → Bool} :
    ∀ {es fs : List (Py × Py)}, entriesSubWith eq es fs = true →
      ∀ e ∈ es, memEntryWith eq e.1 e.2 fs = true := by
  intro es
  induction es with
  | nil => intro fs _ e he; exact absurd he (by simp)
  | cons e0 rest ih =>
      obtain ⟨k, v⟩ := e0
      intro fs h e he
      simp only [entriesSubWith, Bool.and_eq_true] at h
      cases List.mem_cons.1 he with
      | inl hh => subst hh; exact h.1
      | inr hh => exact ih h.2 e hh

theorem entriesSubWith_of_forall {eq : Py → Py → Bool} :
    ∀ {es fs : List (Py × Py)},
      (∀ e ∈ es, memEntryWith eq e.1 e.2 fs = true) →
      entriesSubWith eq es fs = true := by
  intro es
  induction es with
  | nil => intro fs _; rfl
  | cons e0 rest ih =>
      obtain ⟨k, v⟩ := e0
      intro fs h
      simp only [entriesSubWith, Bool.and_eq_true]
      exact ⟨h (k, v) (by simp), ih (fun e he => h e (List.mem_cons_of_mem _ he))⟩

theorem memEntryWith_exists {eq : Py → Py → Bool} {k v : Py} :
    ∀ {fs : List (Py × Py)}, memEntryWith eq k v fs = true →
      ∃ f ∈ fs, eq k f.1 = true ∧ eq v f.2 = true := by
  intro fs
  induction fs with
  | nil => intro h; exact absurd h (by simp [memEntryWith])
  | cons f0 rest ih =>
      obtain ⟨kf, vf⟩ := f0
      intro h
      simp only [memEntryWith, Bool.or_eq_true, Bool.and_eq_true] at h
      cases h with
      | inl hh => exact ⟨(kf, vf), by simp, hh.1, hh.2⟩
      | inr hh =>
          obtain ⟨f, hf, h1, h2⟩ := ih hh
          exact ⟨f, List.mem_cons_of_mem _ hf, h1, h2⟩

theorem memEntryWith_of_exists {eq : Py → Py → Bool} {k v : Py} :
    ∀ {fs : List (Py × Py)}, (∃ f ∈ fs, eq k f.1 = true ∧ eq v f.2 = true) →
      memEntryWith eq k v fs = true := by
  intro fs
  induction fs with
  | nil => intro h; obtain ⟨f, hf, _⟩ := h; exact absurd hf (by simp)
  | cons f0 rest ih =>
      obtain ⟨kf, vf⟩ := f0
      intro h
      obtain ⟨f, hf, h1, h2⟩ := h
      simp only [memEntryWith, Bool.or_eq_true, Bool.and_eq_true]
      cases List.mem_cons.1 hf with
      | inl hh => subst hh; exact Or.inl ⟨h1, h2⟩
      | inr hh => exact Or.inr (ih ⟨f, hh, h1, h2⟩)

theorem listEqWith_trans {eq : Py → Py → Bool} :
    ∀ {xs ys zs : List Py},
      (∀ x ∈ xs, ∀ y ∈ ys, ∀ z ∈ zs,
        eq x y = true → eq y z = true → eq x z = true) →
      listEqWith eq xs ys = true → listEqWith eq ys zs = true →
      listEqWith eq xs zs = true := by
  intro xs
  induction xs with
  | nil =>
      intro ys zs _ h1 h2
      cases ys with
      | nil => cases zs with
          | nil => rfl
          | cons z zs2 => exact absurd h2 (by simp [listEqWith])
      | cons y ys2 => exact absurd h1 (by simp [listEqWith])
  | cons x rest ih =>
      intro ys zs h h1 h2
      cases ys with
      | nil => exact absurd h1 (by simp [listEqWith])
      | cons y ys2 =>
          cases zs with
          | nil => exact absurd h2 (by simp [listEqWith])
          | cons z zs2 =>
              simp only [listEqWith, Bool.and_eq_true] at h1 h2 ⊢
              refine ⟨h x (by simp) y (by simp) z (by simp) h1.1 h2.1, ?_⟩
              exact ih
                (fun a ha b hb c hc => h a (List.mem_cons_of_mem _ ha)
                  b (List.mem_cons_of_mem _ hb) c (List.mem_cons_of_mem _ hc))
                h1.2 h2.2

theorem num_cross_trans {n1 n2 n3 d1 d2 d3 : Int} (hd2 : d2 ≠ 0)
    (h12 : n1 * d2 = n2 * d1) (h23 : n2 * d3 = n3 * d2) :
    n1 * d3 = n3 * d1 := by
  have h : n1 * d3 * d2 = n3 * d1 * d2 := by
    calc n1 * d3 * d2 = n1 * d2 * d3 := by ring
    _ = n2 * d1 * d3 := by rw [h12]
    _ = n2 * d3 * d1 := by ring
    _ = n3 * d2 * d1 := by rw [h23]
    _ = n3 * d1 * d2 := by ring
  exact mul_right_cancel₀ hd2 h

theorem pyEqB_none_inv {fuel : Nat} {a : Py} :
    pyEqB fuel a Py.none = true → a = Py.none := by
  intro h
  cases fuel with
  | zero => exact Bool.noConfusion h
  | succ g =>
      cases a with
      | none => rfl
      | bool x => exact Bool.noConfusion h
      | int n => exact Bool.noConfusion h
      | float num den => exact Bool.noConfusion h
      | str s => exact Bool.noConfusion h
      | list xs => exact Bool.noConfusion h
      | dict es => exact Bool.noConfusion h
      | func f => exact Bool.noConfusion h

theorem pyEqB_str_inv {fuel : Nat} {a : Py} {s : String} :
    pyEqB fuel a (.str s) = true → a = .str s := by
  intro h
  cases fuel with
  | zero => exact Bool.noConfusion h
  | succ g =>
      cases a with
      | str t =>
          have ht : t = s := eq_of_beq h
          rw [ht]
      | none => exact Bool.noConfusion h
      | bool x => exact Bool.noConfusion h
      | int n => exact Bool.noConfusion h
      | float num den => exact Bool.noConfusion h
      | list xs => exact Bool.noConfusion h
      | dict es => exact Bool.noConfusion h
      | func f => exact Bool.noConfusion h

theorem pyEqB_list_inv {fuel : Nat} {a : Py} {ys : List Py} :
    pyEqB fuel a (.list ys) = true → ∃ xs, a = .list xs := by
  intro h
  cases fuel with
  | zero => exact Bool.noConfusion h
  | succ g =>
      cases a with
      | list xs => exact ⟨xs, rfl⟩
      | none => exact Bool.noConfusion h
      | bool x => exact Bool.noConfusion h
      | int n => exact Bool.noConfusion h
      | float num den => exact Bool.noConfusion h
      | str s => exact Bool.noConfusion h
      | dict es => exact Bool.noConfusion h
      | func f => exact Bool.noConfusion h

theorem pyEqB_dict_inv {fuel : Nat} {a : Py} {fs : List (Py × Py)} :
    pyEqB fuel a (.dict fs) = true → ∃ es, a = .dict es := by
  intro h
  cases fuel with
  | zero => exact Bool.noConfusion h
  | succ g =>
      cases a with
      | dict es => exact ⟨es, rfl⟩
      | none => exact Bool.noConfusion h
      | bool x => exact Bool.noConfusion h
      | int n => exact Bool.noConfusion h
      | float num den => exact Bool.noConfusion h
      | str s => exact Bool.noConfusion h
      | list xs => exact Bool.noConfusion h
      | func f => exact Bool.noConfusion h

theorem pyEqB_func_inv {fuel : Nat} {a : Py} {f2 : Fn} :
    pyEqB fuel a (.func f2) = true → ∃ f, a = .func f := by
  intro h
  cases fuel with
  | zero => exact Bool.noConfusion h
  | succ g =>
      cases a with
      | func f => exact ⟨f, rfl⟩
      | none => exact Bool.noConfusion h
      | bool x => exact Bool.noConfusion h
      | int n => exact Bool.noConfusion h
      | float num den => exact Bool.noConfusion h
      | str s => exact Bool.noConfusion h
      | list xs => exact Bool.noConfusion h
      | dict es => exact Bool.noConfusion h

theorem pyEqB_of_numView {g : Nat} {a c : Py} {p r : Int × Nat}
    (ha : toNumView a = some p) (hc : toNumView c = some r) :
    pyEqB (g + 1) a c = (p.1 * (r.2 : Int) == r.1 * (p.2 : Int)) := by
  cases a <;> simp only [toNumView] at ha <;>
    cases c <;> simp only [toNumView] at hc <;>
      first
        | exact Option.noConfusion ha
        | exact Option.noConfusion hc
        | (injection ha with ha0; injection hc with hc0; subst ha0; subst hc0; rfl)

theorem pyEqB_num_inv {fuel : Nat} {a b : Py} {q : Int × Nat}
    (hq : toNumView b = some q) (hab : pyEqB fuel a b = true) :
    ∃ p, toNumView a = some p ∧ p.1 * (q.2 : Int) = q.1 * (p.2 : Int) := by
  cases fuel with
  | zero => exact Bool.noConfusion hab
  | succ g =>
      cases b <;> simp only [toNumView] at hq <;>
        first
          | exact Option.noConfusion hq
          | (injection hq with hq0; subst hq0;
             cases a with
             | bool x => exact ⟨_, rfl, eq_of_beq hab⟩
             | int n => exact ⟨_, rfl, eq_of_beq hab⟩
             | float num den => exact ⟨_, rfl, eq_of_beq hab⟩
             | none => exact Bool.noConfusion hab
             | str s => exact Bool.noConfusion hab
             | list xs => exact Bool.noConfusion hab
             | dict es => exact Bool.noConfusion hab
             | func f => exact Bool.noConfusion hab)

theorem coercerEq_eqv {x y : Option Coercer} (h : coercerEq x y = true) :
    x = y := by
  cases x with
  | none =>
      cases y with
      | none => rfl
      | some d => exact Bool.noConfusion h
  | some c =>
      cases y with
      | none => exact Bool.noConfusion h
      | some d => cases c; cases d; rfl

theorem coercerEq_refl (x : Option Coercer) : coercerEq x x = true := by
  cases x with
  | none => rfl
  | some c => cases c; rfl

theorem bpredEq_eqv {x y : Option BPred} (h : bpredEq x y = true) : x = y := by
  cases x with
  | none =>
      cases y with
      | none => rfl
      | some d => exact Bool.noConfusion h
  | some c =>
      cases y with
      | none => cases c <;> exact Bool.noConfusion h
      | some d =>
          cases c <;> cases d <;>
            first
              | rfl
              | exact Bool.noConfusion h

theorem bpredEq_refl (x : Option BPred) : bpredEq x x = true := by
  cases x with
  | none => rfl
  | some c => cases c <;> rfl

theorem predEqWith_trans {eq : Py → Py → Bool} {p q r : Pred}
    (h : ∀ x y z : Py, pySize x ≤ pySizePred p → pySize y ≤ pySizePred q →
      pySize z ≤ pySizePred r → wfPy y = true →
      eq x y = true → eq y z = true → eq x z = true)
    (hq : wfPred q = true)
    (h1 : predEqWith eq p q = true) (h2 : predEqWith eq q r = true) :
    predEqWith eq p r = true := by
  cases q with
  | isNone =>
      cases p with
      | isNone =>
          cases r with
          | isNone => rfl
          | reMatch pat3 => exact Bool.noConfusion h2
          | anySchema zs => exact Bool.noConfusion h2
          | memberOf zs => exact Bool.noConfusion h2
      | reMatch pat => exact Bool.noConfusion h1
      | anySchema xs => exact Bool.noConfusion h1
      | memberOf xs => exact Bool.noConfusion h1
  | reMatch pat2 =>
      cases p with
      | reMatch pat =>
          cases r with
          | reMatch pat3 => cases pat; cases pat3; rfl
          | isNone => exact Bool.noConfusion h2
          | anySchema zs => exact Bool.noConfusion h2
          | memberOf zs => exact Bool.noConfusion h2
      | isNone => exact Bool.noConfusion h1
      | anySchema xs => exact Bool.noConfusion h1
      | memberOf xs => exact Bool.noConfusion h1
  | anySchema ys =>
      cases p with
      | anySchema xs =>
          cases r with
          | anySchema zs =>
              simp only [predEqWith] at h1 h2 ⊢
              refine listEqWith_trans
                (fun x hx y hy z hz e1 e2 => h x y z ?_ ?_ ?_ ?_ e1 e2) h1 h2
              · have := mem_size_le_list hx
                simp only [pySizePred]
                omega
              · have := mem_size_le_list hy
                simp only [pySizePred]
                omega
              · have := mem_size_le_list hz
                simp only [pySizePred]
                omega
              · exact wfList_mem hq hy
          | isNone => exact Bool.noConfusion h2
          | reMatch pat3 => exact Bool.noConfusion h2
          | memberOf zs => exact Bool.noConfusion h2
      | isNone => exact Bool.noConfusion h1
      | reMatch pat => exact Bool.noConfusion h1
      | memberOf xs => exact Bool.noConfusion h1
  | memberOf ys =>
      cases p with
      | memberOf xs =>
          cases r with
          | memberOf zs =>
              simp only [predEqWith] at h1 h2 ⊢
              refine listEqWith_trans
                (fun x hx y hy z hz e1 e2 => h x y z ?_ ?_ ?_ ?_ e1 e2) h1 h2
              · have := mem_size_le_list hx
                simp only [pySizePred]
                omega
              · have := mem_size_le_list hy
                simp only [pySizePred]
                omega
              · have := mem_size_le_list hz
                simp only [pySizePred]
                omega
              · exact wfList_mem hq hy
          | isNone => exact Bool.noConfusion h2
          | reMatch pat3 => exact Bool.noConfusion h2
          | anySchema zs => exact Bool.noConfusion h2
      | isNone => exact Bool.noConfusion h1
      | reMatch pat => exact Bool.noConfusion h1
      | anySchema xs => exact Bool.noConfusion h1

theorem pyEqB_trans_num {fuel : Nat} {a b c : Py} {q : Int × Nat}
    (hq : toNumView b = some q) (hd : (q.2 : Int) ≠ 0)
    (hab : pyEqB fuel a b = true) (hbc : pyEqB fuel b c = true) :
    pyEqB fuel a c = true := by
  cases fuel with
  | zero => exact Bool.noConfusion hab
  | succ g =>
      obtain ⟨p, hp, hpq⟩ := pyEqB_num_inv hq hab
      have hcb : pyEqB (g + 1) c b = true := by rw [pyEqB_symm]; exact hbc
      obtain ⟨r, hr, hrq⟩ := pyEqB_num_inv hq hcb
      rw [pyEqB_of_numView hp hr]
      exact beq_iff_eq.mpr (num_cross_trans hd hpq hrq.symm)

/-- The bounded equality test is transitive through a well-formed middle
value, at sufficient fuel. -/
theorem pyEqB_trans : ∀ (fuel : Nat), ∀ {a b c : Py},
    pySize a + pySize b + pySize c ≤ fuel → wfPy b = true →
    pyEqB fuel a b = true → pyEqB fuel b c = true →
    pyEqB fuel a c = true := by
  intro fuel
  induction fuel with
  | zero => intro a b c _ _ hab _; exact Bool.noConfusion hab
  | succ g ih =>
      intro a b c h hw hab hbc
      cases b with
      | none =>
          rw [pyEqB_none_inv hab]
          have hcb : pyEqB (g + 1) c Py.none = true := by
            rw [pyEqB_symm]; exact hbc
          rw [pyEqB_none_inv hcb]
          rfl
      | bool x =>
          exact pyEqB_trans_num
            (show toNumView (.bool x) = some (if x then (1 : Int) else 0, 1)
              from rfl) (by simp) hab hbc
      | int n =>
          exact pyEqB_trans_num
            (show toNumView (.int n) = some (n, 1) from rfl) (by simp) hab hbc
      | float num den =>
          refine pyEqB_trans_num
            (show toNumView (.float num den) = some (num, den) from rfl)
            ?_ hab hbc
          have hpos : 0 < den := of_decide_eq_true hw
          exact Int.natCast_ne_zero.mpr (Nat.pos_iff_ne_zero.1 hpos)
      | str s =>
          rw [pyEqB_str_inv hab]
          have hcb : pyEqB (g + 1) c (.str s) = true := by
            rw [pyEqB_symm]; exact hbc
          rw [pyEqB_str_inv hcb]
          exact beq_self_eq_true s
      | list ys =>
          obtain ⟨xs, hxs⟩ := pyEqB_list_inv hab
          have hcb : pyEqB (g + 1) c (.list ys) = true := by
            rw [pyEqB_symm]; exact hbc
          obtain ⟨zs, hzs⟩ := pyEqB_list_inv hcb
          subst hxs
          subst hzs
          rw [pyEqB_succ_list] at hab hbc ⊢
          refine listEqWith_trans
            (fun x hx y hy z hz h1 h2 => ih ?_ (wfList_mem hw hy) h1 h2)
            hab hbc
          have b1 := mem_size_le_list hx
          have b2 := mem_size_le_list hy
          have b3 := mem_size_le_list hz
          simp only [pySize] at h
          omega
      | dict fs =>
          obtain ⟨es, hes⟩ := pyEqB_dict_inv hab
          have hcb : pyEqB (g + 1) c (.dict fs) = true := by
            rw [pyEqB_symm]; exact hbc
          obtain ⟨gs, hgs⟩ := pyEqB_dict_inv hcb
          subst hes
          subst hgs
          rw [pyEqB_succ_dict] at hab hbc ⊢
          simp only [Bool.and_eq_true] at hab hbc ⊢
          obtain ⟨⟨hlab, hsab⟩, hsba⟩ := hab
          obtain ⟨⟨hlbc, hsbc⟩, hscb⟩ := hbc
          have hwf : wfEntries fs = true := by
            have hw2 : (noDupKeysB fs && wfEntries fs) = true := hw
            simp only [Bool.and_eq_true] at hw2
            exact hw2.2
          have hsize : ∀ x y z : Py, pySize x ≤ pySizeEntries es →
              pySize y ≤ pySizeEntries fs → pySize z ≤ pySizeEntries gs →
              pySize x + pySize y + pySize z ≤ g := by
            intro x y z b1 b2 b3
            simp only [pySize] at h
            omega
          refine ⟨⟨?_, ?_⟩, ?_⟩
          · rw [Nat.eq_of_beq_eq_true hlab, Nat.eq_of_beq_eq_true hlbc]
            exact natBeq_refl _
          · refine entriesSubWith_of_forall (fun e he => ?_)
            obtain ⟨f, hf, hk1, hv1⟩ :=
              memEntryWith_exists (entriesSubWith_forall hsab e he)
            obtain ⟨w, hwm, hk2, hv2⟩ :=
              memEntryWith_exists (entriesSubWith_forall hsbc f hf)
            have bse := mem_size_le_entries (show (e.1, e.2) ∈ es by simpa using he)
            have bsf := mem_size_le_entries (show (f.1, f.2) ∈ fs by simpa using hf)
            have bsw := mem_size_le_entries (show (w.1, w.2) ∈ gs by simpa using hwm)
            have hwff := wfEntries_mem hwf (show (f.1, f.2) ∈ fs by simpa using hf)
            refine memEntryWith_of_exists ⟨w, hwm, ?_, ?_⟩
            · exact ih (hsize _ _ _ bse.1 bsf.1 bsw.1) hwff.1 hk1 hk2
            · exact ih (hsize _ _ _ bse.2 bsf.2 bsw.2) hwff.2 hv1 hv2
          · refine entriesSubWith_of_forall (fun w hwm => ?_)
            obtain ⟨f, hf, hk1, hv1⟩ :=
              memEntryWith_exists (entriesSubWith_forall hscb w hwm)
            obtain ⟨e, he, hk2, hv2⟩ :=
              memEntryWith_exists (entriesSubWith_forall hsba f hf)
            have bse := mem_size_le_entries (show (e.1, e.2) ∈ es by simpa using he)
            have bsf := mem_size_le_entries (show (f.1, f.2) ∈ fs by simpa using hf)
            have bsw := mem_size_le_entries (show (w.1, w.2) ∈ gs by simpa using hwm)
            have hwff := wfEntries_mem hwf (show (f.1, f.2) ∈ fs by simpa using hf)
            refine memEntryWith_of_exists ⟨e, he, ?_, ?_⟩
            · refine ih ?_ hwff.1 hk1 hk2
              have := hsize e.1 f.1 w.1 bse.1 bsf.1 bsw.1
              omega
            · refine ih ?_ hwff.2 hv1 hv2
              have := hsize e.2 f.2 w.2 bse.2 bsf.2 bsw.2
              omega
      | func f2 =>
          obtain ⟨f, hf⟩ := pyEqB_func_inv hab
          have hcb : pyEqB (g + 1) c (.func f2) = true := by
            rw [pyEqB_symm]; exact hbc
          obtain ⟨f3, hf3⟩ := pyEqB_func_inv hcb
          subst hf
          subst hf3
          rw [pyEqB_succ_func] at hab hbc ⊢
          simp only [pySize] at h
          cases f2 with
          | pyInt =>
              cases f <;> cases f3 <;>
                first
                  | rfl
                  | exact Bool.noConfusion hab
                  | exact Bool.noConfusion hbc
          | pyStr =>
              cases f <;> cases f3 <;>
                first
                  | rfl
                  | exact Bool.noConfusion hab
                  | exact Bool.noConfusion hbc
          | pyFloat =>
              cases f <;> cases f3 <;>
                first
                  | rfl
                  | exact Bool.noConfusion hab
                  | exact Bool.noConfusion hbc
          | identity =>
              cases f <;> cases f3 <;>
                first
                  | rfl
                  | exact Bool.noConfusion hab
                  | exact Bool.noConfusion hbc
          | predValidator p2 n2 c2 m2 =>
              cases f with
              | predValidator p n co m =>
                  cases f3 with
                  | predValidator p3 n3 c3 m3 =>
                      simp only [fnEqWith, Bool.and_eq_true] at hab hbc ⊢
                      obtain ⟨⟨⟨hp1, hn1⟩, hc1⟩, hm1⟩ := hab
                      obtain ⟨⟨⟨hp2, hn2⟩, hc2⟩, hm2⟩ := hbc
                      refine ⟨⟨⟨?_, ?_⟩, ?_⟩, ?_⟩
                      · refine predEqWith_trans
                          (fun x y z bx byy bz wy e1 e2 =>
                            ih ?_ wy e1 e2)
                          (show wfPred p2 = true from hw) hp1 hp2
                        simp only [pySizeFn] at h
                        omega
                      · rw [eq_of_beq hn1, eq_of_beq hn2]
                        exact beq_self_eq_true _
                      · rw [coercerEq_eqv hc1, coercerEq_eqv hc2]
                        exact coercerEq_refl _
                      · rw [eq_of_beq hm1, eq_of_beq hm2]
                        exact beq_self_eq_true _
                  | pyInt => exact Bool.noConfusion hbc
                  | pyStr => exact Bool.noConfusion hbc
                  | pyFloat => exact Bool.noConfusion hbc
                  | identity => exact Bool.noConfusion hbc
                  | curriedValidator s3 subj3 vp3 co3 =>
                      exact Bool.noConfusion hbc
              | pyInt => exact Bool.noConfusion hab
              | pyStr => exact Bool.noConfusion hab
              | pyFloat => exact Bool.noConfusion hab
              | identity => exact Bool.noConfusion hab
              | curriedValidator s subj vp co => exact Bool.noConfusion hab
          | curriedValidator s2 subj2 vp2 co2 =>
              cases f with
              | curriedValidator s subj vp co =>
                  cases f3 with
                  | curriedValidator s3 subj3 vp3 co3 =>
                      simp only [fnEqWith, Bool.and_eq_true] at hab hbc ⊢
                      obtain ⟨⟨⟨hs1, hsub1⟩, hv1⟩, hco1⟩ := hab
                      obtain ⟨⟨⟨hs2, hsub2⟩, hv2⟩, hco2⟩ := hbc
                      refine ⟨⟨⟨?_, ?_⟩, ?_⟩, ?_⟩
                      · refine ih ?_ (show wfPy s2 = true from hw) hs1 hs2
                        simp only [pySizeFn] at h
                        omega
                      · rw [eq_of_beq hsub1, eq_of_beq hsub2]
                        exact beq_self_eq_true _
                      · rw [bpredEq_eqv hv1, bpredEq_eqv hv2]
                        exact bpredEq_refl _
                      · rw [eq_of_beq hco1, eq_of_beq hco2]
                        exact beq_self_eq_true _
                  | pyInt => exact Bool.noConfusion hbc
                  | pyStr => exact Bool.noConfusion hbc
                  | pyFloat => exact Bool.noConfusion hbc
                  | identity => exact Bool.noConfusion hbc
                  | predValidator p3 n3 c3 m3 => exact Bool.noConfusion hbc
              | pyInt => exact Bool.noConfusion hab
              | pyStr => exact Bool.noConfusion hab
              | pyFloat => exact Bool.noConfusion hab
              | identity => exact Bool.noConfusion hab
              | predValidator p n co m => exact Bool.noConfusion hab

/-- Python equality is transitive through a well-formed middle value. -/
theorem pyEq_trans {a b c : Py} (hw : wfPy b = true)
    (hab : pyEq a b = true) (hbc : pyEq b c = true) : pyEq a c = true := by
  have e1 : pyEq a b = pyEqB (pySize a + pySize b + pySize c + 1) a b :=
    pyEq_eq_pyEqB (by omega)
  have e2 : pyEq b c = pyEqB (pySize a + pySize b + pySize c + 1) b c :=
    pyEq_eq_pyEqB (by have := pySize_pos a; omega)
  have e3 : pyEq a c = pyEqB (pySize a + pySize b + pySize c + 1) a c :=
    pyEq_eq_pyEqB (by have := pySize_pos b; omega)
  rw [e3]
  exact pyEqB_trans _ (by omega) hw (e1 ▸ hab) (e2 ▸ hbc)

/-! Idempotence support: None-freedom and well-formedness plumbing. -/

theorem noneFree_ne_none {v : Py} (h : noneFree v = true) : v ≠ Py.none := by
  intro hv
  subst hv
  exact Bool.noConfusion h

theorem noneFreeList_mem {x : Py} : ∀ {xs : List Py},
    noneFreeList xs = true → x ∈ xs → noneFree x = true := by
  intro xs
  induction xs with
  | nil => intro _ h; exact absurd h (by simp)
  | cons y ys ih =>
      intro hw h
      simp only [noneFreeList, Bool.and_eq_true] at hw
      cases List.mem_cons.1 h with
      | inl hh => exact hh ▸ hw.1
      | inr hh => exact ih hw.2 hh

theorem noneFreeEntries_mem {k v : Py} : ∀ {es : List (Py × Py)},
    noneFreeEntries es = true → (k, v) ∈ es →
    noneFree k = true ∧ noneFree v = true := by
  intro es
  induction es with
  | nil => intro _ h; exact absurd h (by simp)
  | cons e rest ih =>
      obtain ⟨k1, v1⟩ := e
      intro hw h
      simp only [noneFreeEntries, Bool.and_eq_true] at hw
      cases List.mem_cons.1 h with
      | inl hh =>
          injection hh with h1 h2
          subst h1
          subst h2
          exact ⟨hw.1.1, hw.1.2⟩
      | inr hh => exact ih hw.2 hh

theorem wfList_of_forall : ∀ {xs : List Py},
    (∀ x ∈ xs, wfPy x = true) → wfList xs = true := by
  intro xs
  induction xs with
  | nil => intro _; rfl
  | cons y ys ih =>
      intro h
      simp only [wfList, Bool.and_eq_true]
      exact ⟨h y (by simp), ih (fun x hx => h x (List.mem_cons_of_mem _ hx))⟩

theorem noneFreeList_of_forall : ∀ {xs : List Py},
    (∀ x ∈ xs, noneFree x = true) → noneFreeList xs = true := by
  intro xs
  induction xs with
  | nil => intro _; rfl
  | cons y ys ih =>
      intro h
      simp only [noneFreeList, Bool.and_eq_true]
      exact ⟨h y (by simp), ih (fun x hx => h x (List.mem_cons_of_mem _ hx))⟩

theorem wfEntries_of_forall : ∀ {es : List (Py × Py)},
    (∀ e ∈ es, wfPy e.1 = true ∧ wfPy e.2 = true) → wfEntries es = true := by
  intro es
  induction es with
  | nil => intro _; rfl
  | cons e rest ih =>
      obtain ⟨k, v⟩ := e
      intro h
      simp only [wfEntries, Bool.and_eq_true]
      exact ⟨⟨(h (k, v) (by simp)).1, (h (k, v) (by simp)).2⟩,
        ih (fun e he => h e (List.mem_cons_of_mem _ he))⟩

theorem noneFreeEntries_of_forall : ∀ {es : List (Py × Py)},
    (∀ e ∈ es, noneFree e.1 = true ∧ noneFree e.2 = true) →
    noneFreeEntries es = true := by
  intro es
  induction es with
  | nil => intro _; rfl
  | cons e rest ih =>
      obtain ⟨k, v⟩ := e
      intro h
      simp only [noneFreeEntries, Bool.and_eq_true]
      exact ⟨⟨(h (k, v) (by simp)).1, (h (k, v) (by simp)).2⟩,
        ih (fun e he => h e (List.mem_cons_of_mem _ he))⟩

theorem listEqWith_forall {eq : Py → Py → Bool} :
    ∀ {xs ys : List Py}, listEqWith eq xs ys = true →
      List.Forall₂ (fun x y => eq x y = true) xs ys := by
  intro xs
  induction xs with
  | nil =>
      intro ys h
      cases ys with
      | nil => exact List.Forall₂.nil
      | cons y ys2 => exact absurd h (by simp [listEqWith])
  | cons x rest ih =>
      intro ys h
      cases ys with
      | nil => exact absurd h (by simp [listEqWith])
      | cons y ys2 =>
          simp only [listEqWith, Bool.and_eq_true] at h
          exact List.Forall₂.cons h.1 (ih h.2)

theorem forall₂_mem_left {α β : Type} {R : α → β → Prop} :
    ∀ {xs : List α} {ys : List β}, List.Forall₂ R xs ys →
      ∀ a ∈ xs, ∃ b ∈ ys, R a b := by
  intro xs ys h
  induction h with
  | nil => intro a ha; exact absurd ha (by simp)
  | cons hr _ ih =>
      intro a ha
      cases List.mem_cons.1 ha with
      | inl hh => subst hh; exact ⟨_, by simp, hr⟩
      | inr hh =>
          obtain ⟨b, hb, hrb⟩ := ih a hh
          exact ⟨b, List.mem_cons_of_mem _ hb, hrb⟩

theorem forall₂_mem_right {α β : Type} {R : α → β → Prop} :
    ∀ {xs : List α} {ys : List β}, List.Forall₂ R xs ys →
      ∀ b ∈ ys, ∃ a ∈ xs, R a b := by
  intro xs ys h
  induction h with
  | nil => intro b hb; exact absurd hb (by simp)
  | cons hr _ ih =>
      intro b hb
      cases List.mem_cons.1 hb with
      | inl hh => subst hh; exact ⟨_, by simp, hr⟩
      | inr hh =>
          obtain ⟨a, ha, hra⟩ := ih b hh
          exact ⟨a, List.mem_cons_of_mem _ ha, hra⟩

theorem forall₂_impMem {α β : Type} {R S2 : α → β → Prop} :
    ∀ {xs : List α} {ys : List β}, List.Forall₂ R xs ys →
      (∀ a ∈ xs, ∀ b ∈ ys, R a b → S2 a b) → List.Forall₂ S2 xs ys := by
  intro xs ys h
  induction h with
  | nil => intro _; exact List.Forall₂.nil
  | cons hr _ ih =>
      intro himp
      exact List.Forall₂.cons (himp _ (by simp) _ (by simp) hr)
        (ih (fun a ha b hb hr2 =>
          himp a (List.mem_cons_of_mem _ ha) b (List.mem_cons_of_mem _ hb) hr2))

theorem forall₂_zip_imp {R : Py × Py → Py → Prop} {S2 : Py → Py → Prop} :
    ∀ {ss vs rs : List Py}, ss.length = vs.length →
      List.Forall₂ R (ss.zip vs) rs →
      (∀ s ∈ ss, ∀ v ∈ vs, ∀ r ∈ rs, R (s, v) r → S2 s r) →
      List.Forall₂ S2 ss rs := by
  intro ss
  induction ss with
  | nil =>
      intro vs rs hlen h _
      cases vs with
      | nil =>
          simp only [List.zip_nil_left] at h
          cases h
          exact List.Forall₂.nil
      | cons v vs2 => exact absurd hlen (by simp)
  | cons s ss2 ih =>
      intro vs rs hlen h himp
      cases vs with
      | nil => exact absurd hlen (by simp)
      | cons v vs2 =>
          simp only [List.zip_cons_cons] at h
          cases h with
          | cons hr hrest =>
              refine List.Forall₂.cons
                (himp s (by simp) v (by simp) _ (by simp) hr) ?_
              refine ih (by simpa using hlen) hrest
                (fun a ha b hb r hr2 hR =>
                  himp a (List.mem_cons_of_mem _ ha)
                    b (List.mem_cons_of_mem _ hb)
                    r (List.mem_cons_of_mem _ hr2) hR)

/-- A value Python-equal to a None-free value is None-free: the null value
compares equal only to itself, recursively. -/
theorem pyEqB_noneFree : ∀ (fuel : Nat) {a b : Py},
    pyEqB fuel a b = true → noneFree b = true → noneFree a = true := by
  intro fuel
  induction fuel with
  | zero => intro a b hab _; exact Bool.noConfusion hab
  | succ g ih =>
      intro a b hab hb
      cases a with
      | none =>
          have hba : pyEqB (g + 1) b Py.none = true := by
            rw [pyEqB_symm]; exact hab
          rw [pyEqB_none_inv hba] at hb
          exact hb
      | bool x => rfl
      | int n => rfl
      | float num den => rfl
      | str s => rfl
      | func f => rfl
      | list xs =>
          have hba : pyEqB (g + 1) b (.list xs) = true := by
            rw [pyEqB_symm]; exact hab
          obtain ⟨ys, hys⟩ := pyEqB_list_inv hba
          subst hys
          rw [pyEqB_succ_list] at hab
          have hf := listEqWith_forall hab
          refine noneFreeList_of_forall (fun x hx => ?_)
          obtain ⟨y, hy, hxy⟩ := forall₂_mem_left hf x hx
          exact ih hxy (noneFreeList_mem hb hy)
      | dict es =>
          have hba : pyEqB (g + 1) b (.dict es) = true := by
            rw [pyEqB_symm]; exact hab
          obtain ⟨fs, hfs⟩ := pyEqB_dict_inv hba
          subst hfs
          rw [pyEqB_succ_dict] at hab
          simp only [Bool.and_eq_true] at hab
          refine noneFreeEntries_of_forall (fun e he => ?_)
          obtain ⟨f, hf, hk, hv⟩ :=
            memEntryWith_exists (entriesSubWith_forall hab.1.2 e he)
          have hbf := noneFreeEntries_mem hb (show (f.1, f.2) ∈ fs by simpa using hf)
          exact ⟨ih hk hbf.1, ih hv hbf.2⟩

/-- Python equality preserves None-freedom. -/
theorem pyEq_noneFree {a b : Py} (hab : pyEq a b = true)
    (hb : noneFree b = true) : noneFree a = true :=
  pyEqB_noneFree _ hab hb

theorem iterElems_wf {v : Py} {elems : List Py}
    (he : iterElemsPy v = some elems) (hw : wfPy v = true) :
    ∀ e ∈ elems, wfPy e = true := by
  cases v with
  | list xs =>
      injection he with h
      subst h
      exact fun e hmem => wfList_mem hw hmem
  | str s =>
      injection he with h
      subst h
      intro e hmem
      obtain ⟨c, _, hc⟩ := List.mem_map.1 hmem
      rw [← hc]
      rfl
  | dict es =>
      injection he with h
      subst h
      intro e hmem
      obtain ⟨kv, hkv, hc⟩ := List.mem_map.1 hmem
      rw [← hc]
      have hw2 : (noDupKeysB es && wfEntries es) = true := hw
      simp only [Bool.and_eq_true] at hw2
      exact (wfEntries_mem hw2.2 (show (kv.1, kv.2) ∈ es by simpa using hkv)).1
  | none => exact Option.noConfusion he
  | bool b => exact Option.noConfusion he
  | int n => exact Option.noConfusion he
  | float num den => exact Option.noConfusion he
  | func f => exact Option.noConfusion he

theorem iterElems_noneFree {v : Py} {elems : List Py}
    (he : iterElemsPy v = some elems) (hn : noneFree v = true) :
    ∀ e ∈ elems, noneFree e = true := by
  cases v with
  | list xs =>
      injection he with h
      subst h
      exact fun e hmem => noneFreeList_mem hn hmem
  | str s =>
      injection he with h
      subst h
      intro e hmem
      obtain ⟨c, _, hc⟩ := List.mem_map.1 hmem
      rw [← hc]
      rfl
  | dict es =>
      injection he with h
      subst h
      intro e hmem
      obtain ⟨kv, hkv, hc⟩ := List.mem_map.1 hmem
      rw [← hc]
      exact (noneFreeEntries_mem hn (show (kv.1, kv.2) ∈ es by simpa using hkv)).1
  | none => exact Option.noConfusion he
  | bool b => exact Option.noConfusion he
  | int n => exact Option.noConfusion he
  | float num den => exact Option.noConfusion he
  | func f => exact Option.noConfusion he

theorem isSeq_elems {S : Py} (h : isSeqPy S = true) :
    ∃ ss, iterElemsPy S = some ss ∧ ss.length = seqLenPy S := by
  cases S with
  | list xs => exact ⟨xs, rfl, rfl⟩
  | str s =>
      obtain ⟨data⟩ := s
      refine ⟨(String.mk data).toList.map (fun c => .str (String.mk [c])),
        rfl, ?_⟩
      rw [List.length_map]
      rfl
  | none => exact Bool.noConfusion h
  | bool b => exact Bool.noConfusion h
  | int n => exact Bool.noConfusion h
  | float num den => exact Bool.noConfusion h
  | dict es => exact Bool.noConfusion h
  | func f => exact Bool.noConfusion h

theorem seqFirst_wf {S : Py} (hw : wfPy S = true) :
    wfPy (seqFirst S) = true := by
  cases S with
  | list xs =>
      cases xs with
      | nil => rfl
      | cons x rest =>
          have hx : wfList (x :: rest) = true := hw
          simp only [wfList, Bool.and_eq_true] at hx
          exact hx.1
  | str s =>
      obtain ⟨data⟩ := s
      cases data with
      | nil => rfl
      | cons c cs => rfl
  | none => rfl
  | bool b => rfl
  | int n => rfl
  | float num den => rfl
  | dict es => rfl
  | func f => rfl

/-! Inversions of classification results. -/

theorem classify_seqTemplate_is {S : Py} (h : classify S = .seqTemplate) :
    is_sequence_template S = true := by
  unfold classify at h
  split at h
  · assumption
  · split at h
    · exact SchemaForm.noConfusion h
    · split at h
      · exact SchemaForm.noConfusion h
      · split at h
        · exact SchemaForm.noConfusion h
        · exact SchemaForm.noConfusion h

theorem classify_strictSeq_is {S : Py} (h : classify S = .strictSeq) :
    is_strict_sequence S = true := by
  unfold classify at h
  split at h
  · exact SchemaForm.noConfusion h
  · split at h
    · assumption
    · split at h
      · exact SchemaForm.noConfusion h
      · split at h
        · exact SchemaForm.noConfusion h
        · exact SchemaForm.noConfusion h

theorem classify_mapTemplate_is {S : Py} (h : classify S = .mapTemplate) :
    is_map_template S = true := by
  unfold classify at h
  split at h
  · exact SchemaForm.noConfusion h
  · split at h
    · exact SchemaForm.noConfusion h
    · split at h
      · assumption
      · split at h
        · exact SchemaForm.noConfusion h
        · exact SchemaForm.noConfusion h

theorem classify_keyedMapping_is {S : Py} (h : classify S = .keyedMapping) :
    is_keyed_mapping S = true := by
  unfold classify at h
  split at h
  · exact SchemaForm.noConfusion h
  · split at h
    · exact SchemaForm.noConfusion h
    · split at h
      · exact SchemaForm.noConfusion h
      · split at h
        · assumption
        · exact SchemaForm.noConfusion h

theorem is_map_template_shape {S : Py} (h : is_map_template S = true) :
    ∃ kS vS, S = .dict [(kS, vS)] := by
  cases S with
  | dict es =>
      cases es with
      | nil => exact Bool.noConfusion h
      | cons e rest =>
          cases rest with
          | nil => exact ⟨e.1, e.2, by simp⟩
          | cons e2 rest2 => exact Bool.noConfusion h
  | none => exact Bool.noConfusion h
  | bool b => exact Bool.noConfusion h
  | int n => exact Bool.noConfusion h
  | float num den => exact Bool.noConfusion h
  | str s => exact Bool.noConfusion h
  | list xs => exact Bool.noConfusion h
  | func f => exact Bool.noConfusion h

theorem is_keyed_mapping_shape {S : Py} (h : is_keyed_mapping S = true) :
    ∃ ss, S = .dict ss := by
  simp only [is_keyed_mapping, Bool.and_eq_true] at h
  cases S with
  | dict es => exact ⟨es, rfl⟩
  | none => exact Bool.noConfusion h.1
  | bool b => exact Bool.noConfusion h.1
  | int n => exact Bool.noConfusion h.1
  | float num den => exact Bool.noConfusion h.1
  | str s => exact Bool.noConfusion h.1
  | list xs => exact Bool.noConfusion h.1
  | func f => exact Bool.noConfusion h.1

/-! Per-form unfoldings of the dispatcher. -/

theorem validate_of_classify_seqTemplate {fuel : Nat} {S : Py} (V : Py)
    (hc : classify S = .seqTemplate) :
    validate_against_schema (fuel + 1) S V =
      validate_sequence_template
        (fun s v => validate_against_schema fuel s v) S V := by
  rw [validate_succ, hc]

theorem validate_of_classify_strictSeq {fuel : Nat} {S : Py} (V : Py)
    (hc : classify S = .strictSeq) :
    validate_against_schema (fuel + 1) S V =
      validate_strict_sequence
        (fun s v => validate_against_schema fuel s v) S V := by
  rw [validate_succ, hc]

theorem validate_of_classify_mapTemplate {fuel : Nat} {S : Py} (V : Py)
    (hc : classify S = .mapTemplate) :
    validate_against_schema (fuel + 1) S V =
      validate_map_template
        (fun s v => validate_against_schema fuel s v) S V := by
  rw [validate_succ, hc]

theorem validate_of_classify_keyedMapping {fuel : Nat} {S : Py} (V : Py)
    (hc : classify S = .keyedMapping) :
    validate_against_schema (fuel + 1) S V =
      validate_keyed_mapping
        (fun s v => validate_against_schema fuel s v) S V := by
  rw [validate_succ, hc]

theorem validate_of_classify_leaf_error {fuel : Nat} {S : Py} (V : Py)
    (hc : classify S = .leaf) (hnf : ∀ f, S ≠ .func f) :
    validate_against_schema (fuel + 1) S V =
      .error (.typeErrorNotCallable S) := by
  rw [validate_succ, hc]
  cases S with
  | func f => exact absurd rfl (hnf f)
  | none => rfl
  | bool b => rfl
  | int n => rfl
  | float num den => rfl
  | str s => rfl
  | list xs => rfl
  | dict es => rfl

theorem validate_sequence_template_elems
    {recur : Py → Py → Except Err Py} {S V : Py} {elems : List Py}
    (hel : iterElemsPy V = some elems) :
    validate_sequence_template recur S V =
      (validateEach recur (seqFirst S) elems).map Py.list := by
  unfold validate_sequence_template
  rw [hel]

theorem validate_sequence_template_noLen
    {recur : Py → Py → Except Err Py} {S V : Py}
    (hel : iterElemsPy V = Option.none) :
    validate_sequence_template recur S V = .error (.typeErrorNoLen V) := by
  unfold validate_sequence_template
  rw [hel]

theorem validate_strict_sequence_shape
    {recur : Py → Py → Except Err Py} {S V : Py} {elems ss : List Py}
    (hel : iterElemsPy V = some elems) (hlen : seqLenPy S = elems.length)
    (hss : iterElemsPy S = some ss) :
    validate_strict_sequence recur S V =
      (validateZip recur ss elems).map Py.list := by
  unfold validate_strict_sequence
  rw [hel]
  show (if seqLenPy S = elems.length then
      match iterElemsPy S with
      | some ss2 => Except.map Py.list (validateZip recur ss2 elems)
      | Option.none => Except.error (Err.typeErrorNoLen S)
    else Except.error (Err.lengthMismatch V S)) = _
  rw [if_pos hlen, hss]

theorem validate_strict_sequence_mismatch
    {recur : Py → Py → Except Err Py} {S V : Py} {elems : List Py}
    (hel : iterElemsPy V = some elems) (hlen : ¬seqLenPy S = elems.length) :
    validate_strict_sequence recur S V = .error (.lengthMismatch V S) := by
  unfold validate_strict_sequence
  rw [hel]
  show (if seqLenPy S = elems.length then
      match iterElemsPy S with
      | some ss2 => Except.map Py.list (validateZip recur ss2 elems)
      | Option.none => Except.error (Err.typeErrorNoLen S)
    else Except.error (Err.lengthMismatch V S)) = _
  rw [if_neg hlen]

theorem validate_strict_sequence_noLen
    {recur : Py → Py → Except Err Py} {S V : Py}
    (hel : iterElemsPy V = Option.none) :
    validate_strict_sequence recur S V = .error (.typeErrorNoLen V) := by
  unfold validate_strict_sequence
  rw [hel]

theorem validate_map_template_dict (recur : Py → Py → Except Err Py)
    (kS vS : Py) (rest : List (Py × Py)) (es : List (Py × Py)) :
    validate_map_template recur (.dict ((kS, vS) :: rest)) (.dict es) =
      (mapTemplateLoop recur kS vS [] es).map Py.dict := rfl

/-! Element-wise runs of the sequence validators. -/

theorem validateEach_ok_forall {recur : Py → Py → Except Err Py} {s : Py} :
    ∀ {vs rs : List Py}, validateEach recur s vs = .ok rs →
      List.Forall₂ (fun v r => recur s v = .ok r) vs rs := by
  intro vs
  induction vs with
  | nil =>
      intro rs h
      injection h with h2
      subst h2
      exact List.Forall₂.nil
  | cons v vs2 ih =>
      intro rs h
      simp only [validateEach] at h
      cases h1 : recur s v with
      | error e => rw [h1, exceptBind_error] at h; exact Except.noConfusion h
      | ok r =>
          rw [h1, exceptBind_ok] at h
          cases h2 : validateEach recur s vs2 with
          | error e =>
              rw [h2, exceptBind_error] at h
              exact Except.noConfusion h
          | ok rs2 =>
              rw [h2, exceptBind_ok] at h
              injection h with h3
              subst h3
              exact List.Forall₂.cons h1 (ih h2)

theorem validateEach_of_pointwise {recur : Py → Py → Except Err Py} {s : Py} :
    ∀ {rs : List Py}, (∀ r ∈ rs, recur s r = .ok r) →
      validateEach recur s rs = .ok rs := by
  intro rs
  induction rs with
  | nil => intro _; rfl
  | cons r rs2 ih =>
      intro h
      simp only [validateEach]
      rw [h r (by simp), exceptBind_ok,
        ih (fun x hx => h x (List.mem_cons_of_mem _ hx)), exceptBind_ok]

theorem validateZip_of_pointwise {recur : Py → Py → Except Err Py} :
    ∀ {ss rs : List Py},
      List.Forall₂ (fun s r => recur s r = .ok r) ss rs →
      validateZip recur ss rs = .ok rs := by
  intro ss rs h
  induction h with
  | nil => rfl
  | cons hr _ ih =>
      simp only [validateZip]
      rw [hr, exceptBind_ok, ih, exceptBind_ok]

/-! Leaf validators: shapes and idempotence of their results. -/

theorem pyToString_str (s : String) : pyToString (.str s) = s := rfl

theorem applyCoercer_idem (c : Option Coercer) (d : Py) :
    applyCoercer c (applyCoercer c d) = applyCoercer c d := by
  cases c with
  | none => rfl
  | some c0 => cases c0; rfl

theorem applyCoercer_ne_none {c : Option Coercer} {d : Py} (hd : d ≠ Py.none) :
    applyCoercer c d ≠ Py.none := by
  cases c with
  | none => exact hd
  | some c0 =>
      cases c0
      intro h
      exact Py.noConfusion h

theorem applyCoercer_wf {c : Option Coercer} {d : Py} (hd : wfPy d = true) :
    wfPy (applyCoercer c d) = true := by
  cases c with
  | none => exact hd
  | some c0 => cases c0; rfl

theorem applyCoercer_noneFree {c : Option Coercer} {d : Py}
    (hd : noneFree d = true) : noneFree (applyCoercer c d) = true := by
  cases c with
  | none => exact hd
  | some c0 => cases c0; rfl

theorem pyIntFn_shape {d r : Py} (h : pyIntFn d = .ok r) : ∃ n, r = .int n := by
  cases d with
  | bool b => injection h with h1; exact ⟨_, h1.symm⟩
  | int n => injection h with h1; exact ⟨_, h1.symm⟩
  | float num den => injection h with h1; exact ⟨_, h1.symm⟩
  | str s =>
      have h2 : (match parseIntPy s with
          | some n => (Except.ok (Py.int n) : Except Err Py)
          | Option.none => Except.error (Err.valueErrorBadLiteral s)) =
          Except.ok r := h
      cases hp : parseIntPy s with
      | some n =>
          rw [hp] at h2
          injection h2 with h1
          exact ⟨_, h1.symm⟩
      | none => rw [hp] at h2; exact Except.noConfusion h2
  | none => exact Except.noConfusion h
  | list xs => exact Except.noConfusion h
  | dict es => exact Except.noConfusion h
  | func f => exact Except.noConfusion h

theorem parseFloatCore_den_pos {cs : List Char} {p : Int × Nat}
    (h : parseFloatCore cs = some p) : 0 < p.2 := by
  unfold parseFloatCore at h
  split at h
  · cases hd : parseDigits _ with
    | some n =>
        rw [hd] at h
        injection h with h1
        rw [← h1]
        exact Nat.one_pos
    | none => rw [hd] at h; exact Option.noConfusion h
  · split at h
    · injection h with h1
      rw [← h1]
      exact pow_pos (by omega) _
    · exact Option.noConfusion h
  · exact Option.noConfusion h

theorem parseFloatPy_den_pos {s : String} {p : Int × Nat}
    (h : parseFloatPy s = some p) : 0 < p.2 := by
  unfold parseFloatPy at h
  split at h
  · exact parseFloatCore_den_pos h
  · cases hc : parseFloatCore _ with
    | some q =>
        rw [hc] at h
        injection h with h1
        have h2 := parseFloatCore_den_pos hc
        rw [← h1]
        simpa using h2
    | none => rw [hc] at h; exact Option.noConfusion h
  · exact parseFloatCore_den_pos h

theorem pyFloatFn_shape {d r : Py} (hw : wfPy d = true)
    (h : pyFloatFn d = .ok r) : ∃ num den, r = .float num den ∧ 0 < den := by
  cases d with
  | bool b =>
      injection h with h1
      exact ⟨_, _, h1.symm, Nat.one_pos⟩
  | int n =>
      injection h with h1
      exact ⟨_, _, h1.symm, Nat.one_pos⟩
  | float num den =>
      injection h with h1
      exact ⟨_, _, h1.symm, of_decide_eq_true hw⟩
  | str s =>
      have h2 : (match parseFloatPy s with
          | some p => (Except.ok (Py.float p.1 p.2) : Except Err Py)
          | Option.none => Except.error (Err.valueErrorBadLiteral s)) =
          Except.ok r := h
      cases hp : parseFloatPy s with
      | some p =>
          rw [hp] at h2
          injection h2 with h1
          exact ⟨_, _, h1.symm, parseFloatPy_den_pos hp⟩
      | none => rw [hp] at h2; exact Except.noConfusion h2
  | none => exact Except.noConfusion h
  | list xs => exact Except.noConfusion h
  | dict es => exact Except.noConfusion h
  | func f => exact Except.noConfusion h

theorem validatorCall_not_none (recur : Py → Py → Except Err Py) (s : Py)
    (subject : String) (vp : Option BPred) (co : Bool) (d : Py)
    (hd : d ≠ Py.none) :
    validatorCall recur s subject vp co d =
      (if evalBPred (vp.getD .whenDebugging) then
        match recur s d with
        | .ok coerced => .ok (if co then coerced else d)
        | .error e => .error (.badValue subject e d s)
      else .ok d) := by
  cases d with
  | none => exact absurd rfl hd
  | bool b => rfl
  | int n => rfl
  | float num den => rfl
  | str t => rfl
  | list xs => rfl
  | dict es => rfl
  | func f => rfl

/-! The map-template rebuild loop. -/

/-- A value usable as a dict key (lists and dicts raise TypeError). -/
def hashablePy : Py → Bool
  | .list _ => false
  | .dict _ => false
  | _ => true

theorem dictInsertChecked_ok {es : List (Py × Py)} {k v : Py}
    {out : List (Py × Py)} (h : dictInsertChecked es k v = .ok out) :
    out = dictInsert es k v ∧ hashablePy k = true := by
  cases k with
  | list xs => exact Except.noConfusion h
  | dict es2 => exact Except.noConfusion h
  | none => injection h with h1; exact ⟨h1.symm, rfl⟩
  | bool b => injection h with h1; exact ⟨h1.symm, rfl⟩
  | int n => injection h with h1; exact ⟨h1.symm, rfl⟩
  | float num den => injection h with h1; exact ⟨h1.symm, rfl⟩
  | str s => injection h with h1; exact ⟨h1.symm, rfl⟩
  | func f => injection h with h1; exact ⟨h1.symm, rfl⟩

theorem dictInsertChecked_of_hashable {k : Py} (hk : hashablePy k = true)
    (es : List (Py × Py)) (v : Py) :
    dictInsertChecked es k v = .ok (dictInsert es k v) := by
  cases k with
  | list xs => exact Bool.noConfusion hk
  | dict es2 => exact Bool.noConfusion hk
  | none => rfl
  | bool b => rfl
  | int n => rfl
  | float num den => rfl
  | str s => rfl
  | func f => rfl

theorem dictInsert_mem_cases : ∀ {es : List (Py × Py)} {k v : Py}
    {e : Py × Py}, e ∈ dictInsert es k v →
    e ∈ es ∨ (∃ x, (e.1, x) ∈ es ∧ e.2 = v) ∨ e = (k, v) := by
  intro es
  induction es with
  | nil =>
      intro k v e h
      simp only [dictInsert, List.mem_singleton] at h
      exact Or.inr (Or.inr h)
  | cons e0 rest ih =>
      obtain ⟨k0, v0⟩ := e0
      intro k v e h
      rw [dictInsert_cons] at h
      cases hm : pyEq k0 k with
      | true =>
          rw [hm, if_pos rfl] at h
          cases List.mem_cons.1 h with
          | inl hh =>
              subst hh
              exact Or.inr (Or.inl ⟨v0, by simp, rfl⟩)
          | inr hh => exact Or.inl (List.mem_cons_of_mem _ hh)
      | false =>
          rw [hm] at h
          simp only [Bool.false_eq_true, if_false] at h
          cases List.mem_cons.1 h with
          | inl hh => subst hh; exact Or.inl (by simp)
          | inr hh =>
              cases ih hh with
              | inl h2 => exact Or.inl (List.mem_cons_of_mem _ h2)
              | inr h2 =>
                  cases h2 with
                  | inl h3 =>
                      obtain ⟨x, hx, hev⟩ := h3
                      exact Or.inr (Or.inl ⟨x, List.mem_cons_of_mem _ hx, hev⟩)
                  | inr h3 => exact Or.inr (Or.inr h3)

theorem mapTemplateLoop_run (recur : Py → Py → Except Err Py) (kS vS : Py)
    (QK QV : Py → Prop)
    (HQK : ∀ x r, wfPy x = true → noneFree x = true → recur kS x = .ok r →
      QK r)
    (HQV : ∀ x r, wfPy x = true → noneFree x = true → recur vS x = .ok r →
      QV r) :
    ∀ (es acc out : List (Py × Py)),
      (∀ e ∈ es, wfPy e.1 = true ∧ noneFree e.1 = true ∧ wfPy e.2 = true ∧
        noneFree e.2 = true) →
      List.Pairwise keyNe acc →
      (∀ e ∈ acc, QK e.1 ∧ QV e.2 ∧ hashablePy e.1 = true) →
      mapTemplateLoop recur kS vS acc es = .ok out →
      List.Pairwise keyNe out ∧
        ∀ e ∈ out, QK e.1 ∧ QV e.2 ∧ hashablePy e.1 = true := by
  intro es
  induction es with
  | nil =>
      intro acc out _ hpair hinv h
      injection h with h2
      subst h2
      exact ⟨hpair, hinv⟩
  | cons e0 rest ih =>
      obtain ⟨k, v⟩ := e0
      intro acc out hes hpair hinv h
      simp only [mapTemplateLoop] at h
      cases h1 : recur kS k with
      | error e1 =>
          rw [h1, exceptBind_error] at h
          exact Except.noConfusion h
      | ok k2 =>
          rw [h1, exceptBind_ok] at h
          cases h2 : recur vS v with
          | error e2 =>
              rw [h2, exceptBind_error] at h
              exact Except.noConfusion h
          | ok v2 =>
              rw [h2, exceptBind_ok] at h
              cases h3 : dictInsertChecked acc k2 v2 with
              | error e3 =>
                  rw [h3, exceptBind_error] at h
                  exact Except.noConfusion h
              | ok acc2 =>
                  rw [h3, exceptBind_ok] at h
                  obtain ⟨hacc2, hhash⟩ := dictInsertChecked_ok h3
                  have hek := hes (k, v) (by simp)
                  have hQk : QK k2 := HQK k k2 hek.1 hek.2.1 h1
                  have hQv : QV v2 := HQV v v2 hek.2.2.1 hek.2.2.2 h2
                  subst hacc2
                  refine ih _ _ (fun e he => hes e (List.mem_cons_of_mem _ he))
                    (dictInsert_pairwise _ _ hpair) ?_ h
                  intro e he
                  cases dictInsert_mem_cases he with
                  | inl h4 => exact hinv e h4
                  | inr h4 =>
                      cases h4 with
                      | inl h5 =>
                          obtain ⟨x, hx, hev⟩ := h5
                          exact ⟨(hinv (e.1, x) hx).1, hev ▸ hQv,
                            (hinv (e.1, x) hx).2.2⟩
                      | inr h5 =>
                          subst h5
                          exact ⟨hQk, hQv, hhash⟩

theorem mapTemplateLoop_replay (recur : Py → Py → Except Err Py)
    (kS vS : Py) :
    ∀ (todo acc : List (Py × Py)),
      (∀ e ∈ todo, recur kS e.1 = .ok e.1 ∧ recur vS e.2 = .ok e.2 ∧
        hashablePy e.1 = true) →
      List.Pairwise keyNe (acc ++ todo) →
      mapTemplateLoop recur kS vS acc todo = .ok (acc ++ todo) := by
  intro todo
  induction todo with
  | nil =>
      intro acc _ _
      rw [List.append_nil]
      rfl
  | cons e0 rest ih =>
      obtain ⟨k, v⟩ := e0
      intro acc hq hpair
      have he := hq (k, v) (by simp)
      simp only [mapTemplateLoop]
      rw [he.1, exceptBind_ok, he.2.1, exceptBind_ok]
      have hlook : lookupEntry acc k = Option.none := by
        rw [lookupEntry_none_iff]
        intro e2 he2
        exact (List.pairwise_append.1 hpair).2.2 e2 he2 (k, v) (by simp)
      have hins : dictInsertChecked acc k v = .ok (acc ++ [(k, v)]) := by
        rw [dictInsertChecked_of_hashable he.2.2,
          dictInsert_append_of_none hlook]
      rw [hins, exceptBind_ok]
      have hrec := ih (acc ++ [(k, v)])
        (fun e he2 => hq e (List.mem_cons_of_mem _ he2))
        (by simpa using hpair)
      rw [hrec]
      simp

/-! Structure of dict lookup and insertion over appended regions. -/

theorem lookupEntry_append : ∀ (a b : List (Py × Py)) (k : Py),
    lookupEntry (a ++ b) k =
      match lookupEntry a k with
      | some v => some v
      | Option.none => lookupEntry b k := by
  intro a
  induction a with
  | nil => intro b k; rfl
  | cons e rest ih =>
      obtain ⟨k0, v0⟩ := e
      intro b k
      rw [List.cons_append, lookupEntry_cons, lookupEntry_cons]
      by_cases hm : pyEq k0 k = true
      · rw [if_pos hm, if_pos hm]
      · rw [if_neg hm, if_neg hm]
        exact ih b k

theorem dictInsert_append_left_none : ∀ (a b : List (Py × Py)) (k v : Py),
    lookupEntry a k = Option.none →
    dictInsert (a ++ b) k v = a ++ dictInsert b k v := by
  intro a
  induction a with
  | nil => intro b k v _; rfl
  | cons e rest ih =>
      obtain ⟨k0, v0⟩ := e
      intro b k v h
      rw [lookupEntry_cons] at h
      rw [List.cons_append, dictInsert_cons]
      by_cases hm : pyEq k0 k = true
      · rw [if_pos hm] at h; exact Option.noConfusion h
      · rw [if_neg hm] at h
        rw [if_neg hm, List.cons_append, ih b k v h]

theorem dictInsert_append_left_some : ∀ (a b : List (Py × Py)) (k x v : Py),
    lookupEntry a k = some x →
    dictInsert (a ++ b) k v = dictInsert a k v ++ b := by
  intro a
  induction a with
  | nil => intro b k x v h; exact Option.noConfusion h
  | cons e rest ih =>
      obtain ⟨k0, v0⟩ := e
      intro b k x v h
      rw [lookupEntry_cons] at h
      rw [List.cons_append, dictInsert_cons, dictInsert_cons]
      by_cases hm : pyEq k0 k = true
      · rw [if_pos hm, if_pos hm, List.cons_append]
      · rw [if_neg hm] at h
        rw [if_neg hm, if_neg hm, List.cons_append, ih b k x v h]

/-- Updates whose keys match nothing in the base dict are appended in
order, leaving the base unchanged. -/
theorem merge_extras (fn : Py → Py → Except Err Py) :
    ∀ (ext fresh : List (Py × Py)),
      (∀ e ∈ fresh, ∀ x ∈ ext, pyEq e.1 x.1 = false) →
      List.Pairwise keyNe ext →
      merge_with fn fresh ext = .ok (fresh ++ ext) := by
  intro ext
  induction ext with
  | nil =>
      intro fresh _ _
      rw [List.append_nil]
      exact merge_with_nil fn fresh
  | cons e0 rest ih =>
      obtain ⟨k, v⟩ := e0
      intro fresh hno hpair
      have hlook : lookupEntry fresh k = Option.none :=
        lookupEntry_none_iff.2 (fun e he => hno e he (k, v) (by simp))
      rw [merge_with_cons_none fn v rest hlook,
        dictInsert_append_of_none hlook]
      have hrec := ih (fresh ++ [(k, v)])
        (fun e he x hx => by
          cases List.mem_append.1 he with
          | inl h2 => exact hno e h2 x (List.mem_cons_of_mem _ hx)
          | inr h2 =>
              have he2 : e = (k, v) := by simpa using h2
              subst he2
              exact (List.pairwise_cons.1 hpair).1 x hx)
        (List.pairwise_cons.1 hpair).2
      rw [hrec]
      simp

/-- Replaying a merged dict against the original base: entries over the
base keys in order re-combine with the stored base values and reproduce
themselves, appended entries re-append. -/
theorem merge_replay (fn : Py → Py → Except Err Py) :
    ∀ {schTodo updTodo : List (Py × Py)},
      List.Forall₂ (fun sch upd => sch.1 = upd.1 ∧ fn sch.2 upd.2 = .ok upd.2)
        schTodo updTodo →
      ∀ (accDone ext : List (Py × Py)),
        (∀ e ∈ accDone, ∀ x ∈ schTodo, pyEq e.1 x.1 = false) →
        (∀ e ∈ accDone ++ updTodo, ∀ x ∈ ext, pyEq e.1 x.1 = false) →
        List.Pairwise keyNe schTodo →
        List.Pairwise keyNe ext →
        merge_with fn (accDone ++ schTodo) (updTodo ++ ext) =
          .ok (accDone ++ updTodo ++ ext) := by
  intro schTodo updTodo hf
  induction hf with
  | nil =>
      intro accDone ext _ hae _ hpe
      simp only [List.append_nil, List.nil_append]
      exact merge_extras fn ext accDone
        (fun e he x hx => hae e (by simpa using he) x hx) hpe
  | cons hr hrest ih =>
      rename_i sch upd schRest updRest
      intro accDone ext ha hae hps hpe
      obtain ⟨sk, sv⟩ := sch
      obtain ⟨uk, uv⟩ := upd
      have hk2 : sk = uk := hr.1
      subst hk2
      have hfn2 : fn sv uv = Except.ok uv := hr.2
      have hlookA : lookupEntry accDone sk = Option.none :=
        lookupEntry_none_iff.2 (fun e he => ha e he (sk, sv) (by simp))
      have hlook : lookupEntry (accDone ++ (sk, sv) :: schRest) sk =
          some sv := by
        rw [lookupEntry_append, hlookA]
        show lookupEntry ((sk, sv) :: schRest) sk = some sv
        rw [lookupEntry_cons, if_pos (pyEq_refl sk)]
      rw [List.cons_append,
        merge_with_cons_some fn uv (updRest ++ ext) hlook, hfn2,
        exceptBind_ok,
        dictInsert_append_left_none _ _ _ _ hlookA, dictInsert_cons,
        if_pos (pyEq_refl sk)]
      have ha2 : ∀ e ∈ accDone ++ [(sk, uv)], ∀ x ∈ schRest,
          pyEq e.1 x.1 = false := by
        intro e he x hx
        cases List.mem_append.1 he with
        | inl h2 => exact ha e h2 x (List.mem_cons_of_mem _ hx)
        | inr h2 =>
            have he2 : e = (sk, uv) := by simpa using h2
            subst he2
            exact (List.pairwise_cons.1 hps).1 x hx
      have hae2 : ∀ e ∈ (accDone ++ [(sk, uv)]) ++ updRest, ∀ x ∈ ext,
          pyEq e.1 x.1 = false := by
        intro e he x hx
        refine hae e ?_ x hx
        simp only [List.append_assoc, List.singleton_append] at he
        exact he
      have hrec := ih (accDone ++ [(sk, uv)]) ext ha2 hae2
        (List.pairwise_cons.1 hps).2 hpe
      rw [show accDone ++ (sk, uv) :: schRest =
            (accDone ++ [(sk, uv)]) ++ schRest by simp, hrec]
      simp

/-- State of one base-dict position during a merge run over update entries
done: the stored key is the original schema key; the value is either still
the original schema (no processed update matched the key) or the
idempotently re-validatable result of combining with the unique processed
update that matched. -/
def MergeUpd (fn : Py → Py → Except Err Py) (done : List (Py × Py))
    (sch cur : Py × Py) : Prop :=
  cur.1 = sch.1 ∧
  ((cur.2 = sch.2 ∧ ∀ e ∈ done, pyEq e.1 sch.1 = false) ∨
   (fn sch.2 cur.2 = .ok cur.2 ∧ wfPy cur.2 = true ∧ noneFree cur.2 = true ∧
     ∃ e ∈ done, pyEq e.1 sch.1 = true))

theorem mergeUpd_weaken (fn : Py → Py → Except Err Py)
    (done : List (Py × Py)) (k v : Py) :
    ∀ {ss cur : List (Py × Py)},
      List.Forall₂ (MergeUpd fn done) ss cur →
      (∀ e ∈ ss, pyEq k e.1 = false) →
      List.Forall₂ (MergeUpd fn (done ++ [(k, v)])) ss cur := by
  intro ss cur hf
  induction hf with
  | nil => intro _; exact List.Forall₂.nil
  | cons hr hrest ih =>
      rename_i sch cur0 ssR curR
      intro hno
      refine List.Forall₂.cons ?_
        (ih (fun e he => hno e (List.mem_cons_of_mem _ he)))
      obtain ⟨h1, h2⟩ := hr
      refine ⟨h1, ?_⟩
      cases h2 with
      | inl hu =>
          refine Or.inl ⟨hu.1, fun e he => ?_⟩
          cases List.mem_append.1 he with
          | inl h3 => exact hu.2 e h3
          | inr h3 =>
              have he2 : e = (k, v) := by simpa using h3
              subst he2
              exact hno sch (by simp)
      | inr hu =>
          obtain ⟨ha, hb, hc, e0, he0, hd⟩ := hu
          exact Or.inr ⟨ha, hb, hc, e0, List.mem_append_left _ he0, hd⟩

/-- A successful dict lookup during a merge run finds the original schema
value of the matched position: no earlier processed update can have
matched the same key. -/
theorem mergeUpd_step (fn : Py → Py → Except Err Py)
    (done : List (Py × Py)) (k : Py) (HwK : wfPy k = true)
    (HkDone : ∀ e ∈ done, pyEq e.1 k = false) :
    ∀ {ss cur : List (Py × Py)},
      List.Forall₂ (MergeUpd fn done) ss cur →
      (∀ e ∈ ss, wfPy e.1 = true) →
      List.Pairwise keyNe ss →
      ∀ {old : Py}, lookupEntry cur k = some old →
      ∃ sch, sch ∈ ss ∧ old = sch.2 ∧ pyEq sch.1 k = true ∧
        ∀ v r, fn sch.2 r = .ok r → wfPy r = true → noneFree r = true →
          List.Forall₂ (MergeUpd fn (done ++ [(k, v)])) ss
            (dictInsert cur k r) := by
  intro ss cur hf
  induction hf with
  | nil => intro _ _ old hl; exact Option.noConfusion hl
  | cons hr hrest ih =>
      rename_i sch cur0 ssR curR
      obtain ⟨sk, sv⟩ := sch
      obtain ⟨ck, cv⟩ := cur0
      have h1 : ck = sk := hr.1
      subst h1
      intro hws hpair old hl
      rw [lookupEntry_cons] at hl
      by_cases hm : pyEq ck k = true
      · rw [if_pos hm] at hl
        injection hl with hl1
        cases hr.2 with
        | inr hu =>
            obtain ⟨_, _, _, e0, he0, hd⟩ := hu
            have hwck : wfPy ck = true := hws (ck, sv) (by simp)
            have htr : pyEq e0.1 k = true := pyEq_trans hwck hd hm
            rw [HkDone e0 he0] at htr
            exact Bool.noConfusion htr
        | inl hu =>
            have hcv2 : cv = sv := hu.1
            refine ⟨(ck, sv), by simp, ?_, hm, ?_⟩
            · rw [← hl1]; exact hcv2
            · intro v r hfn hwr hnr
              rw [dictInsert_cons, if_pos hm]
              refine List.Forall₂.cons ?_ ?_
              · refine ⟨rfl, Or.inr ⟨hfn, hwr, hnr, (k, v), by simp, ?_⟩⟩
                show pyEq k ck = true
                rw [pyEq_symm]
                exact hm
              · refine mergeUpd_weaken fn done k v hrest ?_
                intro e he
                cases hx : pyEq k e.1 with
                | false => rfl
                | true =>
                    have htr : pyEq ck e.1 = true := pyEq_trans HwK hm hx
                    have hne2 : pyEq ck e.1 = false :=
                      (List.pairwise_cons.1 hpair).1 e he
                    rw [hne2] at htr
                    exact Bool.noConfusion htr
      · rw [if_neg hm] at hl
        obtain ⟨sch2, hmem, hold, hkey, hupd⟩ :=
          ih (fun e he => hws e (List.mem_cons_of_mem _ he))
            (List.pairwise_cons.1 hpair).2 hl
        refine ⟨sch2, List.mem_cons_of_mem _ hmem, hold, hkey, ?_⟩
        intro v r hfn hwr hnr
        rw [dictInsert_cons, if_neg hm]
        refine List.Forall₂.cons ?_ (hupd v r hfn hwr hnr)
        refine ⟨rfl, ?_⟩
        have hm2 : pyEq ck k = false := by
          cases hx : pyEq ck k with
          | false => rfl
          | true => exact absurd hx hm
        cases hr.2 with
        | inl hu =>
            refine Or.inl ⟨hu.1, fun e he => ?_⟩
            cases List.mem_append.1 he with
            | inl h3 => exact hu.2 e h3
            | inr h3 =>
                have he2 : e = (k, v) := by simpa using h3
                subst he2
                show pyEq k ck = false
                rw [pyEq_symm]
                exact hm2
        | inr hu =>
            obtain ⟨ha, hb, hc, e0, he0, hd⟩ := hu
            exact Or.inr ⟨ha, hb, hc, e0, List.mem_append_left _ he0, hd⟩

/-- Full analysis of a keyed-mapping merge run: the result is the base
positions (keys kept, every matched position updated once against its
original schema) followed by the unmatched update entries in order. -/
theorem merge_with_run (fn : Py → Py → Except Err Py)
    (ss bsAll : List (Py × Py))
    (HwS : ∀ e ∈ ss, wfPy e.1 = true)
    (HpairS : List.Pairwise keyNe ss)
    (HpairB : List.Pairwise keyNe bsAll)
    (HwB : ∀ e ∈ bsAll, wfPy e.1 = true)
    (Hfn : ∀ e ∈ ss, ∀ b ∈ bsAll, ∀ r, fn e.2 b.2 = .ok r →
      fn e.2 r = .ok r ∧ wfPy r = true ∧ noneFree r = true) :
    ∀ (bs bs0 cur ext out : List (Py × Py)),
      bsAll = bs0 ++ bs →
      List.Forall₂ (MergeUpd fn bs0) ss cur →
      (∀ x ∈ ext, x ∈ bs0 ∧ ∀ e ∈ ss, pyEq e.1 x.1 = false) →
      List.Pairwise keyNe (cur ++ ext) →
      merge_with fn (cur ++ ext) bs = .ok out →
      ∃ curF extF, out = curF ++ extF ∧
        List.Forall₂ (MergeUpd fn bsAll) ss curF ∧
        (∀ x ∈ extF, x ∈ bsAll ∧ ∀ e ∈ ss, pyEq e.1 x.1 = false) ∧
        List.Pairwise keyNe (curF ++ extF) := by
  intro bs
  induction bs with
  | nil =>
      intro bs0 cur ext out hall hf hext hpair h
      rw [merge_with_nil] at h
      injection h with h2
      subst h2
      have hb0 : bs0 = bsAll := by rw [hall, List.append_nil]
      rw [hb0] at hf hext
      exact ⟨cur, ext, rfl, hf, hext, hpair⟩
  | cons b0 bs2 ih =>
      obtain ⟨k, v⟩ := b0
      intro bs0 cur ext out hall hf hext hpair h
      have hkmem : ((k, v) : Py × Py) ∈ bsAll := by rw [hall]; simp
      have HwK : wfPy k = true := HwB (k, v) hkmem
      have HkDone : ∀ e ∈ bs0, pyEq e.1 k = false := by
        intro e he
        have hp2 : List.Pairwise keyNe (bs0 ++ (k, v) :: bs2) := by
          rw [← hall]; exact HpairB
        exact (List.pairwise_append.1 hp2).2.2 e he (k, v) (by simp)
      have hlookExt : lookupEntry ext k = Option.none := by
        rw [lookupEntry_none_iff]
        intro x hx
        exact HkDone x (hext x hx).1
      have hall2 : bsAll = (bs0 ++ [(k, v)]) ++ bs2 := by rw [hall]; simp
      cases hlc : lookupEntry cur k with
      | some old =>
          have hlook : lookupEntry (cur ++ ext) k = some old := by
            rw [lookupEntry_append, hlc]
          rw [merge_with_cons_some fn v bs2 hlook] at h
          cases hfv : fn old v with
          | error e1 =>
              rw [hfv, exceptBind_error] at h
              exact Except.noConfusion h
          | ok r =>
              rw [hfv, exceptBind_ok] at h
              obtain ⟨sch, hschmem, hold, hkey, hupd⟩ :=
                mergeUpd_step fn bs0 k HwK HkDone hf HwS HpairS hlc
              have hprops := Hfn sch hschmem (k, v) hkmem r
                (by rw [← hold]; exact hfv)
              have hdi : dictInsert (cur ++ ext) k r =
                  dictInsert cur k r ++ ext :=
                dictInsert_append_left_some cur ext k old r hlc
              rw [hdi] at h
              have hf2 := hupd v r hprops.1 hprops.2.1 hprops.2.2
              have hext2 : ∀ x ∈ ext, x ∈ bs0 ++ [(k, v)] ∧
                  ∀ e ∈ ss, pyEq e.1 x.1 = false :=
                fun x hx =>
                  ⟨List.mem_append_left _ (hext x hx).1, (hext x hx).2⟩
              have hpair2 :
                  List.Pairwise keyNe (dictInsert cur k r ++ ext) := by
                rw [← hdi]
                exact dictInsert_pairwise _ _ hpair
              exact ih (bs0 ++ [(k, v)]) (dictInsert cur k r) ext out hall2
                hf2 hext2 hpair2 h
      | none =>
          have hlook : lookupEntry (cur ++ ext) k = Option.none := by
            rw [lookupEntry_append, hlc]
            exact hlookExt
          rw [merge_with_cons_none fn v bs2 hlook,
            dictInsert_append_of_none hlook, List.append_assoc] at h
          have hnos : ∀ e ∈ ss, pyEq e.1 k = false := by
            intro e he
            obtain ⟨c, hc, hr⟩ := forall₂_mem_left hf e he
            have h1 : c.1 = e.1 := hr.1
            have h2 : pyEq c.1 k = false := lookupEntry_none_iff.1 hlc c hc
            rw [← h1]
            exact h2
          have hf2 : List.Forall₂ (MergeUpd fn (bs0 ++ [(k, v)])) ss cur := by
            refine mergeUpd_weaken fn bs0 k v hf ?_
            intro e he
            rw [pyEq_symm]
            exact hnos e he
          have hext2 : ∀ x ∈ ext ++ [(k, v)], x ∈ bs0 ++ [(k, v)] ∧
              ∀ e ∈ ss, pyEq e.1 x.1 = false := by
            intro x hx
            cases List.mem_append.1 hx with
            | inl h2 =>
                exact ⟨List.mem_append_left _ (hext x h2).1, (hext x h2).2⟩
            | inr h2 =>
                have hx2 : x = (k, v) := by simpa using h2
                subst hx2
                exact ⟨List.mem_append_right _ (by simp), hnos⟩
          have hpair2 : List.Pairwise keyNe (cur ++ (ext ++ [(k, v)])) := by
            rw [← List.append_assoc]
            refine List.pairwise_append.2
              ⟨hpair, List.pairwise_singleton _ _, ?_⟩
            intro a ha b hb
            have hb2 : b = (k, v) := by simpa using hb
            subst hb2
            exact lookupEntry_none_iff.1 hlook a ha
          exact ih (bs0 ++ [(k, v)]) cur (ext ++ [(k, v)]) out hall2 hf2
            hext2 hpair2 h

theorem missing_empty_forall {ss vs : List (Py × Py)}
    (h : (missingKeysOf ss vs).isEmpty = true) :
    ∀ sch ∈ ss, ∃ b ∈ vs, pyEq b.1 sch.1 = true := by
  intro sch hs
  have h2 : missingKeysOf ss vs = [] := by
    cases hx : missingKeysOf ss vs with
    | nil => rfl
    | cons a l => rw [hx] at h; exact Bool.noConfusion h
  unfold missingKeysOf at h2
  have h4 := List.filter_eq_nil_iff.1 h2 sch.1
    (List.mem_map_of_mem (fun kv => kv.1) hs)
  cases hy : vs.any (fun kv => pyEq kv.1 sch.1) with
  | true =>
      obtain ⟨b, hb, hbeq⟩ := List.any_eq_true.1 hy
      exact ⟨b, hb, hbeq⟩
  | false =>
      rw [hy] at h4
      exact absurd rfl h4

theorem missing_empty_of_matches {ss out : List (Py × Py)}
    (h : ∀ sch ∈ ss, ∃ c ∈ out, pyEq c.1 sch.1 = true) :
    (missingKeysOf ss out).isEmpty = true := by
  have h2 : missingKeysOf ss out = [] := by
    unfold missingKeysOf
    refine List.filter_eq_nil_iff.2 ?_
    intro ks hks
    obtain ⟨kv, hkv, hkeq⟩ := List.mem_map.1 hks
    subst hkeq
    obtain ⟨c, hc, hceq⟩ := h kv hkv
    have hany : out.any (fun e => pyEq e.1 kv.1) = true :=
      List.any_eq_true.2 ⟨c, hc, hceq⟩
    rw [hany]
    simp
  rw [h2]
  rfl

/-- Bundled idempotence of validation: a successful validation of a
well-formed, None-free value against a well-formed schema produces a value
that re-validates to itself at the same recursion budget, and is itself
well-formed and None-free. -/
theorem validate_idem_bundle : ∀ (fuel : Nat) {S V C : Py},
    wfPy S = true → wfPy V = true → noneFree V = true →
    validate_against_schema fuel S V = .ok C →
    validate_against_schema fuel S C = .ok C ∧ wfPy C = true ∧
      noneFree C = true := by
  intro fuel
  induction fuel with
  | zero => intro S V C _ _ _ h; exact Except.noConfusion h
  | succ g ih =>
      intro S V C hwS hwV hnV h
      cases hc : classify S with
      | seqTemplate =>
          rw [validate_of_classify_seqTemplate V hc] at h
          cases hel : iterElemsPy V with
          | none =>
              rw [validate_sequence_template_noLen hel] at h
              exact Except.noConfusion h
          | some elems =>
              rw [validate_sequence_template_elems hel] at h
              cases hve : validateEach
                  (fun s v => validate_against_schema g s v)
                  (seqFirst S) elems with
              | error e1 =>
                  rw [hve, exceptMap_error] at h
                  exact Except.noConfusion h
              | ok rs =>
                  rw [hve, exceptMap_ok] at h
                  injection h with h1
                  subst h1
                  have hfor := validateEach_ok_forall hve
                  have hs0 : wfPy (seqFirst S) = true := seqFirst_wf hwS
                  have hprops : ∀ r ∈ rs,
                      validate_against_schema g (seqFirst S) r = .ok r ∧
                        wfPy r = true ∧ noneFree r = true := by
                    intro r hr
                    obtain ⟨v, hv, hvr⟩ := forall₂_mem_right hfor r hr
                    exact ih hs0 (iterElems_wf hel hwV v hv)
                      (iterElems_noneFree hel hnV v hv) hvr
                  refine ⟨?_, ?_, ?_⟩
                  · rw [validate_of_classify_seqTemplate (Py.list rs) hc,
                      validate_sequence_template_elems
                        (show iterElemsPy (Py.list rs) = some rs from rfl),
                      validateEach_of_pointwise
                        (fun r hr => (hprops r hr).1),
                      exceptMap_ok]
                  · show wfList rs = true
                    exact wfList_of_forall (fun r hr => (hprops r hr).2.1)
                  · show noneFreeList rs = true
                    exact noneFreeList_of_forall
                      (fun r hr => (hprops r hr).2.2)
      | strictSeq =>
          rw [validate_of_classify_strictSeq V hc] at h
          have hst : is_strict_sequence S = true := classify_strictSeq_is hc
          have hseq : isSeqPy S = true := by
            simp only [is_strict_sequence, Bool.and_eq_true] at hst
            exact hst.1
          obtain ⟨ss, hss, hsslen⟩ := isSeq_elems hseq
          cases hel : iterElemsPy V with
          | none =>
              rw [validate_strict_sequence_noLen hel] at h
              exact Except.noConfusion h
          | some elems =>
              by_cases hlen : seqLenPy S = elems.length
              · rw [validate_strict_sequence_shape hel hlen hss] at h
                cases hvz : validateZip
                    (fun s v => validate_against_schema g s v) ss elems with
                | error e1 =>
                    rw [hvz, exceptMap_error] at h
                    exact Except.noConfusion h
                | ok rs =>
                    rw [hvz, exceptMap_ok] at h
                    injection h with h1
                    subst h1
                    have hlen2 : ss.length = elems.length := by
                      rw [hsslen]
                      exact hlen
                    have hfor := (validateZip_ok_iff _ ss elems rs hlen2).1 hvz
                    have hS2 : List.Forall₂ (fun s r =>
                        validate_against_schema g s r = .ok r ∧
                          wfPy r = true ∧ noneFree r = true) ss rs := by
                      refine forall₂_zip_imp hlen2 hfor ?_
                      intro s hsm v hvm r hrm hR
                      exact ih (iterElems_wf hss hwS s hsm)
                        (iterElems_wf hel hwV v hvm)
                        (iterElems_noneFree hel hnV v hvm) hR
                    have hrs_len : rs.length = elems.length := by
                      have hz := List.Forall₂.length_eq hfor
                      rw [List.length_zip, hlen2, Nat.min_self] at hz
                      exact hz.symm
                    refine ⟨?_, ?_, ?_⟩
                    · rw [validate_of_classify_strictSeq (Py.list rs) hc,
                        validate_strict_sequence_shape
                          (show iterElemsPy (Py.list rs) = some rs from rfl)
                          (by omega) hss,
                        validateZip_of_pointwise
                          (List.Forall₂.imp (fun a b hp => hp.1) hS2),
                        exceptMap_ok]
                    · show wfList rs = true
                      refine wfList_of_forall (fun r hr => ?_)
                      obtain ⟨s, hsm, hp⟩ := forall₂_mem_right hS2 r hr
                      exact hp.2.1
                    · show noneFreeList rs = true
                      refine noneFreeList_of_forall (fun r hr => ?_)
                      obtain ⟨s, hsm, hp⟩ := forall₂_mem_right hS2 r hr
                      exact hp.2.2
              · rw [validate_strict_sequence_mismatch hel hlen] at h
                exact Except.noConfusion h
      | mapTemplate =>
          obtain ⟨kS, vS, hSd⟩ :=
            is_map_template_shape (classify_mapTemplate_is hc)
          subst hSd
          rw [validate_of_classify_mapTemplate V hc] at h
          cases V with
          | dict es =>
              rw [validate_map_template_dict] at h
              cases hloop : mapTemplateLoop
                  (fun s v => validate_against_schema g s v) kS vS [] es with
              | error e1 =>
                  rw [hloop, exceptMap_error] at h
                  exact Except.noConfusion h
              | ok out =>
                  rw [hloop, exceptMap_ok] at h
                  injection h with h1
                  subst h1
                  have hSc : (noDupKeysB [(kS, vS)] &&
                      wfEntries [(kS, vS)]) = true := hwS
                  simp only [Bool.and_eq_true] at hSc
                  have hwkv := wfEntries_mem hSc.2
                    (show (kS, vS) ∈ [(kS, vS)] by simp)
                  have hVc : (noDupKeysB es && wfEntries es) = true := hwV
                  simp only [Bool.and_eq_true] at hVc
                  have hnes : noneFreeEntries es = true := hnV
                  have hesprops : ∀ e ∈ es, wfPy e.1 = true ∧
                      noneFree e.1 = true ∧ wfPy e.2 = true ∧
                      noneFree e.2 = true := by
                    intro e he
                    have h3 := wfEntries_mem hVc.2
                      (show (e.1, e.2) ∈ es by simpa using he)
                    have h4 := noneFreeEntries_mem hnes
                      (show (e.1, e.2) ∈ es by simpa using he)
                    exact ⟨h3.1, h4.1, h3.2, h4.2⟩
                  obtain ⟨hpairout, hinvout⟩ := mapTemplateLoop_run
                    (fun s v => validate_against_schema g s v) kS vS
                    (fun r => validate_against_schema g kS r = .ok r ∧
                      wfPy r = true ∧ noneFree r = true)
                    (fun r => validate_against_schema g vS r = .ok r ∧
                      wfPy r = true ∧ noneFree r = true)
                    (fun x r hwx hnx hrec => ih hwkv.1 hwx hnx hrec)
                    (fun x r hwx hnx hrec => ih hwkv.2 hwx hnx hrec)
                    es [] out hesprops List.Pairwise.nil
                    (fun e he => absurd he (by simp)) hloop
                  refine ⟨?_, ?_, ?_⟩
                  · have hrep : mapTemplateLoop
                        (fun s v => validate_against_schema g s v) kS vS []
                        out = .ok out := by
                      have hr0 := mapTemplateLoop_replay
                        (fun s v => validate_against_schema g s v) kS vS out []
                        (fun e he => ⟨(hinvout e he).1.1,
                          (hinvout e he).2.1.1, (hinvout e he).2.2⟩)
                        (by simpa using hpairout)
                      simpa using hr0
                    rw [validate_of_classify_mapTemplate (Py.dict out) hc,
                      validate_map_template_dict, hrep, exceptMap_ok]
                  · show (noDupKeysB out && wfEntries out) = true
                    simp only [Bool.and_eq_true]
                    exact ⟨(noDupKeysB_iff_pairwise out).2 hpairout,
                      wfEntries_of_forall (fun e he =>
                        ⟨(hinvout e he).1.2.1, (hinvout e he).2.1.2.1⟩)⟩
                  · show noneFreeEntries out = true
                    exact noneFreeEntries_of_forall (fun e he =>
                      ⟨(hinvout e he).1.2.2, (hinvout e he).2.1.2.2⟩)
          | none => exact Except.noConfusion h
          | bool b => exact Except.noConfusion h
          | int n => exact Except.noConfusion h
          | float num den => exact Except.noConfusion h
          | str t => exact Except.noConfusion h
          | list xs => exact Except.noConfusion h
          | func f2 => exact Except.noConfusion h
      | keyedMapping =>
          obtain ⟨ss, hSd⟩ :=
            is_keyed_mapping_shape (classify_keyedMapping_is hc)
          subst hSd
          rw [validate_of_classify_keyedMapping V hc] at h
          cases V with
          | dict vs =>
              rw [validate_keyed_mapping_dict] at h
              cases hmiss : (missingKeysOf ss vs).isEmpty with
              | false =>
                  rw [hmiss, if_neg (by simp)] at h
                  exact Except.noConfusion h
              | true =>
                  rw [hmiss, if_pos rfl] at h
                  cases hm : merge_with
                      (fun s v => validate_against_schema g s v) ss vs with
                  | error e1 =>
                      rw [hm, exceptMap_error] at h
                      exact Except.noConfusion h
                  | ok out =>
                      rw [hm, exceptMap_ok] at h
                      injection h with h1
                      subst h1
                      have hSc : (noDupKeysB ss && wfEntries ss) = true := hwS
                      simp only [Bool.and_eq_true] at hSc
                      have hVc : (noDupKeysB vs && wfEntries vs) = true := hwV
                      simp only [Bool.and_eq_true] at hVc
                      have hnvs : noneFreeEntries vs = true := hnV
                      have HpairS2 : List.Pairwise keyNe ss :=
                        (noDupKeysB_iff_pairwise ss).1 hSc.1
                      have HpairB2 : List.Pairwise keyNe vs :=
                        (noDupKeysB_iff_pairwise vs).1 hVc.1
                      have HwSk : ∀ e ∈ ss, wfPy e.1 = true := fun e he =>
                        (wfEntries_mem hSc.2
                          (show (e.1, e.2) ∈ ss by simpa using he)).1
                      have HwBk : ∀ e ∈ vs, wfPy e.1 = true := fun e he =>
                        (wfEntries_mem hVc.2
                          (show (e.1, e.2) ∈ vs by simpa using he)).1
                      have hf0 : List.Forall₂
                          (MergeUpd (fun s v => validate_against_schema g s v)
                            []) ss ss :=
                        List.forall₂_same.2 (fun x hx =>
                          ⟨rfl, Or.inl ⟨rfl, fun e he =>
                            absurd he (by simp)⟩⟩)
                      obtain ⟨curF, extF, hout, hfF, hextF, hpairF⟩ :=
                        merge_with_run
                          (fun s v => validate_against_schema g s v) ss vs
                          HwSk HpairS2 HpairB2 HwBk
                          (fun e he b hb r hrec =>
                            ih (wfEntries_mem hSc.2
                                (show (e.1, e.2) ∈ ss by simpa using he)).2
                              (wfEntries_mem hVc.2
                                (show (b.1, b.2) ∈ vs by simpa using hb)).2
                              (noneFreeEntries_mem hnvs
                                (show (b.1, b.2) ∈ vs by simpa using hb)).2
                              hrec)
                          vs [] ss [] out (by simp) hf0
                          (fun x hx => absurd hx (by simp))
                          (by rw [List.append_nil]; exact HpairS2)
                          (by rw [List.append_nil]; exact hm)
                      subst hout
                      have hmatch := missing_empty_forall hmiss
                      have hfinal : List.Forall₂ (fun sch c =>
                          c.1 = sch.1 ∧
                          validate_against_schema g sch.2 c.2 = .ok c.2 ∧
                          wfPy c.2 = true ∧ noneFree c.2 = true) ss curF := by
                        refine forall₂_impMem hfF ?_
                        intro sch hs c hcm hR
                        obtain ⟨h1, h2⟩ := hR
                        refine ⟨h1, ?_⟩
                        cases h2 with
                        | inl hu =>
                            obtain ⟨b, hb, hbeq⟩ := hmatch sch hs
                            rw [hu.2 b hb] at hbeq
                            exact Bool.noConfusion hbeq
                        | inr hu => exact ⟨hu.1, hu.2.1, hu.2.2.1⟩
                      have hpair_split := List.pairwise_append.1 hpairF
                      refine ⟨?_, ?_, ?_⟩
                      · rw [validate_of_classify_keyedMapping
                            (Py.dict (curF ++ extF)) hc,
                          validate_keyed_mapping_dict]
                        have hmiss2 : (missingKeysOf ss
                            (curF ++ extF)).isEmpty = true := by
                          refine missing_empty_of_matches ?_
                          intro sch hs
                          obtain ⟨c, hcm, hR⟩ := forall₂_mem_left hfinal sch hs
                          refine ⟨c, List.mem_append_left _ hcm, ?_⟩
                          rw [hR.1]
                          exact pyEq_refl _
                        rw [hmiss2, if_pos rfl]
                        have hrep := merge_replay
                          (fun s v => validate_against_schema g s v)
                          (forall₂_impMem hfinal
                            (fun sch hs c hcm hR => ⟨hR.1.symm, hR.2.1⟩))
                          [] extF
                          (fun e he => absurd he (by simp))
                          (fun e he x hx => hpair_split.2.2 e
                            (by simpa using he) x hx)
                          HpairS2 hpair_split.2.1
                        rw [List.nil_append, List.nil_append] at hrep
                        rw [hrep, exceptMap_ok]
                      · show (noDupKeysB (curF ++ extF) &&
                            wfEntries (curF ++ extF)) = true
                        simp only [Bool.and_eq_true]
                        refine ⟨(noDupKeysB_iff_pairwise _).2 hpairF,
                          wfEntries_of_forall ?_⟩
                        intro e he
                        cases List.mem_append.1 he with
                        | inl h2 =>
                            obtain ⟨sch, hs, hR⟩ :=
                              forall₂_mem_right hfinal e h2
                            refine ⟨?_, hR.2.2.1⟩
                            rw [hR.1]
                            exact (wfEntries_mem hSc.2
                              (show (sch.1, sch.2) ∈ ss by simpa using hs)).1
                        | inr h2 =>
                            have hx := hextF e h2
                            exact ⟨(wfEntries_mem hVc.2
                                (show (e.1, e.2) ∈ vs by simpa using hx.1)).1,
                              (wfEntries_mem hVc.2
                                (show (e.1, e.2) ∈ vs by
                                  simpa using hx.1)).2⟩
                      · show noneFreeEntries (curF ++ extF) = true
                        refine noneFreeEntries_of_forall ?_
                        intro e he
                        cases List.mem_append.1 he with
                        | inl h2 =>
                            obtain ⟨sch, hs, hR⟩ :=
                              forall₂_mem_right hfinal e h2
                            refine ⟨?_, hR.2.2.2⟩
                            rw [hR.1]
                            obtain ⟨b, hb, hbeq⟩ := hmatch sch hs
                            have hbeq2 : pyEq sch.1 b.1 = true := by
                              rw [pyEq_symm]
                              exact hbeq
                            exact pyEq_noneFree hbeq2
                              (noneFreeEntries_mem hnvs
                                (show (b.1, b.2) ∈ vs by simpa using hb)).1
                        | inr h2 =>
                            have hx := hextF e h2
                            exact ⟨(noneFreeEntries_mem hnvs
                                (show (e.1, e.2) ∈ vs by
                                  simpa using hx.1)).1,
                              (noneFreeEntries_mem hnvs
                                (show (e.1, e.2) ∈ vs by
                                  simpa using hx.1)).2⟩
          | none => exact Except.noConfusion h
          | bool b => exact Except.noConfusion h
          | int n => exact Except.noConfusion h
          | float num den => exact Except.noConfusion h
          | str t => exact Except.noConfusion h
          | list xs => exact Except.noConfusion h
          | func f2 => exact Except.noConfusion h
      | leaf =>
          cases S with
          | func f =>
              rw [validate_func] at h
              cases f with
              | pyInt =>
                  obtain ⟨n, hn⟩ := pyIntFn_shape h
                  subst hn
                  exact ⟨rfl, rfl, rfl⟩
              | pyStr =>
                  injection h with h1
                  subst h1
                  exact ⟨rfl, rfl, rfl⟩
              | pyFloat =>
                  obtain ⟨num, den, hr, hdpos⟩ := pyFloatFn_shape hwV h
                  subst hr
                  refine ⟨rfl, ?_, rfl⟩
                  show decide (0 < den) = true
                  exact decide_eq_true hdpos
              | identity =>
                  injection h with h1
                  subst h1
                  exact ⟨rfl, hwV, hnV⟩
              | predValidator p name coercer message =>
                  have hVne : V ≠ Py.none := noneFree_ne_none hnV
                  have h2 : predicate_validator
                      (fun s v => validate_against_schema g s v)
                      p name coercer message V = Except.ok C := h
                  rw [predicate_validator_not_none _ p name coercer message V
                    hVne] at h2
                  cases hev : evalPred
                      (fun s v => validate_against_schema g s v) p
                      (applyCoercer coercer V) with
                  | error e1 =>
                      rw [hev] at h2
                      exact Except.noConfusion h2
                  | ok b =>
                      cases b with
                      | false =>
                          rw [hev] at h2
                          exact Except.noConfusion h2
                      | true =>
                          rw [hev] at h2
                          injection h2 with h1
                          subst h1
                          refine ⟨?_, applyCoercer_wf hwV,
                            applyCoercer_noneFree hnV⟩
                          have hCne : applyCoercer coercer V ≠ Py.none :=
                            applyCoercer_ne_none hVne
                          rw [validate_func]
                          have h3 : callFn
                              (fun s v => validate_against_schema g s v)
                              (Fn.predValidator p name coercer message)
                              (applyCoercer coercer V) =
                              predicate_validator
                                (fun s v => validate_against_schema g s v)
                                p name coercer message
                                (applyCoercer coercer V) := rfl
                          rw [h3, predicate_validator_not_none _ p name coercer
                            message _ hCne, applyCoercer_idem, hev]
              | curriedValidator s subj vp co =>
                  have hVne : V ≠ Py.none := noneFree_ne_none hnV
                  have h2 : validatorCall
                      (fun s2 v => validate_against_schema g s2 v)
                      s subj vp co V = Except.ok C := h
                  rw [validatorCall_not_none _ s subj vp co V hVne] at h2
                  have hws2 : wfPy s = true := hwS
                  cases hb : evalBPred (vp.getD .whenDebugging) with
                  | false =>
                      rw [hb, if_neg (by simp)] at h2
                      injection h2 with h1
                      subst h1
                      refine ⟨?_, hwV, hnV⟩
                      rw [validate_func]
                      have h3 : callFn
                          (fun s2 v => validate_against_schema g s2 v)
                          (Fn.curriedValidator s subj vp co) V =
                          validatorCall
                            (fun s2 v => validate_against_schema g s2 v)
                            s subj vp co V := rfl
                      rw [h3, validatorCall_not_none _ s subj vp co V hVne,
                        hb, if_neg (by simp)]
                  | true =>
                      rw [hb, if_pos rfl] at h2
                      cases hrec : validate_against_schema g s V with
                      | error e1 =>
                          rw [hrec] at h2
                          exact Except.noConfusion h2
                      | ok coerced =>
                          rw [hrec] at h2
                          injection h2 with h1
                          have hbun := ih hws2 hwV hnV hrec
                          cases co with
                          | true =>
                              have hC : coerced = C := h1
                              subst hC
                              refine ⟨?_, hbun.2.1, hbun.2.2⟩
                              have hCne : coerced ≠ Py.none :=
                                noneFree_ne_none hbun.2.2
                              rw [validate_func]
                              have h3 : callFn
                                  (fun s2 v => validate_against_schema g s2 v)
                                  (Fn.curriedValidator s subj vp true)
                                  coerced =
                                  validatorCall
                                    (fun s2 v =>
                                      validate_against_schema g s2 v)
                                    s subj vp true coerced := rfl
                              rw [h3, validatorCall_not_none _ s subj vp true
                                coerced hCne, hb, if_pos rfl, hbun.1]
                              rfl
                          | false =>
                              have hC : V = C := h1
                              subst hC
                              refine ⟨?_, hwV, hnV⟩
                              rw [validate_func]
                              have h3 : callFn
                                  (fun s2 v => validate_against_schema g s2 v)
                                  (Fn.curriedValidator s subj vp false) V =
                                  validatorCall
                                    (fun s2 v =>
                                      validate_against_schema g s2 v)
                                    s subj vp false V := rfl
                              rw [h3, validatorCall_not_none _ s subj vp false
                                V hVne, hb, if_pos rfl, hrec]
                              rfl
          | none =>
              rw [validate_of_classify_leaf_error V hc
                (fun f hf => Py.noConfusion hf)] at h
              exact Except.noConfusion h
          | bool b =>
              rw [validate_of_classify_leaf_error V hc
                (fun f hf => Py.noConfusion hf)] at h
              exact Except.noConfusion h
          | int n =>
              rw [validate_of_classify_leaf_error V hc
                (fun f hf => Py.noConfusion hf)] at h
              exact Except.noConfusion h
          | float num den =>
              rw [validate_of_classify_leaf_error V hc
                (fun f hf => Py.noConfusion hf)] at h
              exact Except.noConfusion h
          | str t =>
              rw [validate_of_classify_leaf_error V hc
                (fun f hf => Py.noConfusion hf)] at h
              exact Except.noConfusion h
          | list xs =>
              rw [validate_of_classify_leaf_error V hc
                (fun f hf => Py.noConfusion hf)] at h
              exact Except.noConfusion h
          | dict es =>
              rw [validate_of_classify_leaf_error V hc
                (fun f hf => Py.noConfusion hf)] at h
              exact Except.noConfusion h

/-- C2 counterexample: as stated over every schema and value the claim is
false.  The null validator applied to the null value returns the validator
itself curried (None is the data-not-supplied sentinel), and re-validating
that function object against the same schema fails with a predicate
error: the coerced output of a successful validation does not always
re-validate. -/
theorem C2_counterexample :
    validate_against_schema 5 null Py.none =
      .ok (.func (.predValidator .isNone "null" Option.none Option.none)) ∧
    validate_against_schema 5 null
      (.func (.predValidator .isNone "null" Option.none Option.none)) =
      .error (.predicateFailed .isNone "null" Option.none
        (.func (.predValidator .isNone "null" Option.none Option.none))) :=
  ⟨rfl, rfl⟩

/-- C2 (amended): for every recursion budget, well-formed schema S,
well-formed and None-free value V, if validate_against_schema(S, V)
returns C without raising, then validate_against_schema(S, C) returns C
itself without raising (idempotence of coercion). -/
theorem C2_idempotence_amended (fuel : Nat) (S V C : Py)
    (hwS : wfPy S = true) (hwV : wfPy V = true) (hnV : noneFree V = true)
    (h : validate_against_schema fuel S V = .ok C) :
    validate_against_schema fuel S C = .ok C :=
  (validate_idem_bundle fuel hwS hwV hnV h).1

/-- C2 witness: formatted_string coerces the number 112233 to the string
form, and the coerced output re-validates to itself. -/
theorem C2_witness :
    validate_against_schema 5 (formatted_string .digitsPlus)
      (.str "112233") = .ok (.str "112233") :=
  C2_idempotence_amended 5 (formatted_string .digitsPlus) (.int 112233)
    (.str "112233") rfl rfl rfl rfl

end Schemagic
